import Mathlib

/-!
# Dynamic event scheduler: embedding of `complete.cpp`

The definitions below follow `src/complete.cpp` function by function.

Modelling conventions.
* `int` and `long long` are unbounded integers (`Int`), and in `dpStep`, `WithDep.dpStep`
  and `WithoutDep.dpFrom` the sums of the score accumulators are exact. The namespaces
  `Machine` and `WithoutDep.Machine` repeat the DP loops of `complete.cpp` and
  `withoutDep.cpp` with every `long long` addition reduced by `wrapLL` into the range of
  `long long` (signed overflow wraps around in the compiled program); the results on score
  bounds and optimality are stated for them.
* `double` values of the hybrid objective (`alpha_`, `maxAtt_`, `maxRev_`) are exact
  rationals in `calculateWeight`. `Machine.calculateWeight` and
  `Machine.calculateNormalizationBounds` compute in binary64 arithmetic (`Binary64`): every
  conversion and every operation is rounded to the nearest double, ties to even, products
  and sums are not fused, `none` stands for an infinity or a NaN, and the conversion of a
  double outside the range of `long long` gives `-2 ^ 63`, as the x86-64 conversion
  instruction does.
* A `std::unordered_map<int, V>` is a function `Int → Option V`.  The only map that the
  program iterates over is `indegree` (in `topoSort`); its iteration order is not fixed by
  the language, so it is the explicit parameter `keys` of `topoSort`,
  `validateAndBuildGraph` and `run`.
* `.at(k)` on a missing key and an index outside a vector are the fault
  `Fault.outOfRange`; loops that are not structurally recursive carry a fuel counter and
  report `Fault.outOfFuel` when it is exhausted.  `run_total` shows that `run` returns a
  record, with neither fault, for every catalog and every iteration order of its key map.
* `std::sort` is a sort by end time that keeps catalog order among events of equal end
  time (the language leaves that order open).
* `std::upper_bound` is the bisection loop shared by the standard library
  implementations (halve the range, compare the middle element, continue left when the
  comparator holds and right otherwise).
* The optimiser of `src/withDep.cpp` (linear predecessor scan) is embedded in the namespace
  `WithDep`, with its globals `alpha_global`, `maxAtt`, `maxRev` as the record
  `WithDep.Globals`; it is compared with the optimiser of `complete.cpp`.
* The engine of `src/withoutDep.cpp` (`byEnd`, `buildPrevCompatible`, `weight`,
  `planEvents`) is embedded in the namespace `WithoutDep`. Its vectors `p`, `dp`, `taken`
  are lists written with `List.set`; its `int` locals are integers without overflow. The
  results about `planEvents` are proved for every vector sorted by `byEnd`, so they do not
  depend on how `std::sort` orders events equal in end and start.
-/

namespace EventScheduler

/-- Event record (`struct Event`). The field `end` of the source is `end_` here. -/
structure Event where
  id : Int
  start : Int
  end_ : Int
  attendance : Int
  revenue : Int
  venue : String
  deps : List Int
deriving DecidableEq, Repr

/-- Optimisation objective (`enum Objective`). -/
inductive Objective where
  | ATTENDANCE
  | REVENUE
  | HYBRID
deriving DecidableEq, Repr

/-- Result record (`struct ScheduleResult`). -/
structure ScheduleResult where
  total_score : Int
  chosen_events : List Event
  error_message : String
  success : Bool
deriving DecidableEq, Repr

/-- Abnormal terminations of the embedded code. -/
inductive Fault where
  | outOfRange
  | outOfFuel
deriving DecidableEq, Repr

/-- Private state of `class DynamicScheduler`. -/
structure DynamicScheduler where
  alpha_ : ℚ
  maxAtt_ : ℚ
  maxRev_ : ℚ
  events_ : List Event
  idToIdx_ : Int → Option Nat

/-- Assignment `m[k] = v` on an integer-keyed map. -/
def setKey {V : Type} (m : Int → Option V) (k : Int) (v : V) : Int → Option V :=
  fun x => if x = k then some v else m x

/-- Assignment `m[k] = v` on a string-keyed map. -/
def setVenue {V : Type} (m : String → Option V) (k : String) (v : V) : String → Option V :=
  fun x => if x = k then some v else m x

/-- Conversion `static_cast<long long>` of a rational: truncation toward zero. -/
def truncToInt (q : ℚ) : Int :=
  if 0 ≤ q then Rat.floor q else Rat.ceil q

/-- Weight of one event (`DynamicScheduler::calculateWeight`). -/
def calculateWeight (self : DynamicScheduler) (e : Event) (obj : Objective) : Int :=
  match obj with
  | Objective.ATTENDANCE => e.attendance
  | Objective.REVENUE => e.revenue
  | Objective.HYBRID =>
    let normAtt : ℚ := if self.maxAtt_ > 0 then (e.attendance : ℚ) / self.maxAtt_ else 0
    let normRev : ℚ := if self.maxRev_ > 0 then (e.revenue : ℚ) / self.maxRev_ else 0
    let score : ℚ := self.alpha_ * normAtt + (1 - self.alpha_) * normRev
    truncToInt (score * 1000000)

/-- One step `indegree.at(neighbor)--; if (indegree.at(neighbor) == 0) q.push(neighbor)` of
the inner loop of `topoSort`, on the pair (queue, indegree). -/
def relax (st : List Int × (Int → Option Int)) (neighbor : Int) :
    Except Fault (List Int × (Int → Option Int)) :=
  match st.2 neighbor with
  | none => Except.error Fault.outOfRange
  | some d =>
    if d - 1 = 0 then Except.ok (st.1 ++ [neighbor], setKey st.2 neighbor (d - 1))
    else Except.ok (st.1, setKey st.2 neighbor (d - 1))

/-- The inner `for (int neighbor : adj.at(node))` loop of `topoSort`. -/
def relaxAll : List Int → List Int × (Int → Option Int) →
    Except Fault (List Int × (Int → Option Int))
  | [], st => Except.ok st
  | neighbor :: rest, st =>
    match relax st neighbor with
    | Except.error f => Except.error f
    | Except.ok st1 => relaxAll rest st1

/-- The `while (!q.empty())` loop of `topoSort`: arguments are the fuel, the queue, the
indegree map and the output built so far. -/
def topoLoop (adj : Int → Option (List Int)) :
    Nat → List Int → (Int → Option Int) → List Int → Except Fault (List Int)
  | _, [], _, topo => Except.ok topo
  | 0, _ :: _, _, _ => Except.error Fault.outOfFuel
  | fuel + 1, node :: q, indegree, topo =>
    match adj node with
    | none => topoLoop adj fuel q indegree (topo ++ [node])
    | some ns =>
      match relaxAll ns (q, indegree) with
      | Except.error f => Except.error f
      | Except.ok st => topoLoop adj fuel st.1 st.2 (topo ++ [node])

/-- Kahn's algorithm (`DynamicScheduler::topoSort`). `keys` lists the keys of `indegree` in
the iteration order of the map; the result is the returned flag and the output `topo`. -/
def topoSort (adj : Int → Option (List Int)) (indegree : Int → Option Int)
    (keys : List Int) : Except Fault (Bool × List Int) :=
  match topoLoop adj keys.length (keys.filter (fun k => indegree k == some 0)) indegree [] with
  | Except.error f => Except.error f
  | Except.ok topo => Except.ok (topo.length == keys.length, topo)

/-- The maps `adj` and `indegree` built by `validateAndBuildGraph`. -/
structure Graph where
  adj : Int → Option (List Int)
  indegree : Int → Option Int

/-- Loop `for e : events { indegree[e.id] = 0; adj[e.id]; }`; the access `adj[e.id]` keeps
an entry that is present and inserts the empty list otherwise. -/
def initGraph (events : List Event) : Graph :=
  events.foldl
    (fun g e =>
      { adj := setKey g.adj e.id ((g.adj e.id).getD [])
        indegree := setKey g.indegree e.id 0 })
    { adj := fun _ => none, indegree := fun _ => none }

/-- Message of the unknown-dependency failure. -/
def unknownMessage (eventId depId : Int) : String :=
  "Error: Event ID " ++ toString eventId ++ " depends on unknown ID " ++ toString depId

/-- Message of the cycle failure. -/
def cycleMessage : String :=
  "Error: Dependency cycle detected. The schedule cannot be created."

/-- Message of the timing failure. -/
def timeMessage (eventId start depId depEnd : Int) : String :=
  "Error: Dependency time mismatch. Event " ++ toString eventId ++ " starts at " ++
    toString start ++ " before its dependency " ++ toString depId ++ " ends at " ++
    toString depEnd

/-- Failure record `{0, {}, message, false}`. -/
def failure (message : String) : ScheduleResult :=
  { total_score := 0, chosen_events := [], error_message := message, success := false }

/-- The set `allIds` of `validateAndBuildGraph`: the ids of the catalog events. -/
def allIds (events : List Event) : List Int :=
  events.map (fun e => e.id)

/-- Inner loop `for (int depId : e.deps)` of the graph construction: an unknown id returns
the failure record at once, otherwise the edge `depId -> e.id` is recorded. -/
def addDeps (known : List Int) (eid : Int) : List Int → Graph → Except ScheduleResult Graph
  | [], g => Except.ok g
  | depId :: rest, g =>
    if depId ∈ known then
      addDeps known eid rest
        { adj := setKey g.adj depId ((g.adj depId).getD [] ++ [eid])
          indegree := setKey g.indegree eid ((g.indegree eid).getD 0 + 1) }
    else Except.error (failure (unknownMessage eid depId))

/-- Outer loop of the graph construction. -/
def addAllDeps (known : List Int) : List Event → Graph → Except ScheduleResult Graph
  | [], g => Except.ok g
  | e :: rest, g =>
    match addDeps known e.id e.deps g with
    | Except.error r => Except.error r
    | Except.ok g1 => addAllDeps known rest g1

/-- Inner loop of the time constraint check for one event `e`. -/
def checkDepTimes (self : DynamicScheduler) (e : Event) :
    List Int → Except Fault (Option ScheduleResult)
  | [] => Except.ok none
  | depId :: rest =>
    match self.idToIdx_ depId with
    | none => Except.error Fault.outOfRange
    | some i =>
      match self.events_[i]? with
      | none => Except.error Fault.outOfRange
      | some depEvent =>
        if depEvent.end_ > e.start then
          Except.ok (some (failure (timeMessage e.id e.start depId depEvent.end_)))
        else checkDepTimes self e rest

/-- Outer loop of the time constraint check. -/
def checkAllTimes (self : DynamicScheduler) : List Event → Except Fault (Option ScheduleResult)
  | [] => Except.ok none
  | e :: rest =>
    match checkDepTimes self e e.deps with
    | Except.error f => Except.error f
    | Except.ok (some r) => Except.ok (some r)
    | Except.ok none => checkAllTimes self rest

/-- Validation (`DynamicScheduler::validateAndBuildGraph`): the returned record and the
output parameter `topo`. -/
def validateAndBuildGraph (self : DynamicScheduler) (keys : List Int) :
    Except Fault (ScheduleResult × List Int) :=
  let events := self.events_
  match addAllDeps (allIds events) events (initGraph events) with
  | Except.error r => Except.ok (r, [])
  | Except.ok g =>
    match topoSort g.adj g.indegree keys with
    | Except.error f => Except.error f
    | Except.ok (false, topo) => Except.ok (failure cycleMessage, topo)
    | Except.ok (true, topo) =>
      match checkAllTimes self events with
      | Except.error f => Except.error f
      | Except.ok (some r) => Except.ok (r, topo)
      | Except.ok none =>
        Except.ok ({ total_score := 0, chosen_events := [], error_message := "",
                     success := true }, topo)

/-- Sort by end time (`std::sort` with `a.end < b.end`). -/
def sortByEnd (l : List Event) : List Event :=
  l.insertionSort (fun a b => a.end_ ≤ b.end_)

/-- Loop `eventsByVenue[e.venue].push_back(&e)`. -/
def groupByVenue (events : List Event) : String → Option (List Event) :=
  events.foldl (fun m e => setVenue m e.venue ((m e.venue).getD [] ++ [e])) (fun _ => none)

/-- Venue index after every group has been sorted. -/
def eventsByVenue (events : List Event) : String → Option (List Event) :=
  fun v => (groupByVenue events v).map sortByEnd

/-- Bisection of `std::upper_bound(first, last, value, comp)`; `comp` is the comparator
with the searched value already supplied. Arguments: fuel, `first`, `len`. -/
def upperBound (comp : Event → Bool) (l : List Event) : Nat → Nat → Nat → Except Fault Nat
  | _, first, 0 => Except.ok first
  | 0, _, _ + 1 => Except.error Fault.outOfFuel
  | fuel + 1, first, len + 1 =>
    let half := (len + 1) / 2
    let middle := first + half
    match l[middle]? with
    | none => Except.error Fault.outOfRange
    | some m =>
      if comp m then upperBound comp l fuel first half
      else upperBound comp l fuel (middle + 1) (len + 1 - half - 1)

/-- State of the DP loop: the tables `dp`, `parent` and the running best. -/
structure DPState where
  dp : Int → Option Int
  parent : Int → Option Int
  maxTotalScore : Int
  lastEventId : Int

/-- Body of the DP loop of `planEventsWithDependencies` for one `eventId`. -/
def dpStep (self : DynamicScheduler) (obj : Objective)
    (byVenue : String → Option (List Event)) (st : DPState) (eventId : Int) :
    Except Fault DPState :=
  match self.idToIdx_ eventId with
  | none => Except.error Fault.outOfRange
  | some i =>
    match self.events_[i]? with
    | none => Except.error Fault.outOfRange
    | some currentEvent =>
      match byVenue currentEvent.venue with
      | none => Except.error Fault.outOfRange
      | some venueEvents =>
        match upperBound (fun ev => decide (currentEvent.start > ev.end_)) venueEvents
            venueEvents.length 0 venueEvents.length with
        | Except.error f => Except.error f
        | Except.ok it =>
          let found : Except Fault (Int × Int) :=
            if it ≠ 0 then
              match venueEvents[it - 1]? with
              | none => Except.error Fault.outOfRange
              | some prevEvent =>
                match st.dp prevEvent.id with
                | some s => Except.ok (s, prevEvent.id)
                | none => Except.ok (0, -1)
            else Except.ok (0, -1)
          match found with
          | Except.error f => Except.error f
          | Except.ok (bestPreviousVenueScore, bestPreviousVenueId) =>
            let currentScore :=
              currentEvent.deps.foldl
                (fun s depId => match st.dp depId with
                                | some v => s + v
                                | none => s)
                (calculateWeight self currentEvent obj + bestPreviousVenueScore)
            Except.ok
              { dp := setKey st.dp eventId currentScore
                parent := setKey st.parent eventId bestPreviousVenueId
                maxTotalScore :=
                  if currentScore > st.maxTotalScore then currentScore else st.maxTotalScore
                lastEventId :=
                  if currentScore > st.maxTotalScore then eventId else st.lastEventId }

/-- The DP loop `for (int eventId : topo)`. -/
def dpLoop (self : DynamicScheduler) (obj : Objective)
    (byVenue : String → Option (List Event)) : List Int → DPState → Except Fault DPState
  | [], st => Except.ok st
  | eventId :: rest, st =>
    match dpStep self obj byVenue st eventId with
    | Except.error f => Except.error f
    | Except.ok st1 => dpLoop self obj byVenue rest st1

/-- The recursive lambda `reconstruct`; the state is (`visited`, `chosen_schedule`). -/
def reconstruct (self : DynamicScheduler) (parent : Int → Option Int) :
    Nat → Int → List Int × List Event → Except Fault (List Int × List Event)
  | 0, _, _ => Except.error Fault.outOfFuel
  | fuel + 1, id, st =>
    if id = -1 ∨ id ∈ st.1 then Except.ok st
    else
      match self.idToIdx_ id with
      | none => Except.error Fault.outOfRange
      | some i =>
        match self.events_[i]? with
        | none => Except.error Fault.outOfRange
        | some currentEvent =>
          let afterParent : Except Fault (List Int × List Event) :=
            match parent id with
            | some p => reconstruct self parent fuel p (id :: st.1, st.2)
            | none => Except.ok (id :: st.1, st.2)
          match afterParent with
          | Except.error f => Except.error f
          | Except.ok st1 =>
            match currentEvent.deps.foldlM
                (fun s depId => reconstruct self parent fuel depId s) st1 with
            | Except.error f => Except.error f
            | Except.ok st2 => Except.ok (st2.1, st2.2 ++ [currentEvent])

/-- The optimiser (`DynamicScheduler::planEventsWithDependencies`). -/
def planEventsWithDependencies (self : DynamicScheduler) (obj : Objective)
    (topo : List Int) : Except Fault ScheduleResult :=
  match dpLoop self obj (eventsByVenue self.events_) topo
      { dp := fun _ => none, parent := fun _ => none, maxTotalScore := 0,
        lastEventId := -1 } with
  | Except.error f => Except.error f
  | Except.ok st =>
    match reconstruct self st.parent (self.events_.length + 1) st.lastEventId ([], []) with
    | Except.error f => Except.error f
    | Except.ok out =>
      Except.ok { total_score := st.maxTotalScore, chosen_events := sortByEnd out.2,
                  error_message := "", success := true }

/-- Normalisation bounds (`DynamicScheduler::calculateNormalizationBounds`). -/
def calculateNormalizationBounds (self : DynamicScheduler) (events : List Event) :
    DynamicScheduler :=
  events.foldl
    (fun s e => { s with maxAtt_ := max s.maxAtt_ (e.attendance : ℚ)
                         maxRev_ := max s.maxRev_ (e.revenue : ℚ) })
    { self with maxAtt_ := 1, maxRev_ := 1 }

/-- Loop `idToIdx_[events[i].id] = i` starting at index `i`. -/
def fillIdToIdx : List Event → Nat → (Int → Option Nat) → (Int → Option Nat)
  | [], _, m => m
  | e :: rest, i, m => fillIdToIdx rest (i + 1) (setKey m e.id i)

/-- Public entry point (`DynamicScheduler::run`). -/
def run (self : DynamicScheduler) (keys : List Int) (events : List Event)
    (obj : Objective) : Except Fault ScheduleResult :=
  if events.isEmpty then
    Except.ok { total_score := 0, chosen_events := [], error_message := "No events provided.",
                success := true }
  else
    let self1 := calculateNormalizationBounds { self with events_ := events } events
    let self2 := { self1 with idToIdx_ := fillIdToIdx events 0 (fun _ => none) }
    match validateAndBuildGraph self2 keys with
    | Except.error f => Except.error f
    | Except.ok (validationResult, topo) =>
      if !validationResult.success then Except.ok validationResult
      else planEventsWithDependencies self2 obj topo

/-- Constructor `DynamicScheduler(double alpha = 0.5)`; the uninitialised pointer `events_`
is the empty catalog. -/
def newScheduler (alpha : ℚ) : DynamicScheduler :=
  { alpha_ := alpha, maxAtt_ := 1, maxRev_ := 1, events_ := [], idToIdx_ := fun _ => none }

/-- The predefined six-event test case of `main`. -/
def testCatalog : List Event :=
  [ { id := 1, start := 1, end_ := 3, attendance := 100, revenue := 50, venue := "HallA", deps := [] },
    { id := 2, start := 2, end_ := 4, attendance := 120, revenue := 60, venue := "HallA", deps := [] },
    { id := 3, start := 5, end_ := 7, attendance := 150, revenue := 80, venue := "HallB", deps := [] },
    { id := 4, start := 8, end_ := 9, attendance := 200, revenue := 100, venue := "HallB", deps := [3] },
    { id := 5, start := 6, end_ := 8, attendance := 180, revenue := 90, venue := "HallA", deps := [1] },
    { id := 6, start := 9, end_ := 11, attendance := 220, revenue := 110, venue := "HallC", deps := [4] } ]

/-! ## Vocabulary of the specification -/

/-- The key order `keys` is an iteration order of the `indegree` map of the catalog: it
lists every distinct event id exactly once. -/
def IsKeyOrder (events : List Event) (keys : List Int) : Prop :=
  keys.Perm (allIds events).dedup

/-- Event id `a` lists `b` as a prerequisite. -/
def DependsOn (events : List Event) (a b : Int) : Prop :=
  ∃ e ∈ events, e.id = a ∧ b ∈ e.deps

/-- The prerequisite graph contains a directed cycle (a self-dependency is one). -/
def HasCycle (events : List Event) : Prop :=
  ∃ v, Relation.TransGen (DependsOn events) v v

/-- Every prerequisite id is the id of a catalog event. -/
def AllDepsExist (events : List Event) : Prop :=
  ∀ e ∈ events, ∀ d ∈ e.deps, d ∈ allIds events

/-- The (event id, prerequisite id) pairs in catalog order: events in catalog order,
prerequisites in listed order. -/
def depPairs (events : List Event) : List (Int × Int) :=
  events.flatMap (fun e => e.deps.map (fun d => (e.id, d)))

/-- The first (event id, missing id) pair in catalog order. -/
def firstUnknown (events : List Event) : Option (Int × Int) :=
  (depPairs events).find? (fun p => decide (p.2 ∉ allIds events))

/-- The (event, prerequisite event) pairs in catalog order. -/
def eventPairs (events : List Event) : List (Event × Event) :=
  events.flatMap (fun e =>
    e.deps.flatMap (fun depId =>
      (events.filter (fun d => decide (d.id = depId))).map (fun d => (e, d))))

/-- The first (event, prerequisite) pair in catalog order whose prerequisite ends after the
event starts. -/
def firstTimeViolation (events : List Event) : Option (Event × Event) :=
  (eventPairs events).find? (fun p => decide (p.2.end_ > p.1.start))

/-- A failed result carrying the unknown-dependency error. -/
def IsUnknownError (r : ScheduleResult) : Prop :=
  r.success = false ∧ ∃ eid depId, r.error_message = unknownMessage eid depId

/-- A failed result carrying the dependency-time-mismatch error. -/
def IsTimeError (r : ScheduleResult) : Prop :=
  r.success = false ∧
    ∃ eid start depId depEnd, r.error_message = timeMessage eid start depId depEnd

/-- A failed result carrying the dependency-cycle error. -/
def IsCycleError (r : ScheduleResult) : Prop :=
  r.success = false ∧ r.error_message = cycleMessage

/-- The half-open intervals `[start, end)` of two events overlap. -/
def overlaps (a b : Event) : Bool :=
  decide (max a.start b.start < min a.end_ b.end_)

/-- Two events conflict: same venue and overlapping half-open intervals. -/
def conflicts (a b : Event) : Bool :=
  decide (a.venue = b.venue) && overlaps a b

/-- A set of events is closed under prerequisites. -/
def depClosed (s : List Event) : Bool :=
  s.all (fun e => e.deps.all (fun d => s.any (fun x => decide (x.id = d))))

/-- No two distinct events of the set conflict. -/
def conflictFree (s : List Event) : Bool :=
  s.all (fun a => s.all (fun b => decide (a = b) || !conflicts a b))

/-- Exhaustive search: the maximum, over all subsets of the catalog that are closed under
prerequisites and conflict free, of the sum of the weights `w` of the subset. -/
def bruteForceMax (w : Event → Int) (events : List Event) : Int :=
  ((events.sublists.filter (fun s => depClosed s && conflictFree s)).map
    (fun s => (s.map w).sum)).foldl max 0

/-- Edge occurrences (prerequisite id, dependent id) in the order in which
`validateAndBuildGraph` records them. -/
def edgeList (events : List Event) : List (Int × Int) :=
  events.flatMap (fun e => e.deps.map (fun d => (d, e.id)))

/-- Number of edge occurrences into `k` whose source is not in `done`. -/
def inCount (E : List (Int × Int)) (done : List Int) (k : Int) : Nat :=
  E.countP (fun p => decide (p.2 = k ∧ p.1 ∉ done))

/-- Targets of the edge occurrences leaving `node`, in recording order. -/
def outList (E : List (Int × Int)) (node : Int) : List Int :=
  (E.filter (fun p => decide (p.1 = node))).map Prod.snd

/-- The graph `g` represents the edge occurrences `E` on the key set `keys`. -/
structure GraphRep (keys : List Int) (E : List (Int × Int)) (g : Graph) : Prop where
  adj_key : ∀ k ∈ keys, g.adj k = some (outList E k)
  indeg_key : ∀ k ∈ keys, g.indegree k = some ((inCount E [] k : Nat) : Int)

/-- Loop invariant of `topoLoop` for the edge occurrences `E` on the key set `keys`. -/
structure KahnInv (keys : List Int) (E : List (Int × Int)) (q : List Int)
    (indegree : Int → Option Int) (topo : List Int) : Prop where
  nodup : (topo ++ q).Nodup
  sub : ∀ x ∈ topo ++ q, x ∈ keys
  indeg : ∀ k ∈ keys, indegree k = some ((inCount E topo k : Nat) : Int)
  pushed : ∀ k ∈ keys, k ∈ topo ++ q ↔ inCount E topo k = 0
  before : ∀ pre k post, topo ++ q = pre ++ k :: post → ∀ d, (d, k) ∈ E → d ∈ pre

/-- The scheduler state with which `run` calls validation and the optimiser: `events_`
points to the catalog, the bounds are recomputed and `idToIdx_` is rebuilt. -/
def prepared (self : DynamicScheduler) (events : List Event) : DynamicScheduler :=
  { calculateNormalizationBounds { self with events_ := events } events with
    idToIdx_ := fillIdToIdx events 0 (fun _ => none) }

/-- Record returned by a successful validation. -/
def validationOk : ScheduleResult :=
  { total_score := 0, chosen_events := [], error_message := "", success := true }

/-- The failure record of a timing violation between an event and its prerequisite. -/
def timeFailure (p : Event × Event) : ScheduleResult :=
  failure (timeMessage p.1.id p.1.start p.2.id p.2.end_)

/-- Relation between the state of `reconstruct` before and after a call: `visited` and
`chosen_schedule` only grow, every newly visited id has its event pushed and its
prerequisites visited (or equal to the sentinel `-1`), and every pushed event is the event
of a visited id. -/
structure Recon (sch : DynamicScheduler) (st st1 : List Int × List Event) : Prop where
  vis : ∀ x ∈ st.1, x ∈ st1.1
  cho : ∀ ev ∈ st.2, ev ∈ st1.2
  newId : ∀ x ∈ st1.1, x ∉ st.1 → ∃ i ev, sch.idToIdx_ x = some i ∧
    sch.events_[i]? = some ev ∧ ev ∈ st1.2 ∧ ∀ d ∈ ev.deps, d = -1 ∨ d ∈ st1.1
  newEv : ∀ ev ∈ st1.2, ev ∉ st.2 → ∃ x i, x ∈ st1.1 ∧ sch.idToIdx_ x = some i ∧
    sch.events_[i]? = some ev

/-- The distinct catalog ids that are not yet in `visited`. -/
def unvisited (events : List Event) (visited : List Int) : List Int :=
  (allIds events).dedup.filter (fun k => decide (k ∉ visited))

/-- Invariant of the DP loop used for `reconstruct`: the best terminal id and every
recorded venue parent is the sentinel `-1` or a catalog id. -/
structure DPGood (events : List Event) (st : DPState) : Prop where
  last : st.lastEventId = -1 ∨ st.lastEventId ∈ allIds events
  par : ∀ k p, st.parent k = some p → p = -1 ∨ p ∈ allIds events

/-! ## Concrete catalogs -/

/-- A catalog in which event 3 (venue A, `[1,5)`) depends on event 1 and overlaps event 2
(venue A, `[2,6)`). -/
def overlapCatalog : List Event :=
  [ { id := 1, start := 0, end_ := 1, attendance := 1, revenue := 1, venue := "B", deps := [] },
    { id := 2, start := 2, end_ := 6, attendance := 10, revenue := 10, venue := "A", deps := [] },
    { id := 3, start := 1, end_ := 5, attendance := 10, revenue := 10, venue := "A", deps := [1] } ]

/-- Three consecutive events in one venue, no prerequisites. -/
def chainCatalog : List Event :=
  [ { id := 1, start := 0, end_ := 1, attendance := 10, revenue := 10, venue := "A", deps := [] },
    { id := 2, start := 2, end_ := 3, attendance := 10, revenue := 10, venue := "A", deps := [] },
    { id := 3, start := 4, end_ := 5, attendance := 10, revenue := 10, venue := "A", deps := [] } ]

/-- A catalog whose event 2 has the prerequisite whose id is `-1`. -/
def minusOneCatalog : List Event :=
  [ { id := -1, start := 0, end_ := 1, attendance := 1, revenue := 1, venue := "A", deps := [] },
    { id := 2, start := 1, end_ := 2, attendance := 5, revenue := 5, venue := "B", deps := [-1] } ]

/-- Event 2 depends on event 1; event 3 is independent. -/
def dupCatalog : List Event :=
  [ { id := 1, start := 0, end_ := 1, attendance := 10, revenue := 10, venue := "A", deps := [] },
    { id := 2, start := 1, end_ := 2, attendance := 5, revenue := 5, venue := "B", deps := [1] },
    { id := 3, start := 0, end_ := 1, attendance := 18, revenue := 18, venue := "C", deps := [] } ]

/-- The catalog `dupCatalog` with the prerequisite of event 2 repeated. -/
def dupCatalogRepeated : List Event :=
  [ { id := 1, start := 0, end_ := 1, attendance := 10, revenue := 10, venue := "A", deps := [] },
    { id := 2, start := 1, end_ := 2, attendance := 5, revenue := 5, venue := "B", deps := [1, 1] },
    { id := 3, start := 0, end_ := 1, attendance := 18, revenue := 18, venue := "C", deps := [] } ]

/-- Two events that depend on each other. -/
def mutualCatalog : List Event :=
  [ { id := 1, start := 0, end_ := 1, attendance := 1, revenue := 1, venue := "A", deps := [2] },
    { id := 2, start := 1, end_ := 2, attendance := 1, revenue := 1, venue := "A", deps := [1] } ]

/-- Event 1 lists the prerequisite 7, which no event carries. -/
def unknownCatalog : List Event :=
  [ { id := 1, start := 0, end_ := 1, attendance := 1, revenue := 1, venue := "A", deps := [7] },
    { id := 2, start := 1, end_ := 2, attendance := 1, revenue := 1, venue := "A", deps := [1, 9] } ]

/-- Event 2 starts at 3, before its prerequisite 1 ends at 5. -/
def lateCatalog : List Event :=
  [ { id := 1, start := 0, end_ := 5, attendance := 1, revenue := 1, venue := "A", deps := [] },
    { id := 2, start := 3, end_ := 6, attendance := 1, revenue := 1, venue := "B", deps := [1] } ]

/-- What `run` returns on `testCatalog` under the attendance objective: score 570 and the
events 3, 4, 6. -/
def testResult : ScheduleResult :=
  { total_score := 570
    chosen_events :=
      [ { id := 3, start := 5, end_ := 7, attendance := 150, revenue := 80, venue := "HallB", deps := [] },
        { id := 4, start := 8, end_ := 9, attendance := 200, revenue := 100, venue := "HallB", deps := [3] },
        { id := 6, start := 9, end_ := 11, attendance := 220, revenue := 110, venue := "HallC", deps := [4] } ]
    error_message := ""
    success := true }

/-- What `run` returns on `overlapCatalog` under the attendance objective: score 21 and the
events 1, 3, 2. -/
def overlapResult : ScheduleResult :=
  { total_score := 21
    chosen_events :=
      [ { id := 1, start := 0, end_ := 1, attendance := 1, revenue := 1, venue := "B", deps := [] },
        { id := 3, start := 1, end_ := 5, attendance := 10, revenue := 10, venue := "A", deps := [1] },
        { id := 2, start := 2, end_ := 6, attendance := 10, revenue := 10, venue := "A", deps := [] } ]
    error_message := ""
    success := true }

/-- What `run` returns on `minusOneCatalog` under the attendance objective: score 6 and the
event 2 alone. -/
def minusOneResult : ScheduleResult :=
  { total_score := 6
    chosen_events :=
      [ { id := 2, start := 1, end_ := 2, attendance := 5, revenue := 5, venue := "B", deps := [-1] } ]
    error_message := ""
    success := true }

/-- What `run` returns on `dupCatalog` under the attendance objective: score 18 and the
event 3 alone. -/
def dupResult : ScheduleResult :=
  { total_score := 18
    chosen_events :=
      [ { id := 3, start := 0, end_ := 1, attendance := 18, revenue := 18, venue := "C", deps := [] } ]
    error_message := ""
    success := true }

/-- What `run` returns on `dupCatalogRepeated` under the attendance objective: score 25 and
the events 1, 2. -/
def dupRepeatedResult : ScheduleResult :=
  { total_score := 25
    chosen_events :=
      [ { id := 1, start := 0, end_ := 1, attendance := 10, revenue := 10, venue := "A", deps := [] },
        { id := 2, start := 1, end_ := 2, attendance := 5, revenue := 5, venue := "B", deps := [1, 1] } ]
    error_message := ""
    success := true }

/-- The score of an outcome, when the run returned a successful record. -/
def scoreOf (out : Except Fault ScheduleResult) : Option Int :=
  match out with
  | Except.ok r => if r.success then some r.total_score else none
  | Except.error _ => none

/-- Equality of outcomes is decidable. -/
instance instDecidableEqOutcome : DecidableEq (Except Fault ScheduleResult)
  | Except.ok a, Except.ok b =>
    if h : a = b then isTrue (by rw [h]) else isFalse (fun h1 => h (Except.ok.inj h1))
  | Except.error a, Except.error b =>
    if h : a = b then isTrue (by rw [h]) else isFalse (fun h1 => h (Except.error.inj h1))
  | Except.ok _, Except.error _ => isFalse (fun h => Except.noConfusion h)
  | Except.error _, Except.ok _ => isFalse (fun h => Except.noConfusion h)

/-! ## The venue query of `complete.cpp` on its own -/

/-- The candidate predecessor of `planEventsWithDependencies` (lines 216 to 223 of
`complete.cpp`): the `upper_bound` call on the venue list and, when the iterator is not
`begin()`, the element before it. -/
def venueCandidate (currentEvent : Event) (venueEvents : List Event) :
    Except Fault (Option Event) :=
  match upperBound (fun ev => decide (currentEvent.start > ev.end_)) venueEvents
      venueEvents.length 0 venueEvents.length with
  | Except.error f => Except.error f
  | Except.ok it =>
    if it ≠ 0 then
      match venueEvents[it - 1]? with
      | none => Except.error Fault.outOfRange
      | some prevEvent => Except.ok (some prevEvent)
    else Except.ok none

/-- The rightmost element of a list whose end time is at most `start`. -/
def rightmostCompatible (start : Int) (l : List Event) : Option Event :=
  (l.filter (fun ev => decide (ev.end_ ≤ start))).getLast?

/-- The catalog passes validation: every prerequisite id exists, the prerequisite graph is
acyclic and every prerequisite ends no later than its dependent starts. -/
def PassesValidation (events : List Event) : Prop :=
  AllDepsExist events ∧ ¬ HasCycle events ∧
    ∀ e ∈ events, ∀ d ∈ events, d.id ∈ e.deps → d.end_ ≤ e.start

/-- The bound `max(1, maximum of the values)` of the normalisation. -/
def specBound (vals : List Int) : ℚ :=
  match vals.max? with
  | some m => max 1 (m : ℚ)
  | none => 1

/-- The hybrid score of the specification, in exact rational arithmetic:
`(alpha * attendance / mA + (1 - alpha) * revenue / mR) * 1000000` truncated toward zero. -/
def specHybrid (alpha mA mR : ℚ) (e : Event) : Int :=
  truncToInt ((alpha * (e.attendance : ℚ) / mA + (1 - alpha) * (e.revenue : ℚ) / mR) * 1000000)

/-! ## The linear-scan engine of `withDep.cpp` -/

namespace WithDep

/-- The globals `alpha_global`, `maxAtt`, `maxRev` of `withDep.cpp`. -/
structure Globals where
  alpha_global : ℚ
  maxAtt : ℚ
  maxRev : ℚ

/-- Weight of one event (`weight` of `withDep.cpp`); it divides by the bounds without a
guard. -/
def weight (g : Globals) (a : Event) (obj : Objective) : Int :=
  match obj with
  | Objective.ATTENDANCE => a.attendance
  | Objective.REVENUE => a.revenue
  | Objective.HYBRID =>
    let normAtt : ℚ := (a.attendance : ℚ) / g.maxAtt
    let normRev : ℚ := (a.revenue : ℚ) / g.maxRev
    let score : ℚ := g.alpha_global * normAtt + (1 - g.alpha_global) * normRev
    truncToInt (score * 1000000)

/-- State of the DP loop of `withDep.cpp`. -/
structure DPState where
  dp : Int → Option Int
  parent : Int → Option Int
  maxScore : Int
  lastEventId : Int

/-- The predecessor scan `for (const auto& prevEvent : venueEvents)`; the pair is
(`bestPreviousScore`, `bestPreviousId`). -/
def scanVenue (dp : Int → Option Int) (start : Int) : List Event → Int × Int → Int × Int
  | [], best => best
  | prevEvent :: rest, best =>
    if prevEvent.end_ ≤ start then
      match dp prevEvent.id with
      | some v =>
        if v > best.1 then scanVenue dp start rest (v, prevEvent.id)
        else scanVenue dp start rest best
      | none => scanVenue dp start rest best
    else scanVenue dp start rest best

/-- Body of the DP loop of `withDep.cpp` for one `eventId`. -/
def dpStep (g : Globals) (events : List Event) (obj : Objective)
    (IdtoIdx : Int → Option Nat) (byVenue : String → Option (List Event)) (st : DPState)
    (eventId : Int) : Except Fault DPState :=
  match IdtoIdx eventId with
  | none => Except.error Fault.outOfRange
  | some i =>
    match events[i]? with
    | none => Except.error Fault.outOfRange
    | some currentEvent =>
      match byVenue currentEvent.venue with
      | none => Except.error Fault.outOfRange
      | some venueEvents =>
        let best := scanVenue st.dp currentEvent.start venueEvents (0, -1)
        let currentScore :=
          currentEvent.deps.foldl
            (fun s depId => match st.dp depId with
                            | some v => s + v
                            | none => s)
            (weight g currentEvent obj + best.1)
        Except.ok
          { dp := setKey st.dp eventId currentScore
            parent := setKey st.parent eventId best.2
            maxScore := if currentScore > st.maxScore then currentScore else st.maxScore
            lastEventId := if currentScore > st.maxScore then eventId else st.lastEventId }

/-- The DP loop `for (int eventId : topo)` of `withDep.cpp`. -/
def dpLoop (g : Globals) (events : List Event) (obj : Objective)
    (IdtoIdx : Int → Option Nat) (byVenue : String → Option (List Event)) :
    List Int → DPState → Except Fault DPState
  | [], st => Except.ok st
  | eventId :: rest, st =>
    match dpStep g events obj IdtoIdx byVenue st eventId with
    | Except.error f => Except.error f
    | Except.ok st1 => dpLoop g events obj IdtoIdx byVenue rest st1

/-- The recursive lambda `reconstruct` of `withDep.cpp`; the state is (`visited`,
`chosen`) and the id is pushed before the recursion. -/
def reconstruct (events : List Event) (IdtoIdx : Int → Option Nat)
    (parent : Int → Option Int) :
    Nat → Int → List Int × List Int → Except Fault (List Int × List Int)
  | 0, _, _ => Except.error Fault.outOfFuel
  | fuel + 1, id, st =>
    if id = -1 ∨ id ∈ st.1 then Except.ok st
    else
      match IdtoIdx id with
      | none => Except.error Fault.outOfRange
      | some i =>
        match events[i]? with
        | none => Except.error Fault.outOfRange
        | some currentEvent =>
          let afterParent : Except Fault (List Int × List Int) :=
            match parent id with
            | some p => reconstruct events IdtoIdx parent fuel p (id :: st.1, st.2 ++ [id])
            | none => Except.ok (id :: st.1, st.2 ++ [id])
          match afterParent with
          | Except.error f => Except.error f
          | Except.ok st1 =>
            currentEvent.deps.foldlM
              (fun s depId => reconstruct events IdtoIdx parent fuel depId s) st1

/-- The optimiser of `withDep.cpp` (`planEventsWithDependencies`): the maximum score and
the chosen ids. The parameters `adj` and `indegree` of the source are not read. -/
def planEventsWithDependencies (g : Globals) (events : List Event) (obj : Objective)
    (IdtoIdx : Int → Option Nat) (topo : List Int) : Except Fault (Int × List Int) :=
  match dpLoop g events obj IdtoIdx (eventsByVenue events) topo
      { dp := fun _ => none, parent := fun _ => none, maxScore := 0, lastEventId := -1 } with
  | Except.error f => Except.error f
  | Except.ok st =>
    match reconstruct events IdtoIdx st.parent (events.length + 1) st.lastEventId ([], []) with
    | Except.error f => Except.error f
    | Except.ok out => Except.ok (st.maxScore, out.2.reverse)

end WithDep

/-- The venue list of `chainCatalog`, sorted by end time. -/
def chainVenue : List Event :=
  sortByEnd chainCatalog

/-- Event 1 of `chainCatalog`. -/
def chainFirst : Event :=
  { id := 1, start := 0, end_ := 1, attendance := 10, revenue := 10, venue := "A", deps := [] }

/-- Event 2 of `chainCatalog`. -/
def chainSecond : Event :=
  { id := 2, start := 2, end_ := 3, attendance := 10, revenue := 10, venue := "A", deps := [] }

/-- Event 3 of `chainCatalog`. -/
def chainThird : Event :=
  { id := 3, start := 4, end_ := 5, attendance := 10, revenue := 10, venue := "A", deps := [] }

/-- Three events whose weights are zero under the attendance objective. -/
def zeroCatalog : List Event :=
  [ { id := 1, start := 0, end_ := 1, attendance := 0, revenue := 3, venue := "A", deps := [] },
    { id := 2, start := 1, end_ := 2, attendance := 0, revenue := 4, venue := "A", deps := [1] },
    { id := 3, start := 2, end_ := 3, attendance := 0, revenue := 5, venue := "B", deps := [1, 2] } ]

/-- Event 1 is a prerequisite of the two chosen events 2 and 3, which are both
prerequisites of event 4. -/
def sharedCatalog : List Event :=
  [ { id := 1, start := 0, end_ := 1, attendance := 5, revenue := 5, venue := "A", deps := [] },
    { id := 2, start := 1, end_ := 2, attendance := 5, revenue := 5, venue := "B", deps := [1] },
    { id := 3, start := 1, end_ := 4, attendance := 5, revenue := 5, venue := "C", deps := [1] },
    { id := 4, start := 4, end_ := 5, attendance := 5, revenue := 5, venue := "C", deps := [2, 3] } ]

/-- What `run` returns on `sharedCatalog` under the attendance objective: score 25 and all
four events. -/
def sharedResult : ScheduleResult :=
  { total_score := 25
    chosen_events :=
      [ { id := 1, start := 0, end_ := 1, attendance := 5, revenue := 5, venue := "A", deps := [] },
        { id := 2, start := 1, end_ := 2, attendance := 5, revenue := 5, venue := "B", deps := [1] },
        { id := 3, start := 1, end_ := 4, attendance := 5, revenue := 5, venue := "C", deps := [1] },
        { id := 4, start := 4, end_ := 5, attendance := 5, revenue := 5, venue := "C", deps := [2, 3] } ]
    error_message := ""
    success := true }

/-- A chain in one venue: event 2 depends on event 1 and event 3 on event 2, so `[1, 2, 3]`
is the only topological order. -/
def depChainCatalog : List Event :=
  [ { id := 1, start := 0, end_ := 1, attendance := 10, revenue := 10, venue := "A", deps := [] },
    { id := 2, start := 2, end_ := 3, attendance := 10, revenue := 10, venue := "A", deps := [1] },
    { id := 3, start := 4, end_ := 5, attendance := 10, revenue := 10, venue := "A", deps := [2] } ]

/-- The globals of `withDep.cpp` as `main` leaves them for `depChainCatalog`: default alpha
and the bounds `max(1, 10)`. -/
def depChainGlobals : WithDep.Globals :=
  { alpha_global := 1 / 2, maxAtt := 10, maxRev := 10 }

/-- What the optimiser of `complete.cpp` returns on `depChainCatalog` under the attendance
objective: score 30 and the three events. -/
def depChainResult : ScheduleResult :=
  { total_score := 30, chosen_events := depChainCatalog, error_message := "", success := true }

/-- The list `topo` is a topological order of the catalog: it lists every distinct id once
and every prerequisite id before the ids that depend on it. -/
def isTopoOrder (events : List Event) (topo : List Int) : Bool :=
  decide (topo.Perm (allIds events).dedup) &&
    events.all (fun e => e.deps.all (fun d => decide (topo.indexOf d < topo.indexOf e.id)))

/-- Relation between the state of `reconstruct` before and after a call that tracks what is
pushed: `visited` only grows, `chosen_schedule` is extended by events whose ids were
visited during the call, and the ids of the pushed events are pairwise distinct. -/
def FreshPush (st st1 : List Int × List Event) : Prop :=
  (∀ x ∈ st.1, x ∈ st1.1) ∧
    ∃ pushed : List Event, st1.2 = st.2 ++ pushed ∧
      (∀ ev ∈ pushed, ev.id ∈ st1.1 ∧ ev.id ∉ st.1) ∧ (pushed.map (fun e => e.id)).Nodup

/-- Invariant of the DP loop when every weight is zero: every DP value is 0, the running
maximum is 0 and no terminal event has been recorded. -/
def ZeroState (st : DPState) : Prop :=
  (∀ k v, st.dp k = some v → v = 0) ∧ st.maxTotalScore = 0 ∧ st.lastEventId = -1

/-- A scheduler object with blend coefficient `1/2` that carries leftover state of an
earlier run: bounds, catalog pointer and index map. -/
def staleScheduler : DynamicScheduler :=
  { alpha_ := 1 / 2, maxAtt_ := 77, maxRev_ := 3, events_ := chainCatalog,
    idToIdx_ := fun k => if k = 1 then some 5 else none }

/-- Equality of faulting computations is decidable. -/
instance instDecidableEqExcept {α : Type} [DecidableEq α] : DecidableEq (Except Fault α)
  | Except.ok a, Except.ok b =>
    if h : a = b then isTrue (by rw [h]) else isFalse (fun h1 => h (Except.ok.inj h1))
  | Except.error a, Except.error b =>
    if h : a = b then isTrue (by rw [h]) else isFalse (fun h1 => h (Except.error.inj h1))
  | Except.ok _, Except.error _ => isFalse (fun h => Except.noConfusion h)
  | Except.error _, Except.ok _ => isFalse (fun h => Except.noConfusion h)

/-! ## The dependency-free engine of `withoutDep.cpp` -/

namespace WithoutDep

/-- The globals `alpha_global`, `maxAtt`, `maxRev` of `withoutDep.cpp`. -/
structure Globals where
  alpha_global : ℚ
  maxAtt : ℚ
  maxRev : ℚ

/-- Comparator `byEnd`: by end time, ties by start time. -/
def byEnd (a b : Event) : Bool :=
  if a.end_ ≠ b.end_ then decide (a.end_ < b.end_) else decide (a.start < b.start)

/-- The call `sort(ev.begin(), ev.end(), byEnd)`: a sort that keeps catalog order among
events equal in end and start. -/
def sortByEndStart (ev : List Event) : List Event :=
  ev.insertionSort (fun a b => byEnd b a = false)

/-- Inner loop `for (int j = i - 1; j >= 0; j--)` of `buildPrevCompatible` for the event
`cur = ev[i]`; the argument is `j + 1` and the result is the value left in `p[i]`. -/
def scanBack (ev : List Event) (cur : Event) : Nat → Except Fault Int
  | 0 => Except.ok (-1)
  | j + 1 =>
    match ev[j]? with
    | none => Except.error Fault.outOfRange
    | some e =>
      if e.venue = cur.venue ∧ e.end_ ≤ cur.start then Except.ok (j : Int)
      else scanBack ev cur j

/-- Outer loop `for (int i = 0; i < n; i++)` of `buildPrevCompatible`: `k` iterations are
left, starting at index `i`, on the vector `p`. -/
def buildFrom (ev : List Event) : Nat → Nat → List Int → Except Fault (List Int)
  | 0, _, p => Except.ok p
  | k + 1, i, p =>
    match ev[i]? with
    | none => Except.error Fault.outOfRange
    | some cur =>
      match scanBack ev cur i with
      | Except.error f => Except.error f
      | Except.ok j => buildFrom ev k (i + 1) (p.set i j)

/-- The function `buildPrevCompatible`: `p[i]` is the largest `j < i` with the venue of
`ev[i]` and `ev[j].end <= ev[i].start`, or `-1`. -/
def buildPrevCompatible (ev : List Event) : Except Fault (List Int) :=
  buildFrom ev ev.length 0 (List.replicate ev.length (-1))

/-- Weight of one event (`weight` of `withoutDep.cpp`). The locals `normAtt`, `normRev`
and `score` are declared `int`, so each of the three values is truncated. -/
def weight (g : Globals) (a : Event) (obj : Objective) : Int :=
  match obj with
  | Objective.ATTENDANCE => a.attendance
  | Objective.REVENUE => a.revenue
  | Objective.HYBRID =>
    let normAtt : Int := truncToInt ((a.attendance : ℚ) / g.maxAtt)
    let normRev : Int := truncToInt ((a.revenue : ℚ) / g.maxRev)
    let score : Int :=
      truncToInt (g.alpha_global * (normAtt : ℚ) + (1 - g.alpha_global) * (normRev : ℚ))
    truncToInt ((score : ℚ) * 1000000)

/-- Element `v[i]` of a vector for an `int` index. -/
def at_ {α : Type} (v : List α) (i : Int) : Except Fault α :=
  if i < 0 then Except.error Fault.outOfRange
  else
    match v[i.toNat]? with
    | none => Except.error Fault.outOfRange
    | some x => Except.ok x

/-- The DP loop `for (int i = 1; i < n; i++)` of `planEvents`: `k` iterations are left,
starting at index `i`, on the pair (`dp`, `taken`); `incl` and `excl` are the locals
`include` and `exclude`. -/
def dpFrom (g : Globals) (obj : Objective) (ev : List Event) (p : List Int) :
    Nat → Nat → List Int × List Int → Except Fault (List Int × List Int)
  | 0, _, st => Except.ok st
  | k + 1, i, st =>
    match ev[i]? with
    | none => Except.error Fault.outOfRange
    | some e =>
      match p[i]? with
      | none => Except.error Fault.outOfRange
      | some pi =>
        let included : Except Fault Int :=
          if pi ≠ -1 then
            match at_ st.1 pi with
            | Except.error f => Except.error f
            | Except.ok v => Except.ok (weight g e obj + v)
          else Except.ok (weight g e obj)
        match included with
        | Except.error f => Except.error f
        | Except.ok incl =>
          match st.1[i - 1]? with
          | none => Except.error Fault.outOfRange
          | some excl =>
            if incl > excl then
              dpFrom g obj ev p k (i + 1) (st.1.set i incl, st.2.set i 1)
            else dpFrom g obj ev p k (i + 1) (st.1.set i excl, st.2)

/-- The loop `for (int i = n - 1; i >= 0;)` of `planEvents` that collects the chosen ids. -/
def traceBack (ev : List Event) (p taken : List Int) :
    Nat → Int → List Int → Except Fault (List Int)
  | 0, _, _ => Except.error Fault.outOfFuel
  | fuel + 1, i, chosen =>
    if i ≥ 0 then
      match taken[i.toNat]? with
      | none => Except.error Fault.outOfRange
      | some t =>
        if t ≠ 0 then
          match ev[i.toNat]? with
          | none => Except.error Fault.outOfRange
          | some e =>
            match p[i.toNat]? with
            | none => Except.error Fault.outOfRange
            | some pi => traceBack ev p taken fuel pi (chosen ++ [e.id])
        else traceBack ev p taken fuel (i - 1) chosen
    else Except.ok chosen

/-- The body of `planEvents` after the sort, on the sorted vector `ev`. -/
def planSorted (g : Globals) (ev : List Event) (obj : Objective) :
    Except Fault (Int × List Int) :=
  if ev.length = 0 then Except.ok (0, [])
  else
    match buildPrevCompatible ev with
    | Except.error f => Except.error f
    | Except.ok p =>
      match ev[0]? with
      | none => Except.error Fault.outOfRange
      | some first =>
        match dpFrom g obj ev p (ev.length - 1) 1
            ((List.replicate ev.length 0).set 0 (weight g first obj),
             (List.replicate ev.length 0).set 0 1) with
        | Except.error f => Except.error f
        | Except.ok st =>
          match traceBack ev p st.2 (ev.length + 1) ((ev.length : Int) - 1) [] with
          | Except.error f => Except.error f
          | Except.ok chosen =>
            match st.1[ev.length - 1]? with
            | none => Except.error Fault.outOfRange
            | some best => Except.ok (best, chosen.reverse)

/-- The function `planEvents`: the score and the chosen ids. -/
def planEvents (g : Globals) (events : List Event) (obj : Objective) :
    Except Fault (Int × List Int) :=
  planSorted g (sortByEndStart events) obj

/-- The predefined test case of `main` in `withoutDep.cpp`; the venue and the
prerequisites are left empty by the initialiser lists. -/
def testCase : List Event :=
  [ { id := 1, start := 1, end_ := 4, attendance := 100, revenue := 200, venue := "", deps := [] },
    { id := 2, start := 2, end_ := 6, attendance := 150, revenue := 250, venue := "", deps := [] },
    { id := 3, start := 5, end_ := 7, attendance := 120, revenue := 220, venue := "", deps := [] },
    { id := 4, start := 6, end_ := 9, attendance := 200, revenue := 300, venue := "", deps := [] },
    { id := 5, start := 8, end_ := 10, attendance := 180, revenue := 280, venue := "", deps := [] } ]

/-- The globals as `main` leaves them for `testCase`. -/
def testGlobals : Globals :=
  { alpha_global := 1 / 2, maxAtt := 200, maxRev := 300 }

end WithoutDep

/-! ## Vocabulary and catalogs for the engines without the binary search -/

/-- Two events do not overlap in time: one ends at or before the other starts. -/
def disjointInTime (a b : Event) : Prop :=
  a.end_ ≤ b.start ∨ b.end_ ≤ a.start

instance instDecidableDisjoint : DecidableRel disjointInTime :=
  fun a b => inferInstanceAs (Decidable (a.end_ ≤ b.start ∨ b.end_ ≤ a.start))

/-- Sum of the weights `w` of a list of events. -/
def weightSum (w : Event → Int) (l : List Event) : Int :=
  (l.map w).sum

/-- Exhaustive search: the maximum, over all subsets of pairwise non-overlapping events of
the catalog, of the sum of their weights `w`. -/
def maxDisjointScore (w : Event → Int) (events : List Event) : Int :=
  ((events.sublists.filter (fun s => decide (s.Pairwise disjointInTime))).map
    (weightSum w)).foldl max 0

/-- Two events in one venue, the earlier one with the id `-1`. -/
def sentinelVenueCatalog : List Event :=
  [ { id := -1, start := 0, end_ := 1, attendance := 5, revenue := 5, venue := "A", deps := [] },
    { id := 2, start := 1, end_ := 2, attendance := 5, revenue := 5, venue := "A", deps := [] } ]

/-- Two events in one venue; event 1 starts at 10 and ends at 4, so event 2 (`[3, 5]`) ends
before event 1 starts. -/
def invertedCatalog : List Event :=
  [ { id := 1, start := 10, end_ := 4, attendance := 10, revenue := 10, venue := "", deps := [] },
    { id := 2, start := 3, end_ := 5, attendance := 10, revenue := 10, venue := "", deps := [] } ]

/-- Two events with the same id 1 and an event that depends on that id. -/
def twinCatalog : List Event :=
  [ { id := 1, start := 0, end_ := 1, attendance := 5, revenue := 5, venue := "A", deps := [] },
    { id := 1, start := 1, end_ := 2, attendance := 7, revenue := 7, venue := "A", deps := [] },
    { id := 2, start := 2, end_ := 3, attendance := 4, revenue := 4, venue := "A", deps := [1] } ]

/-- Event 1 of `WithoutDep.testCase`. -/
def testCaseFirst : Event :=
  { id := 1, start := 1, end_ := 4, attendance := 100, revenue := 200, venue := "", deps := [] }

/-- The scheduler of `complete.cpp` with alpha 1/2 and the bounds of `WithoutDep.testCase`. -/
def testCaseScheduler : DynamicScheduler :=
  { alpha_ := 1 / 2, maxAtt_ := 200, maxRev_ := 300, events_ := WithoutDep.testCase,
    idToIdx_ := fillIdToIdx WithoutDep.testCase 0 (fun _ => none) }

/-- Event 2 of `depChainCatalog`. -/
def depChainSecond : Event :=
  { id := 2, start := 2, end_ := 3, attendance := 10, revenue := 10, venue := "A", deps := [1] }

/-- The DP state of `withDep.cpp` on `depChainCatalog` once event 1 has been processed. -/
def depChainState : WithDep.DPState :=
  { dp := setKey (fun _ => none) 1 10, parent := setKey (fun _ => none) 1 (-1),
    maxScore := 10, lastEventId := 1 }

/-! ## Tables of the dependency-free engine -/

namespace WithoutDep

/-- What `buildPrevCompatible` leaves in `p` for the vector `s`: `p[i]` is `-1` or the
largest index below `i` of an event in the venue of `s[i]` that ends by the start of
`s[i]`. -/
structure PrevTable (s : List Event) (p : List Int) : Prop where
  len : p.length = s.length
  lower : ∀ i, i < s.length → -1 ≤ p.getD i (-1)
  upper : ∀ i, i < s.length → p.getD i (-1) < (i : Int)
  hit : ∀ i cur, s[i]? = some cur → p.getD i (-1) ≠ -1 →
    ∃ e, s[(p.getD i (-1)).toNat]? = some e ∧ e.venue = cur.venue ∧ e.end_ ≤ cur.start
  miss : ∀ i cur (k : Nat) e, s[i]? = some cur → p.getD i (-1) < (k : Int) → k < i →
    s[k]? = some e → ¬ (e.venue = cur.venue ∧ e.end_ ≤ cur.start)

/-- The value of the local `include` at index `i`. -/
def inclValue (w : Event → Int) (p dp : List Int) (i : Nat) (e : Event) : Int :=
  w e + (if p.getD i (-1) = -1 then 0 else dp.getD (p.getD i (-1)).toNat 0)

/-- What the DP loop of `planEvents` has left in `dp` and `taken` below index `m`. -/
structure DPTable (w : Event → Int) (s : List Event) (p dp taken : List Int) (m : Nat) :
    Prop where
  lenD : dp.length = s.length
  lenT : taken.length = s.length
  first : ∀ e, s[0]? = some e → dp.getD 0 0 = w e ∧ taken.getD 0 0 = 1
  step : ∀ i e, 0 < i → i < m → s[i]? = some e →
    (inclValue w p dp i e > dp.getD (i - 1) 0 →
      dp.getD i 0 = inclValue w p dp i e ∧ taken.getD i 0 = 1) ∧
    (¬ inclValue w p dp i e > dp.getD (i - 1) 0 →
      dp.getD i 0 = dp.getD (i - 1) 0 ∧ taken.getD i 0 = 0)
  rest : ∀ i, m ≤ i → 0 < i → taken.getD i 0 = 0

end WithoutDep

/-! ## Machine arithmetic -/

/-- Largest value of `long long`. -/
def maxLL : Int := 2 ^ 63 - 1

/-- Result of a `long long` addition whose mathematical value is `x`: the value reduced
modulo `2 ^ 64` into the range from `-2 ^ 63` to `2 ^ 63 - 1` (signed overflow wraps around
in the compiled program). -/
def wrapLL (x : Int) : Int :=
  (x + 2 ^ 63) % 2 ^ 64 - 2 ^ 63

namespace Binary64

/-- The power `2 ^ k` for an integer exponent `k`. -/
def pow2 (k : Int) : ℚ :=
  if 0 ≤ k then ((2 ^ k.toNat : Nat) : ℚ) else 1 / ((2 ^ (-k).toNat : Nat) : ℚ)

/-- Number of binary digits of `n`, by halving; `fuel` bounds the number of halvings. -/
def bits : Nat → Nat → Nat
  | 0, _ => 0
  | fuel + 1, n => if n = 0 then 0 else bits fuel (n / 2) + 1

/-- Exponent of a positive rational `x`: the integer `e` with `2 ^ e ≤ x < 2 ^ (e + 1)`. -/
def exponent (x : ℚ) : Int :=
  let k : Int := (bits x.num.toNat x.num.toNat : Int) - (bits x.den x.den : Int)
  if pow2 k ≤ x then k else k - 1

/-- Nearest integer to a non-negative rational, ties to the even neighbour. -/
def roundHalfEven (r : ℚ) : Int :=
  if r - (Rat.floor r : ℚ) < 1 / 2 then Rat.floor r
  else if 1 / 2 < r - (Rat.floor r : ℚ) then Rat.floor r + 1
  else if Rat.floor r % 2 = 0 then Rat.floor r else Rat.floor r + 1

/-- Rounding of a rational to the nearest binary64 number (53 significant bits, least
exponent `-1022`, ties to even), with the exponent unbounded above. -/
def round (q : ℚ) : ℚ :=
  if q = 0 then 0
  else if q < 0 then
    -((roundHalfEven (-q / pow2 (max (exponent (-q)) (-1022) - 52)) : ℚ) *
      pow2 (max (exponent (-q)) (-1022) - 52))
  else
    (roundHalfEven (q / pow2 (max (exponent q) (-1022) - 52)) : ℚ) *
      pow2 (max (exponent q) (-1022) - 52)

/-- The double that an operation with exact result `q` delivers: the rounded value, or
`none` (an infinity) when the rounded value leaves the finite range. -/
def finite (q : ℚ) : Option ℚ :=
  if -(pow2 1024) < round q ∧ round q < pow2 1024 then some (round q) else none

/-- Product of two doubles; `none` stands for an infinity or a NaN. -/
def mul (a b : Option ℚ) : Option ℚ :=
  match a, b with
  | some x, some y => finite (x * y)
  | _, _ => none

/-- Sum of two doubles. -/
def add (a b : Option ℚ) : Option ℚ :=
  match a, b with
  | some x, some y => finite (x + y)
  | _, _ => none

/-- Difference of two doubles. -/
def sub (a b : Option ℚ) : Option ℚ :=
  match a, b with
  | some x, some y => finite (x - y)
  | _, _ => none

/-- Quotient of a double by a finite positive double `y`. -/
def div (a : Option ℚ) (y : ℚ) : Option ℚ :=
  match a with
  | some x => finite (x / y)
  | none => none

/-- Conversion `static_cast<long long>` of a double: truncation toward zero, and `-2 ^ 63`
for a NaN, an infinity or a value outside the range of `long long` (the result of the
x86-64 conversion instruction). -/
def toLongLong (a : Option ℚ) : Int :=
  match a with
  | none => -2 ^ 63
  | some x =>
    if -2 ^ 63 ≤ truncToInt x ∧ truncToInt x < 2 ^ 63 then truncToInt x else -2 ^ 63

end Binary64

/-! ## The scheduler of `complete.cpp` with machine arithmetic -/

namespace Machine

/-- Weight of one event (`DynamicScheduler::calculateWeight`) in binary64 arithmetic:
every conversion and operation of the hybrid branch is rounded. -/
def calculateWeight (self : DynamicScheduler) (e : Event) (obj : Objective) : Int :=
  match obj with
  | Objective.ATTENDANCE => e.attendance
  | Objective.REVENUE => e.revenue
  | Objective.HYBRID =>
    let normAtt : Option ℚ :=
      if self.maxAtt_ > 0 then Binary64.div (Binary64.finite (e.attendance : ℚ)) self.maxAtt_
      else some 0
    let normRev : Option ℚ :=
      if self.maxRev_ > 0 then Binary64.div (Binary64.finite (e.revenue : ℚ)) self.maxRev_
      else some 0
    let alpha : Option ℚ := Binary64.finite self.alpha_
    let score : Option ℚ :=
      Binary64.add (Binary64.mul alpha normAtt)
        (Binary64.mul (Binary64.sub (some 1) alpha) normRev)
    Binary64.toLongLong (Binary64.mul score (some 1000000))

/-- Normalisation bounds (`DynamicScheduler::calculateNormalizationBounds`) with the
conversions `(double)e.attendance` and `(double)e.revenue` rounded. -/
def calculateNormalizationBounds (self : DynamicScheduler) (events : List Event) :
    DynamicScheduler :=
  events.foldl
    (fun s e => { s with maxAtt_ := max s.maxAtt_ (Binary64.round (e.attendance : ℚ))
                         maxRev_ := max s.maxRev_ (Binary64.round (e.revenue : ℚ)) })
    { self with maxAtt_ := 1, maxRev_ := 1 }

/-- The scheduler state with which `run` calls the validation and the optimiser. -/
def prepared (self : DynamicScheduler) (events : List Event) : DynamicScheduler :=
  { calculateNormalizationBounds { self with events_ := events } events with
    idToIdx_ := fillIdToIdx events 0 (fun _ => none) }

/-- Body of the DP loop for one `eventId`, as `dpStep`, with machine weights and with
`norm` applied to the result of every `long long` addition: `wrapLL` for the compiled
program, `id` for the exact sums. -/
def dpStep (norm : Int → Int) (self : DynamicScheduler) (obj : Objective)
    (byVenue : String → Option (List Event)) (st : DPState) (eventId : Int) :
    Except Fault DPState :=
  match self.idToIdx_ eventId with
  | none => Except.error Fault.outOfRange
  | some i =>
    match self.events_[i]? with
    | none => Except.error Fault.outOfRange
    | some currentEvent =>
      match byVenue currentEvent.venue with
      | none => Except.error Fault.outOfRange
      | some venueEvents =>
        match upperBound (fun ev => decide (currentEvent.start > ev.end_)) venueEvents
            venueEvents.length 0 venueEvents.length with
        | Except.error f => Except.error f
        | Except.ok it =>
          let found : Except Fault (Int × Int) :=
            if it ≠ 0 then
              match venueEvents[it - 1]? with
              | none => Except.error Fault.outOfRange
              | some prevEvent =>
                match st.dp prevEvent.id with
                | some s => Except.ok (s, prevEvent.id)
                | none => Except.ok (0, -1)
            else Except.ok (0, -1)
          match found with
          | Except.error f => Except.error f
          | Except.ok (bestPreviousVenueScore, bestPreviousVenueId) =>
            let currentScore :=
              currentEvent.deps.foldl
                (fun s depId => match st.dp depId with
                                | some v => norm (s + v)
                                | none => s)
                (norm (calculateWeight self currentEvent obj + bestPreviousVenueScore))
            Except.ok
              { dp := setKey st.dp eventId currentScore
                parent := setKey st.parent eventId bestPreviousVenueId
                maxTotalScore :=
                  if currentScore > st.maxTotalScore then currentScore else st.maxTotalScore
                lastEventId :=
                  if currentScore > st.maxTotalScore then eventId else st.lastEventId }

/-- The DP loop `for (int eventId : topo)`. -/
def dpLoop (norm : Int → Int) (self : DynamicScheduler) (obj : Objective)
    (byVenue : String → Option (List Event)) : List Int → DPState → Except Fault DPState
  | [], st => Except.ok st
  | eventId :: rest, st =>
    match dpStep norm self obj byVenue st eventId with
    | Except.error f => Except.error f
    | Except.ok st1 => dpLoop norm self obj byVenue rest st1

/-- The optimiser (`DynamicScheduler::planEventsWithDependencies`). -/
def planEventsWithDependencies (norm : Int → Int) (self : DynamicScheduler)
    (obj : Objective) (topo : List Int) : Except Fault ScheduleResult :=
  match dpLoop norm self obj (eventsByVenue self.events_) topo
      { dp := fun _ => none, parent := fun _ => none, maxTotalScore := 0,
        lastEventId := -1 } with
  | Except.error f => Except.error f
  | Except.ok st =>
    match reconstruct self st.parent (self.events_.length + 1) st.lastEventId ([], []) with
    | Except.error f => Except.error f
    | Except.ok out =>
      Except.ok { total_score := st.maxTotalScore, chosen_events := sortByEnd out.2,
                  error_message := "", success := true }

/-- Public entry point (`DynamicScheduler::run`). -/
def run (norm : Int → Int) (self : DynamicScheduler) (keys : List Int)
    (events : List Event) (obj : Objective) : Except Fault ScheduleResult :=
  if events.isEmpty then
    Except.ok { total_score := 0, chosen_events := [], error_message := "No events provided.",
                success := true }
  else
    match validateAndBuildGraph (prepared self events) keys with
    | Except.error f => Except.error f
    | Except.ok (validationResult, topo) =>
      if !validationResult.success then Except.ok validationResult
      else planEventsWithDependencies norm (prepared self events) obj topo

/-- Invariant of the DP loop with exact sums when no weight is negative: every DP value is
at least 0, at most the running maximum, and at least the weight of the event its key is
mapped to. -/
def LowerState (self : DynamicScheduler) (obj : Objective) (st : DPState) : Prop :=
  0 ≤ st.maxTotalScore ∧
  ∀ k v, st.dp k = some v → 0 ≤ v ∧ v ≤ st.maxTotalScore ∧
    ∀ i e, self.idToIdx_ k = some i → self.events_[i]? = some e →
      calculateWeight self e obj ≤ v

end Machine

/-! ## The dependency-free engine of `withoutDep.cpp` with machine arithmetic -/

namespace WithoutDep

namespace Machine

/-- The DP loop of `planEvents`, as `WithoutDep.dpFrom`, with the `long long` addition
`include += dp[p[i]]` wrapping around. -/
def dpFrom (g : Globals) (obj : Objective) (ev : List Event) (p : List Int) :
    Nat → Nat → List Int × List Int → Except Fault (List Int × List Int)
  | 0, _, st => Except.ok st
  | k + 1, i, st =>
    match ev[i]? with
    | none => Except.error Fault.outOfRange
    | some e =>
      match p[i]? with
      | none => Except.error Fault.outOfRange
      | some pi =>
        let included : Except Fault Int :=
          if pi ≠ -1 then
            match at_ st.1 pi with
            | Except.error f => Except.error f
            | Except.ok v => Except.ok (wrapLL (weight g e obj + v))
          else Except.ok (weight g e obj)
        match included with
        | Except.error f => Except.error f
        | Except.ok incl =>
          match st.1[i - 1]? with
          | none => Except.error Fault.outOfRange
          | some excl =>
            if incl > excl then
              dpFrom g obj ev p k (i + 1) (st.1.set i incl, st.2.set i 1)
            else dpFrom g obj ev p k (i + 1) (st.1.set i excl, st.2)

/-- The body of `planEvents` after the sort, on the sorted vector `ev`. -/
def planSorted (g : Globals) (ev : List Event) (obj : Objective) :
    Except Fault (Int × List Int) :=
  if ev.length = 0 then Except.ok (0, [])
  else
    match buildPrevCompatible ev with
    | Except.error f => Except.error f
    | Except.ok p =>
      match ev[0]? with
      | none => Except.error Fault.outOfRange
      | some first =>
        match dpFrom g obj ev p (ev.length - 1) 1
            ((List.replicate ev.length 0).set 0 (weight g first obj),
             (List.replicate ev.length 0).set 0 1) with
        | Except.error f => Except.error f
        | Except.ok st =>
          match traceBack ev p st.2 (ev.length + 1) ((ev.length : Int) - 1) [] with
          | Except.error f => Except.error f
          | Except.ok chosen =>
            match st.1[ev.length - 1]? with
            | none => Except.error Fault.outOfRange
            | some best => Except.ok (best, chosen.reverse)

/-- The function `planEvents`: the score and the chosen ids. -/
def planEvents (g : Globals) (events : List Event) (obj : Objective) :
    Except Fault (Int × List Int) :=
  planSorted g (sortByEndStart events) obj

end Machine

end WithoutDep

/-! ## Catalogs for the machine arithmetic -/

/-- Two consecutive events in one venue, each with attendance `2 ^ 62`. -/
def heavyCatalog : List Event :=
  [ { id := 1, start := 0, end_ := 1, attendance := 4611686018427387904, revenue := 1,
      venue := "", deps := [] },
    { id := 2, start := 1, end_ := 2, attendance := 4611686018427387904, revenue := 1,
      venue := "", deps := [] } ]

/-- Event 1 with attendance `2 ^ 62` and event 2 with attendance `2 ^ 62 + 1`, which
depends on event 1. -/
def overflowCatalog : List Event :=
  [ { id := 1, start := 0, end_ := 1, attendance := 4611686018427387904, revenue := 1,
      venue := "A", deps := [] },
    { id := 2, start := 1, end_ := 2, attendance := 4611686018427387905, revenue := 1,
      venue := "A", deps := [1] } ]

/-- What the compiled `run` returns on `overflowCatalog` under the attendance objective:
the score `2 ^ 62` with event 1. -/
def overflowResult : ScheduleResult :=
  { total_score := 4611686018427387904
    chosen_events :=
      [ { id := 1, start := 0, end_ := 1, attendance := 4611686018427387904, revenue := 1,
          venue := "A", deps := [] } ]
    error_message := ""
    success := true }

/-- Attendance and revenue 41 of 80. -/
def roundingCatalog : List Event :=
  [ { id := 1, start := 0, end_ := 1, attendance := 41, revenue := 41, venue := "A",
      deps := [] },
    { id := 2, start := 1, end_ := 2, attendance := 80, revenue := 80, venue := "A",
      deps := [] } ]

/-- Event 1 of `roundingCatalog`. -/
def roundingFirst : Event :=
  { id := 1, start := 0, end_ := 1, attendance := 41, revenue := 41, venue := "A", deps := [] }

/-- The double nearest to `0.9`. -/
def nearestNineTenths : ℚ := 8106479329266893 / 9007199254740992

/-- Attendance 17 of 45 and revenue 7 of 7. -/
def roundingUpCatalog : List Event :=
  [ { id := 1, start := 0, end_ := 1, attendance := 17, revenue := 7, venue := "A",
      deps := [] },
    { id := 2, start := 1, end_ := 2, attendance := 45, revenue := 0, venue := "A",
      deps := [] } ]

/-- Event 1 of `roundingUpCatalog`. -/
def roundingUpFirst : Event :=
  { id := 1, start := 0, end_ := 1, attendance := 17, revenue := 7, venue := "A", deps := [] }

/-- One event with the attendance `-10 ^ 13`. -/
def negativeEvent : Event :=
  { id := 1, start := 0, end_ := 1, attendance := -10000000000000, revenue := 0, venue := "A",
    deps := [] }

/-! ## Auxiliary lemmas -/

theorem setKey_same {V : Type} (m : Int → Option V) (k : Int) (v : V) : setKey m k v k = some v := by
  simp [setKey]

theorem setKey_other {V : Type} (m : Int → Option V) (k x : Int) (v : V) (h : x ≠ k) :
    setKey m k v x = m x := by
  simp [setKey, h]

theorem relaxAll_spec (L : List Int) : ∀ (q : List Int) (indeg : Int → Option Int),
    (∀ k ∈ L, ∃ c : Int, indeg k = some c ∧ (L.count k : Int) ≤ c) →
    ∃ N indeg1, relaxAll L (q, indeg) = Except.ok (q ++ N, indeg1) ∧ N.Nodup ∧
      (∀ k, k ∈ N ↔ k ∈ L ∧ indeg k = some (L.count k : Int)) ∧
      (∀ k, indeg1 k = (indeg k).map (fun c => c - (L.count k : Int))) := by
  induction L with
  | nil =>
    intro q indeg _
    refine ⟨[], indeg, by simp [relaxAll], List.nodup_nil, by simp, ?_⟩
    intro k
    cases indeg k <;> simp
  | cons a L ih =>
    intro q indeg h
    obtain ⟨c, hc, hle⟩ := h a (List.mem_cons_self a L)
    rw [List.count_cons_self] at hle
    have hstep : ∀ k ∈ L, ∃ c1 : Int, setKey indeg a (c - 1) k = some c1 ∧ (L.count k : Int) ≤ c1 := by
      intro k hk
      by_cases hka : k = a
      · subst hka
        exact ⟨c - 1, setKey_same _ _ _, by push_cast at hle; omega⟩
      · obtain ⟨c1, hc1, hle1⟩ := h k (List.mem_cons_of_mem a hk)
        rw [List.count_cons_of_ne hka] at hle1
        exact ⟨c1, by rw [setKey_other _ _ _ _ hka]; exact hc1, hle1⟩
    by_cases hz : c - 1 = 0
    · have hcount : L.count a = 0 := by push_cast at hle; omega
      have haL : a ∉ L := List.count_eq_zero.mp hcount
      obtain ⟨N, indeg1, hrun, hnd, hmem, hval⟩ := ih (q ++ [a]) (setKey indeg a (c - 1)) hstep
      refine ⟨a :: N, indeg1, ?_, ?_, ?_, ?_⟩
      · simp only [relaxAll, relax, hc]
        rw [if_pos hz]
        simp only []
        rw [hrun]; simp
      · refine List.nodup_cons.mpr ⟨?_, hnd⟩
        intro haN
        exact haL ((hmem a).mp haN).1
      · intro k
        by_cases hka : k = a
        · subst hka
          simp only [List.mem_cons, true_or, List.count_cons_self, hcount, hc, true_and]
          have : c = 1 := by omega
          simp [this]
        · simp only [List.mem_cons, hka, false_or, hmem k, setKey_other _ _ _ _ hka,
            List.count_cons_of_ne hka]
      · intro k
        rw [hval k]
        by_cases hka : k = a
        · subst hka
          rw [setKey_same, hc, List.count_cons_self]
          simp only [Option.map_some']
          congr 1; push_cast; omega
        · rw [setKey_other _ _ _ _ hka, List.count_cons_of_ne hka]
    · obtain ⟨N, indeg1, hrun, hnd, hmem, hval⟩ := ih q (setKey indeg a (c - 1)) hstep
      refine ⟨N, indeg1, ?_, hnd, ?_, ?_⟩
      · simp only [relaxAll, relax, hc]
        rw [if_neg hz]
        simp only []
        rw [hrun]
      · intro k
        by_cases hka : k = a
        · subst hka
          rw [hmem k, setKey_same, hc, List.count_cons_self]
          simp only [List.mem_cons, true_or, true_and, Option.some.injEq]
          constructor
          · rintro ⟨_, h2⟩; push_cast; omega
          · intro h2
            have hpos : 0 < L.count k := by
              push_cast at h2
              have : (L.count k : Int) ≠ 0 := by omega
              omega
            exact ⟨List.count_pos_iff.mp hpos, by push_cast at h2; omega⟩
        · simp only [List.mem_cons, hka, false_or, hmem k, setKey_other _ _ _ _ hka,
            List.count_cons_of_ne hka]
      · intro k
        rw [hval k]
        by_cases hka : k = a
        · subst hka
          rw [setKey_same, hc, List.count_cons_self]
          simp only [Option.map_some']
          congr 1; push_cast; omega
        · rw [setKey_other _ _ _ _ hka, List.count_cons_of_ne hka]

theorem count_outList (E : List (Int × Int)) (node k : Int) :
    (outList E node).count k = E.countP (fun p => decide (p.1 = node ∧ p.2 = k)) := by
  induction E with
  | nil => simp [outList]
  | cons p E ih =>
    unfold outList at ih ⊢
    by_cases h1 : p.1 = node <;> by_cases h2 : p.2 = k <;>
      simp [List.filter_cons, List.countP_cons, h1, h2, List.count_cons, ih]

theorem inCount_snoc (E : List (Int × Int)) (done : List Int) (node k : Int) (h : node ∉ done) :
    inCount E done k = inCount E (done ++ [node]) k + (outList E node).count k := by
  rw [count_outList]
  unfold inCount
  induction E with
  | nil => simp
  | cons p E ih =>
    simp only [List.countP_cons, ih]
    by_cases h1 : p.1 = node <;> by_cases h2 : p.2 = k <;> by_cases h3 : p.1 ∈ done <;>
      simp [h1, h2, h3, h] <;> omega

theorem inCount_eq_zero (E : List (Int × Int)) (done : List Int) (k : Int) :
    inCount E done k = 0 ↔ ∀ d, (d, k) ∈ E → d ∈ done := by
  unfold inCount
  rw [List.countP_eq_zero]
  constructor
  · intro h d hd
    by_contra hn
    exact h (d, k) hd (by simp [hn])
  · intro h p hp
    simp only [decide_eq_true_eq, not_and, not_not]
    intro hk
    exact h p.1 (by rw [← hk]; exact hp)

theorem mem_outList (E : List (Int × Int)) (node k : Int) :
    k ∈ outList E node ↔ (node, k) ∈ E := by
  unfold outList
  simp only [List.mem_map, List.mem_filter, decide_eq_true_eq]
  constructor
  · rintro ⟨p, ⟨hp, h1⟩, h2⟩
    rw [← h1, ← h2]; exact hp
  · intro h
    exact ⟨(node, k), ⟨h, rfl⟩, rfl⟩

theorem kahn_step (keys : List Int) (E : List (Int × Int))
    (hE : ∀ p ∈ E, p.1 ∈ keys ∧ p.2 ∈ keys) (node : Int) (q : List Int)
    (indeg : Int → Option Int) (topo : List Int)
    (inv : KahnInv keys E (node :: q) indeg topo) :
    ∃ N indeg1, relaxAll (outList E node) (q, indeg) = Except.ok (q ++ N, indeg1) ∧
      KahnInv keys E (q ++ N) indeg1 (topo ++ [node]) := by
  have hnd := inv.nodup
  have hnode_topo : node ∉ topo := by
    intro hmem
    have := (List.nodup_append.mp hnd).2.2
    exact this hmem (List.mem_cons_self node q) 
  have hcount : ∀ k, inCount E topo k = inCount E (topo ++ [node]) k + (outList E node).count k :=
    fun k => inCount_snoc E topo node k hnode_topo
  have hkeyL : ∀ k ∈ outList E node, k ∈ keys := by
    intro k hk
    exact (hE _ ((mem_outList E node k).mp hk)).2
  have hpre : ∀ k ∈ outList E node, ∃ c : Int, indeg k = some c ∧
      ((outList E node).count k : Int) ≤ c := by
    intro k hk
    refine ⟨_, inv.indeg k (hkeyL k hk), ?_⟩
    have := hcount k
    omega
  obtain ⟨N, indeg1, hrun, hNnd, hNmem, hval⟩ := relaxAll_spec (outList E node) q indeg hpre
  have hNfresh : ∀ k ∈ N, k ∈ keys ∧ inCount E (topo ++ [node]) k = 0 ∧
      0 < (outList E node).count k := by
    intro k hk
    obtain ⟨hkL, hind⟩ := (hNmem k).mp hk
    have hkk := hkeyL k hkL
    have h1 := inv.indeg k hkk
    rw [hind] at h1
    have h2 : ((outList E node).count k : Int) = (inCount E topo k : Int) := Option.some.inj h1
    have h3 := hcount k
    have h4 : 0 < (outList E node).count k := List.count_pos_iff.mpr hkL
    exact ⟨hkk, by omega, h4⟩
  refine ⟨N, indeg1, hrun, ?_⟩
  have happ : topo ++ [node] ++ (q ++ N) = (topo ++ node :: q) ++ N := by simp
  constructor
  · rw [happ]
    refine List.nodup_append.mpr ⟨hnd, hNnd, ?_⟩
    intro x hx hxN
    obtain ⟨hxk, hx0, hxpos⟩ := hNfresh x hxN
    have h1 := (inv.pushed x hxk).mp hx
    have h2 := hcount x
    omega
  · intro x hx
    rw [happ] at hx
    rcases List.mem_append.mp hx with h | h
    · exact inv.sub x h
    · exact (hNfresh x h).1
  · intro k hk
    rw [hval k, inv.indeg k hk]
    simp only [Option.map_some', Option.some.injEq]
    have := hcount k
    omega
  · intro k hk
    rw [happ]
    constructor
    · intro hmem
      rcases List.mem_append.mp hmem with h | h
      · have h1 := (inv.pushed k hk).mp h
        have h2 := hcount k
        omega
      · exact (hNfresh k h).2.1
    · intro h0
      by_cases hc : (outList E node).count k = 0
      · have h2 := hcount k
        exact List.mem_append_left _ ((inv.pushed k hk).mpr (by omega))
      · refine List.mem_append_right _ ((hNmem k).mpr ⟨?_, ?_⟩)
        · exact List.count_pos_iff.mp (Nat.pos_of_ne_zero hc)
        · rw [inv.indeg k hk]
          have h2 := hcount k
          congr 1
          omega
  · intro pre k post hdec d hd
    rw [happ] at hdec
    rcases List.append_eq_append_iff.mp hdec with ⟨a1, h1, h2⟩ | ⟨c1, h1, h2⟩
    · have hkN : k ∈ N := by rw [h2]; simp
      have h0 := (hNfresh k hkN).2.1
      have hdmem := (inCount_eq_zero E (topo ++ [node]) k).mp h0 d hd
      rw [h1]
      refine List.mem_append_left _ ?_
      rcases List.mem_append.mp hdmem with h | h
      · exact List.mem_append_left _ h
      · exact List.mem_append_right _ (by
          rw [List.mem_singleton.mp h]; exact List.mem_cons_self _ _)
    · cases c1 with
      | nil =>
        simp only [List.nil_append] at h2
        have hkN : k ∈ N := by rw [← h2]; simp
        have h0 := (hNfresh k hkN).2.1
        have hdmem := (inCount_eq_zero E (topo ++ [node]) k).mp h0 d hd
        rw [List.append_nil] at h1
        rw [← h1]
        rcases List.mem_append.mp hdmem with h | h
        · exact List.mem_append_left _ h
        · exact List.mem_append_right _ (by
            rw [List.mem_singleton.mp h]; exact List.mem_cons_self _ _)
      | cons c cs =>
        simp only [List.cons_append, List.cons.injEq] at h2
        obtain ⟨hck, _⟩ := h2
        rw [← hck] at h1
        exact inv.before pre k cs h1 d hd

theorem topoLoop_spec (keys : List Int) (E : List (Int × Int))
    (hE : ∀ p ∈ E, p.1 ∈ keys ∧ p.2 ∈ keys) (adj : Int → Option (List Int))
    (hadj : ∀ k ∈ keys, adj k = some (outList E k)) :
    ∀ (fuel : Nat) (q : List Int) (indeg : Int → Option Int) (topo : List Int),
      KahnInv keys E q indeg topo → keys.length ≤ topo.length + fuel →
      ∃ T indegF, topoLoop adj fuel q indeg topo = Except.ok T ∧ KahnInv keys E [] indegF T := by
  intro fuel
  induction fuel with
  | zero =>
    intro q indeg topo inv hlen
    cases q with
    | nil => exact ⟨topo, indeg, by simp [topoLoop], inv⟩
    | cons node q =>
      exfalso
      have h1 := (List.subperm_of_subset inv.nodup inv.sub).length_le
      simp only [List.length_append, List.length_cons] at h1
      omega
  | succ fuel ih =>
    intro q indeg topo inv hlen
    cases q with
    | nil => exact ⟨topo, indeg, by simp [topoLoop], inv⟩
    | cons node q =>
      have hnk : node ∈ keys := inv.sub node (by simp)
      obtain ⟨N, indeg1, hrun, inv1⟩ := kahn_step keys E hE node q indeg topo inv
      obtain ⟨T, indegF, hT, invT⟩ := ih (q ++ N) indeg1 (topo ++ [node]) inv1 (by
        simp only [List.length_append, List.length_singleton]; omega)
      refine ⟨T, indegF, ?_, invT⟩
      simp only [topoLoop, hadj node hnk, hrun]
      exact hT

theorem cycle_of_closed (R : Int → Int → Prop) (keys : List Int) (S : Set Int)
    (hS : ∀ k ∈ S, k ∈ keys) (hne : S.Nonempty) (hstep : ∀ k ∈ S, ∃ d ∈ S, R k d) :
    ∃ v, Relation.TransGen R v v := by
  by_contra hno
  push_neg at hno
  let r : {k // k ∈ keys} → {k // k ∈ keys} → Prop := fun a b => Relation.TransGen R b.1 a.1
  haveI : IsTrans {k // k ∈ keys} r := ⟨fun a b c hab hbc => Relation.TransGen.trans hbc hab⟩
  haveI : IsIrrefl {k // k ∈ keys} r := ⟨fun a h => hno a.1 h⟩
  have hwf : WellFounded r := Finite.wellFounded_of_trans_of_irrefl r
  obtain ⟨k0, hk0⟩ := hne
  obtain ⟨m, hm, hmin⟩ := hwf.has_min {a : {k // k ∈ keys} | a.1 ∈ S} ⟨⟨k0, hS k0 hk0⟩, hk0⟩
  obtain ⟨d, hd, hRd⟩ := hstep m.1 hm
  exact hmin ⟨d, hS d hd⟩ hd (Relation.TransGen.single hRd)

theorem mem_edgeList (events : List Event) (a b : Int) :
    (b, a) ∈ edgeList events ↔ DependsOn events a b := by
  unfold edgeList DependsOn
  simp only [List.mem_flatMap, List.mem_map, Prod.mk.injEq]
  constructor
  · rintro ⟨e, he, d, hd, h1, h2⟩
    exact ⟨e, he, h2, h1 ▸ hd⟩
  · rintro ⟨e, he, h1, h2⟩
    exact ⟨e, he, b, h2, rfl, h1⟩

theorem edgeList_keys (events : List Event) (h : AllDepsExist events) :
    ∀ p ∈ edgeList events, p.1 ∈ allIds events ∧ p.2 ∈ allIds events := by
  intro p hp
  unfold edgeList at hp
  simp only [List.mem_flatMap, List.mem_map] at hp
  obtain ⟨e, he, d, hd, rfl⟩ := hp
  exact ⟨h e he d hd, List.mem_map.mpr ⟨e, he, rfl⟩⟩

theorem topoSort_spec (keys : List Int) (E : List (Int × Int)) (g : Graph)
    (hnd : keys.Nodup) (hE : ∀ p ∈ E, p.1 ∈ keys ∧ p.2 ∈ keys) (rep : GraphRep keys E g) :
    ∃ T indegF, topoSort g.adj g.indegree keys = Except.ok (T.length == keys.length, T) ∧
      KahnInv keys E [] indegF T := by
  have hq : ∀ k, k ∈ keys.filter (fun k => g.indegree k == some 0) ↔
      k ∈ keys ∧ inCount E [] k = 0 := by
    intro k
    simp only [List.mem_filter, beq_iff_eq]
    constructor
    · rintro ⟨hk, h0⟩
      rw [rep.indeg_key k hk] at h0
      exact ⟨hk, by exact_mod_cast Option.some.inj h0⟩
    · rintro ⟨hk, h0⟩
      exact ⟨hk, by rw [rep.indeg_key k hk, h0]; rfl⟩
  have inv0 : KahnInv keys E (keys.filter (fun k => g.indegree k == some 0)) g.indegree [] := by
    constructor
    · simpa using hnd.filter _
    · intro x hx
      simp only [List.nil_append] at hx
      exact ((hq x).mp hx).1
    · intro k hk
      exact rep.indeg_key k hk
    · intro k hk
      simp only [List.nil_append]
      rw [hq k]
      exact ⟨fun h => h.2, fun h => ⟨hk, h⟩⟩
    · intro pre k post hdec d hd
      simp only [List.nil_append] at hdec
      have hk : k ∈ keys.filter (fun k => g.indegree k == some 0) := by rw [hdec]; simp
      have h0 := ((hq k).mp hk).2
      have := (inCount_eq_zero E [] k).mp h0 d hd
      simp at this
  obtain ⟨T, indegF, hT, invT⟩ :=
    topoLoop_spec keys E hE g.adj rep.adj_key keys.length _ g.indegree [] inv0 (by simp)
  refine ⟨T, indegF, ?_, invT⟩
  simp only [topoSort, hT]

theorem kahn_final_order (keys : List Int) (E : List (Int × Int)) (indegF : Int → Option Int)
    (T : List Int) (inv : KahnInv keys E [] indegF T) (d k : Int) (hd : (d, k) ∈ E)
    (hk : k ∈ T) : T.indexOf d < T.indexOf k := by
  have hnd : T.Nodup := by simpa using inv.nodup
  obtain ⟨pre, post, hsplit⟩ := List.append_of_mem hk
  have hdpre : d ∈ pre := inv.before pre k post (by simpa using hsplit) d hd
  have hkpre : k ∉ pre := by
    intro hmem
    rw [hsplit] at hnd
    exact (List.nodup_append.mp hnd).2.2 hmem (List.mem_cons_self k post)
  rw [hsplit, List.indexOf_append_of_mem hdpre, List.indexOf_append_of_not_mem hkpre,
    List.indexOf_cons_self]
  have := List.indexOf_lt_length.mpr hdpre
  omega

theorem kahn_final_perm (keys : List Int) (E : List (Int × Int)) (indegF : Int → Option Int)
    (T : List Int) (inv : KahnInv keys E [] indegF T) (hlen : T.length = keys.length) :
    T.Perm keys := by
  have hnd : T.Nodup := by simpa using inv.nodup
  have hsub : T ⊆ keys := fun x hx => inv.sub x (by simpa using hx)
  exact (List.subperm_of_subset hnd hsub).perm_of_length_le (by omega)

theorem kahn_final_short (keys : List Int) (E : List (Int × Int)) (indegF : Int → Option Int)
    (T : List Int) (hkeys : keys.Nodup) (hE : ∀ p ∈ E, p.1 ∈ keys ∧ p.2 ∈ keys)
    (inv : KahnInv keys E [] indegF T) (hlen : T.length ≠ keys.length) :
    ∃ v, Relation.TransGen (fun a b => (b, a) ∈ E) v v := by
  have hex : ∃ k ∈ keys, k ∉ T := by
    by_contra hall
    push_neg at hall
    have h1 := (List.subperm_of_subset hkeys hall).length_le
    have hnd : T.Nodup := by simpa using inv.nodup
    have hsub : T ⊆ keys := fun x hx => inv.sub x (by simpa using hx)
    have h2 := (List.subperm_of_subset hnd hsub).length_le
    omega
  obtain ⟨k0, hk0, hk0T⟩ := hex
  refine cycle_of_closed (fun a b => (b, a) ∈ E) keys {k | k ∈ keys ∧ k ∉ T}
    (fun k hk => hk.1) ⟨k0, hk0, hk0T⟩ ?_
  rintro k ⟨hk, hkT⟩
  have hne : inCount E T k ≠ 0 := by
    intro h0
    exact hkT (by simpa using (inv.pushed k hk).mpr h0)
  rw [Ne, inCount_eq_zero] at hne
  push_neg at hne
  obtain ⟨d, hd, hdT⟩ := hne
  exact ⟨d, ⟨(hE _ hd).1, hdT⟩, hd⟩

theorem initGraph_fold (events : List Event) (k : Int) :
    (initGraph events).indegree k = (if k ∈ allIds events then some 0 else none) ∧
    (initGraph events).adj k = (if k ∈ allIds events then some [] else none) := by
  unfold initGraph allIds
  induction events using List.reverseRecOn with
  | nil => simp
  | append_singleton es e ih =>
    rw [List.foldl_append]
    simp only [List.foldl_cons, List.foldl_nil, List.map_append, List.map_cons, List.map_nil,
      List.mem_append, List.mem_singleton]
    obtain ⟨ih1, ih2⟩ := ih
    constructor
    · by_cases hk : k = e.id
      · simp [setKey, hk]
      · simp only [setKey, hk, if_false, or_false]
        exact ih1
    · by_cases hk : k = e.id
      · subst hk
        simp only [setKey, if_true, or_true, ih2]
        split_ifs <;> rfl
      · simp only [setKey, hk, if_false, or_false]
        exact ih2

theorem initGraph_rep (events : List Event) : GraphRep (allIds events) [] (initGraph events) := by
  constructor
  · intro k hk
    rw [(initGraph_fold events k).2, if_pos hk]
    rfl
  · intro k hk
    rw [(initGraph_fold events k).1, if_pos hk]
    rfl

theorem graphRep_step (K : List Int) (E : List (Int × Int)) (g : Graph) (d eid : Int)
    (hd : d ∈ K) (he : eid ∈ K) (rep : GraphRep K E g) :
    GraphRep K (E ++ [(d, eid)])
      { adj := setKey g.adj d ((g.adj d).getD [] ++ [eid])
        indegree := setKey g.indegree eid ((g.indegree eid).getD 0 + 1) } := by
  constructor
  · intro k hk
    by_cases hkd : k = d
    · subst hkd
      simp [setKey, rep.adj_key k hk, outList, List.filter_append]
    · have hdk : ¬ d = k := fun h => hkd h.symm
      simp [setKey, hkd, hdk, rep.adj_key k hk, outList, List.filter_append]
  · intro k hk
    by_cases hke : k = eid
    · subst hke
      simp [setKey, rep.indeg_key k hk, inCount, List.countP_append]
    · have hek : ¬ eid = k := fun h => hke h.symm
      simp [setKey, hke, hek, rep.indeg_key k hk, inCount, List.countP_append]

theorem addDeps_cases (K : List Int) (eid : Int) : ∀ (deps : List Int) (g : Graph),
    (∃ d, deps.find? (fun d => decide (d ∉ K)) = some d ∧
      addDeps K eid deps g = Except.error (failure (unknownMessage eid d))) ∨
    (deps.find? (fun d => decide (d ∉ K)) = none ∧
      ∃ g1, addDeps K eid deps g = Except.ok g1 ∧
        ∀ E, eid ∈ K → GraphRep K E g →
          GraphRep K (E ++ deps.map (fun d => (d, eid))) g1) := by
  intro deps
  induction deps with
  | nil =>
    intro g
    right
    exact ⟨rfl, g, rfl, fun E _ rep => by simpa using rep⟩
  | cons d rest ih =>
    intro g
    by_cases hd : d ∈ K
    · rcases ih { adj := setKey g.adj d ((g.adj d).getD [] ++ [eid])
                  indegree := setKey g.indegree eid ((g.indegree eid).getD 0 + 1) } with
        ⟨d1, h1, h2⟩ | ⟨h1, g1, h2, h3⟩
      · left
        refine ⟨d1, ?_, ?_⟩
        · rw [List.find?_cons_of_neg _ (by simpa using hd)]
          exact h1
        · simp only [addDeps, hd, if_true]
          exact h2
      · right
        refine ⟨?_, g1, ?_, ?_⟩
        · rw [List.find?_cons_of_neg _ (by simpa using hd)]
          exact h1
        · simp only [addDeps, hd, if_true]
          exact h2
        · intro E he rep
          have := h3 (E ++ [(d, eid)]) he (graphRep_step K E g d eid hd he rep)
          simpa using this
    · left
      refine ⟨d, ?_, ?_⟩
      · rw [List.find?_cons_of_pos _ (by simpa using hd)]
      · simp [addDeps, hd]

theorem depPairs_cons (e : Event) (rest : List Event) :
    depPairs (e :: rest) = e.deps.map (fun d => (e.id, d)) ++ depPairs rest := by
  simp [depPairs]

theorem edgeList_cons (e : Event) (rest : List Event) :
    edgeList (e :: rest) = e.deps.map (fun d => (d, e.id)) ++ edgeList rest := by
  simp [edgeList]

theorem addAllDeps_cases (K : List Int) : ∀ (events : List Event) (g : Graph),
    (∃ p, (depPairs events).find? (fun p => decide (p.2 ∉ K)) = some p ∧
      addAllDeps K events g = Except.error (failure (unknownMessage p.1 p.2))) ∨
    ((depPairs events).find? (fun p => decide (p.2 ∉ K)) = none ∧
      ∃ g1, addAllDeps K events g = Except.ok g1 ∧
        ∀ E, (∀ e ∈ events, e.id ∈ K) → GraphRep K E g →
          GraphRep K (E ++ edgeList events) g1) := by
  intro events
  induction events with
  | nil =>
    intro g
    right
    exact ⟨rfl, g, rfl, fun E _ rep => by simpa [edgeList] using rep⟩
  | cons e rest ih =>
    intro g
    have hfind : ∀ l : List Int, (l.map (fun d => (e.id, d))).find? (fun p => decide (p.2 ∉ K)) =
        (l.find? (fun d => decide (d ∉ K))).map (fun d => (e.id, d)) := by
      intro l
      rw [List.find?_map]
      rfl
    rcases addDeps_cases K e.id e.deps g with ⟨d, h1, h2⟩ | ⟨h1, g1, h2, h3⟩
    · left
      refine ⟨(e.id, d), ?_, ?_⟩
      · rw [depPairs_cons, List.find?_append, hfind, h1]
        rfl
      · simp only [addAllDeps, h2]
    · rcases ih g1 with ⟨p, h4, h5⟩ | ⟨h4, g2, h5, h6⟩
      · left
        refine ⟨p, ?_, ?_⟩
        · rw [depPairs_cons, List.find?_append, hfind, h1]
          simpa using h4
        · simp only [addAllDeps, h2]
          exact h5
      · right
        refine ⟨?_, g2, ?_, ?_⟩
        · rw [depPairs_cons, List.find?_append, hfind, h1]
          simpa using h4
        · simp only [addAllDeps, h2]
          exact h5
        · intro E hall rep
          have r1 := h3 E (hall e (List.mem_cons_self e rest)) rep
          have r2 := h6 _ (fun x hx => hall x (List.mem_cons_of_mem e hx)) r1
          rw [edgeList_cons, ← List.append_assoc]
          exact r2

theorem firstUnknown_none_iff (events : List Event) :
    firstUnknown events = none ↔ AllDepsExist events := by
  unfold firstUnknown AllDepsExist depPairs
  rw [List.find?_eq_none]
  simp only [List.mem_flatMap, List.mem_map, decide_eq_true_eq, not_not]
  constructor
  · intro h e he d hd
    exact h (e.id, d) ⟨e, he, d, hd, rfl⟩
  · rintro h p ⟨e, he, d, hd, rfl⟩
    exact h e he d hd

theorem buildGraph_unknown (events : List Event) (p : Int × Int)
    (h : firstUnknown events = some p) :
    addAllDeps (allIds events) events (initGraph events) =
      Except.error (failure (unknownMessage p.1 p.2)) := by
  rcases addAllDeps_cases (allIds events) events (initGraph events) with
    ⟨p1, h1, h2⟩ | ⟨h1, _⟩
  · unfold firstUnknown at h
    rw [h] at h1
    rw [Option.some.inj h1]
    exact h2
  · unfold firstUnknown at h
    rw [h] at h1
    exact absurd h1 (by simp)

theorem buildGraph_ok (events : List Event) (h : AllDepsExist events) :
    ∃ g, addAllDeps (allIds events) events (initGraph events) = Except.ok g ∧
      GraphRep (allIds events) (edgeList events) g := by
  rcases addAllDeps_cases (allIds events) events (initGraph events) with
    ⟨p1, h1, _⟩ | ⟨_, g, h2, h3⟩
  · have := (firstUnknown_none_iff events).mpr h
    unfold firstUnknown at this
    rw [this] at h1
    exact absurd h1 (by simp)
  · refine ⟨g, h2, ?_⟩
    have := h3 [] (fun e he => List.mem_map.mpr ⟨e, he, rfl⟩) (initGraph_rep events)
    simpa using this

theorem keyOrder_mem (events : List Event) (keys : List Int) (hk : IsKeyOrder events keys)
    (k : Int) : k ∈ keys ↔ k ∈ allIds events := by
  unfold IsKeyOrder at hk
  rw [hk.mem_iff, List.mem_dedup]

theorem keyOrder_nodup (events : List Event) (keys : List Int) (hk : IsKeyOrder events keys) :
    keys.Nodup := by
  unfold IsKeyOrder at hk
  exact hk.nodup_iff.mpr (List.nodup_dedup _)

theorem transGen_index (events : List Event) (T : List Int)
    (hstep : ∀ a b, DependsOn events a b → T.indexOf b < T.indexOf a) (a b : Int)
    (h : Relation.TransGen (DependsOn events) a b) : T.indexOf b < T.indexOf a := by
  induction h with
  | single h1 => exact hstep _ _ h1
  | tail _ h2 ih => exact lt_trans (hstep _ _ h2) ih

theorem topoSort_events (events : List Event) (keys : List Int) (hk : IsKeyOrder events keys)
    (hdeps : AllDepsExist events) (g : Graph)
    (hg : GraphRep (allIds events) (edgeList events) g) :
    ∃ flag T, topoSort g.adj g.indegree keys = Except.ok (flag, T) ∧
      (flag = true ↔ ¬ HasCycle events) ∧
      (flag = true → T.Perm keys ∧
        ∀ e ∈ events, ∀ d ∈ e.deps, T.indexOf d < T.indexOf e.id) := by
  have hmem := keyOrder_mem events keys hk
  have hnd := keyOrder_nodup events keys hk
  have hE : ∀ p ∈ edgeList events, p.1 ∈ keys ∧ p.2 ∈ keys := by
    intro p hp
    have := edgeList_keys events hdeps p hp
    exact ⟨(hmem _).mpr this.1, (hmem _).mpr this.2⟩
  have rep : GraphRep keys (edgeList events) g :=
    ⟨fun k hk1 => hg.adj_key k ((hmem k).mp hk1), fun k hk1 => hg.indeg_key k ((hmem k).mp hk1)⟩
  obtain ⟨T, indegF, hrun, inv⟩ := topoSort_spec keys (edgeList events) g hnd hE rep
  have hord : T.length = keys.length → T.Perm keys ∧
      ∀ e ∈ events, ∀ d ∈ e.deps, T.indexOf d < T.indexOf e.id := by
    intro hlen
    have hperm := kahn_final_perm keys (edgeList events) indegF T inv hlen
    refine ⟨hperm, ?_⟩
    intro e he d hd
    have hedge : (d, e.id) ∈ edgeList events := (mem_edgeList events e.id d).mpr ⟨e, he, rfl, hd⟩
    have heT : e.id ∈ T := hperm.mem_iff.mpr ((hmem _).mpr (List.mem_map.mpr ⟨e, he, rfl⟩))
    exact kahn_final_order keys (edgeList events) indegF T inv d e.id hedge heT
  refine ⟨T.length == keys.length, T, hrun, ?_, ?_⟩
  · constructor
    · intro hflag
      have hlen : T.length = keys.length := by simpa using hflag
      obtain ⟨_, hidx⟩ := hord hlen
      rintro ⟨v, hv⟩
      have hstep : ∀ a b, DependsOn events a b → T.indexOf b < T.indexOf a := by
        rintro a b ⟨e, he, hea, hb⟩
        rw [← hea]
        exact hidx e he b hb
      exact lt_irrefl _ (transGen_index events T hstep v v hv)
    · intro hno
      by_contra hflag
      have hlen : T.length ≠ keys.length := by simpa using hflag
      obtain ⟨v, hv⟩ := kahn_final_short keys (edgeList events) indegF T hnd hE inv hlen
      refine hno ⟨v, ?_⟩
      exact Relation.TransGen.mono (fun a b hab => (mem_edgeList events a b).mp hab) hv
  · intro hflag
    exact hord (by simpa using hflag)

theorem fill_spec (l : List Event) : ∀ (i : Nat) (m : Int → Option Nat) (k : Int),
    (k ∉ allIds l → fillIdToIdx l i m k = m k) ∧
    (k ∈ allIds l → ∃ j e, fillIdToIdx l i m k = some (i + j) ∧ l[j]? = some e ∧ e.id = k) := by
  induction l with
  | nil =>
    intro i m k
    exact ⟨fun _ => rfl, fun h => absurd h (by simp [allIds])⟩
  | cons e rest ih =>
    intro i m k
    have hs := ih (i + 1) (setKey m e.id i) k
    constructor
    · intro hk
      have h1 : k ≠ e.id := fun h => hk (by simp [allIds, h])
      have h2 : k ∉ allIds rest := fun h => hk (by
        simp only [allIds, List.map_cons, List.mem_cons]; right; exact h)
      simp only [fillIdToIdx]
      rw [hs.1 h2, setKey_other _ _ _ _ h1]
    · intro hk
      by_cases h2 : k ∈ allIds rest
      · obtain ⟨j, e1, hj, hget, hid⟩ := hs.2 h2
        refine ⟨j + 1, e1, ?_, by simpa using hget, hid⟩
        simp only [fillIdToIdx]
        rw [hj]
        congr 1
        omega
      · have h1 : k = e.id := by
          simp only [allIds, List.map_cons, List.mem_cons] at hk
          rcases hk with h | h
          · exact h
          · exact absurd h h2
        refine ⟨0, e, ?_, by simp, h1.symm⟩
        simp only [fillIdToIdx]
        rw [hs.1 h2, h1, setKey_same]
        rfl

theorem data_take_append (s t : String) (n : Nat) (h : n ≤ s.data.length) :
    (s ++ t).data.take n = s.data.take n := by
  rw [String.data_append]
  exact List.take_append_of_le_length h

theorem le_length_append (s t : String) (n : Nat) (h : n ≤ s.data.length) :
    n ≤ (s ++ t).data.length := by
  rw [String.data_append, List.length_append]
  omega

theorem unknownMessage_head (e d : Int) :
    (unknownMessage e d).data.take 8 = ['E', 'r', 'r', 'o', 'r', ':', ' ', 'E'] := by
  have h0 : 8 ≤ "Error: Event ID ".data.length := by decide
  unfold unknownMessage
  rw [data_take_append _ _ _ (le_length_append _ _ _ (le_length_append _ _ _ h0)),
    data_take_append _ _ _ (le_length_append _ _ _ h0), data_take_append _ _ _ h0]
  rfl

theorem cycleMessage_head :
    cycleMessage.data.take 19 =
      ['E', 'r', 'r', 'o', 'r', ':', ' ', 'D', 'e', 'p', 'e', 'n', 'd', 'e', 'n', 'c', 'y', ' ', 'c'] := by
  decide

theorem timeMessage_head (e s d t : Int) :
    (timeMessage e s d t).data.take 19 =
      ['E', 'r', 'r', 'o', 'r', ':', ' ', 'D', 'e', 'p', 'e', 'n', 'd', 'e', 'n', 'c', 'y', ' ', 't'] := by
  have h0 : 19 ≤ "Error: Dependency time mismatch. Event ".data.length := by decide
  unfold timeMessage
  have h1 := le_length_append _ (toString e) _ h0
  have h2 := le_length_append _ " starts at " _ h1
  have h3 := le_length_append _ (toString s) _ h2
  have h4 := le_length_append _ " before its dependency " _ h3
  have h5 := le_length_append _ (toString d) _ h4
  have h6 := le_length_append _ " ends at " _ h5
  rw [data_take_append _ _ _ h6, data_take_append _ _ _ h5, data_take_append _ _ _ h4,
    data_take_append _ _ _ h3, data_take_append _ _ _ h2, data_take_append _ _ _ h1,
    data_take_append _ _ _ h0]
  rfl

theorem unknown_ne_cycle (e d : Int) : unknownMessage e d ≠ cycleMessage := by
  intro h
  have h1 := unknownMessage_head e d
  have h2 := congrArg (List.take 8) cycleMessage_head
  rw [h] at h1
  rw [List.take_take] at h2
  have h3 : min 8 19 = 8 := by decide
  rw [h3, h1] at h2
  exact absurd h2 (by decide)

theorem unknown_ne_time (e d e1 s d1 t : Int) : unknownMessage e d ≠ timeMessage e1 s d1 t := by
  intro h
  have h1 := unknownMessage_head e d
  have h2 := congrArg (List.take 8) (timeMessage_head e1 s d1 t)
  rw [h] at h1
  rw [List.take_take] at h2
  have h3 : min 8 19 = 8 := by decide
  rw [h3, h1] at h2
  exact absurd h2 (by decide)

theorem cycle_ne_time (e1 s d1 t : Int) : cycleMessage ≠ timeMessage e1 s d1 t := by
  intro h
  have h1 := cycleMessage_head
  rw [h, timeMessage_head] at h1
  exact absurd h1 (by decide)

theorem bounds_events (l : List Event) : ∀ s : DynamicScheduler,
    (l.foldl
      (fun s e => { s with maxAtt_ := max s.maxAtt_ (e.attendance : ℚ)
                           maxRev_ := max s.maxRev_ (e.revenue : ℚ) }) s).events_ = s.events_ ∧
    (l.foldl
      (fun s e => { s with maxAtt_ := max s.maxAtt_ (e.attendance : ℚ)
                           maxRev_ := max s.maxRev_ (e.revenue : ℚ) }) s).alpha_ = s.alpha_ := by
  induction l with
  | nil => intro s; exact ⟨rfl, rfl⟩
  | cons e rest ih =>
    intro s
    simp only [List.foldl_cons]
    exact ⟨(ih _).1, (ih _).2⟩

theorem prepared_events (self : DynamicScheduler) (events : List Event) :
    (prepared self events).events_ = events := by
  unfold prepared calculateNormalizationBounds
  exact (bounds_events events _).1

theorem prepared_idToIdx (self : DynamicScheduler) (events : List Event) :
    (prepared self events).idToIdx_ = fillIdToIdx events 0 (fun _ => none) := rfl

theorem run_eq (self : DynamicScheduler) (keys : List Int) (events : List Event)
    (obj : Objective) :
    run self keys events obj =
      if events.isEmpty then
        Except.ok { total_score := 0, chosen_events := [],
                    error_message := "No events provided.", success := true }
      else
        match validateAndBuildGraph (prepared self events) keys with
        | Except.error f => Except.error f
        | Except.ok (validationResult, topo) =>
          if !validationResult.success then Except.ok validationResult
          else planEventsWithDependencies (prepared self events) obj topo := rfl

theorem lookup_some (self : DynamicScheduler) (events : List Event)
    (h1 : self.events_ = events) (h2 : self.idToIdx_ = fillIdToIdx events 0 (fun _ => none))
    (d : Int) (hd : d ∈ allIds events) :
    ∃ i ev, self.idToIdx_ d = some i ∧ self.events_[i]? = some ev ∧ ev.id = d ∧ ev ∈ events := by
  obtain ⟨j, e, hj, hget, hid⟩ := (fill_spec events 0 (fun _ => none) d).2 hd
  refine ⟨j, e, ?_, ?_, hid, List.getElem?_mem hget⟩
  · rw [h2, hj]; simp
  · rw [h1]; exact hget

theorem filter_unique (events : List Event) (hnd : (allIds events).Nodup) (ev : Event)
    (hev : ev ∈ events) : events.filter (fun x => decide (x.id = ev.id)) = [ev] := by
  induction events with
  | nil => exact absurd hev (by simp)
  | cons a rest ih =>
    simp only [allIds, List.map_cons, List.nodup_cons] at hnd
    obtain ⟨ha, hrest⟩ := hnd
    rcases List.mem_cons.mp hev with h | h
    · subst h
      rw [List.filter_cons_of_pos (by simp)]
      congr 1
      rw [List.filter_eq_nil_iff]
      intro x hx hxid
      exact ha (List.mem_map.mpr ⟨x, hx, by simpa using hxid⟩)
    · have hne : ¬ a.id = ev.id := fun h1 => ha (List.mem_map.mpr ⟨ev, h, h1.symm⟩)
      rw [List.filter_cons_of_neg (by simpa using hne)]
      exact ih hrest h

theorem checkDepTimes_spec (self : DynamicScheduler) (events : List Event) (e : Event) :
    ∀ deps : List Int,
    (∀ d ∈ deps, ∃ i ev, self.idToIdx_ d = some i ∧ self.events_[i]? = some ev ∧
      events.filter (fun x => decide (x.id = d)) = [ev]) →
    checkDepTimes self e deps =
      Except.ok (((deps.flatMap (fun depId =>
        (events.filter (fun d => decide (d.id = depId))).map (fun d => (e, d)))).find?
          (fun p => decide (p.2.end_ > p.1.start))).map timeFailure) := by
  intro deps
  induction deps with
  | nil => intro _; rfl
  | cons d rest ih =>
    intro hlook
    obtain ⟨i, ev, hi, hget, hfil⟩ := hlook d (List.mem_cons_self d rest)
    have hid : ev.id = d := by
      have : ev ∈ events.filter (fun x => decide (x.id = d)) := by rw [hfil]; simp
      simpa using (List.mem_filter.mp this).2
    simp only [checkDepTimes, hi, hget, List.flatMap_cons, hfil, List.map_cons, List.map_nil,
      List.singleton_append]
    by_cases hv : ev.end_ > e.start
    · rw [if_pos hv, List.find?_cons_of_pos _ (by simpa using hv)]
      simp [timeFailure, hid]
    · rw [if_neg hv, List.find?_cons_of_neg _ (by simpa using hv)]
      exact ih (fun d1 hd1 => hlook d1 (List.mem_cons_of_mem d hd1))

theorem checkAllTimes_spec (self : DynamicScheduler) (events : List Event) :
    ∀ L : List Event,
    (∀ e ∈ L, ∀ d ∈ e.deps, ∃ i ev, self.idToIdx_ d = some i ∧ self.events_[i]? = some ev ∧
      events.filter (fun x => decide (x.id = d)) = [ev]) →
    checkAllTimes self L =
      Except.ok (((L.flatMap (fun e => e.deps.flatMap (fun depId =>
        (events.filter (fun d => decide (d.id = depId))).map (fun d => (e, d))))).find?
          (fun p => decide (p.2.end_ > p.1.start))).map timeFailure) := by
  intro L
  induction L with
  | nil => intro _; rfl
  | cons e rest ih =>
    intro hlook
    have hd := checkDepTimes_spec self events e e.deps (hlook e (List.mem_cons_self e rest))
    have hr := ih (fun e1 he1 => hlook e1 (List.mem_cons_of_mem e he1))
    simp only [checkAllTimes, hd, List.flatMap_cons, List.find?_append]
    cases hfind : (e.deps.flatMap (fun depId =>
        (events.filter (fun d => decide (d.id = depId))).map (fun d => (e, d)))).find?
          (fun p => decide (p.2.end_ > p.1.start)) with
    | none => simpa using hr
    | some p => simp

theorem checkAllTimes_unique (self : DynamicScheduler) (events : List Event)
    (h1 : self.events_ = events) (h2 : self.idToIdx_ = fillIdToIdx events 0 (fun _ => none))
    (hnd : (allIds events).Nodup) (hdeps : AllDepsExist events) :
    checkAllTimes self events = Except.ok ((firstTimeViolation events).map timeFailure) := by
  unfold firstTimeViolation eventPairs
  refine checkAllTimes_spec self events events ?_
  intro e he d hd
  obtain ⟨i, ev, hi, hget, hid, hmem⟩ := lookup_some self events h1 h2 d (hdeps e he d hd)
  refine ⟨i, ev, hi, hget, ?_⟩
  rw [← hid]
  exact filter_unique events hnd ev hmem

theorem validate_unknown (self : DynamicScheduler) (keys : List Int) (p : Int × Int)
    (h : firstUnknown self.events_ = some p) :
    validateAndBuildGraph self keys = Except.ok (failure (unknownMessage p.1 p.2), []) := by
  simp only [validateAndBuildGraph, buildGraph_unknown self.events_ p h]

theorem validate_known (self : DynamicScheduler) (keys : List Int)
    (hk : IsKeyOrder self.events_ keys) (hdeps : AllDepsExist self.events_) :
    ∃ flag T, (flag = true ↔ ¬ HasCycle self.events_) ∧
      (flag = true → T.Perm keys ∧
        ∀ e ∈ self.events_, ∀ d ∈ e.deps, T.indexOf d < T.indexOf e.id) ∧
      validateAndBuildGraph self keys =
        (match flag with
         | false => Except.ok (failure cycleMessage, T)
         | true =>
           match checkAllTimes self self.events_ with
           | Except.error f => Except.error f
           | Except.ok (some r) => Except.ok (r, T)
           | Except.ok none => Except.ok (validationOk, T)) := by
  obtain ⟨g, hg, rep⟩ := buildGraph_ok self.events_ hdeps
  obtain ⟨flag, T, hrun, hflag, hord⟩ := topoSort_events self.events_ keys hk hdeps g rep
  refine ⟨flag, T, hflag, hord, ?_⟩
  simp only [validateAndBuildGraph, hg, hrun]
  cases flag <;> rfl

theorem checkDepTimes_some (self : DynamicScheduler) (e : Event) : ∀ (deps : List Int)
    (r : ScheduleResult), checkDepTimes self e deps = Except.ok (some r) →
    ∃ a b c d, r = failure (timeMessage a b c d) := by
  intro deps
  induction deps with
  | nil => intro r h; simp [checkDepTimes] at h
  | cons d rest ih =>
    intro r h
    simp only [checkDepTimes] at h
    split at h
    · exact absurd h (by simp)
    · split at h
      · exact absurd h (by simp)
      · rename_i depEvent _
        split_ifs at h
        · exact ⟨e.id, e.start, d, depEvent.end_, (Option.some.inj (Except.ok.inj h)).symm⟩
        · exact ih r h

theorem checkAllTimes_some (self : DynamicScheduler) : ∀ (L : List Event)
    (r : ScheduleResult), checkAllTimes self L = Except.ok (some r) →
    ∃ a b c d, r = failure (timeMessage a b c d) := by
  intro L
  induction L with
  | nil => intro r h; simp [checkAllTimes] at h
  | cons e rest ih =>
    intro r h
    simp only [checkAllTimes] at h
    split at h
    · exact absurd h (by simp)
    · rename_i r1 heq
      have := Except.ok.inj h
      rw [Option.some.inj this] at heq
      exact checkDepTimes_some self e e.deps r heq
    · exact ih r h

theorem plan_success (self : DynamicScheduler) (obj : Objective) (topo : List Int)
    (r : ScheduleResult) (h : planEventsWithDependencies self obj topo = Except.ok r) :
    r.success = true ∧ r.error_message = "" := by
  simp only [planEventsWithDependencies] at h
  split at h
  · exact absurd h (by simp)
  · split at h
    · exact absurd h (by simp)
    · have := Except.ok.inj h
      rw [← this]
      exact ⟨rfl, rfl⟩

theorem mem_eventPairs (events : List Event) (e d : Event) :
    (e, d) ∈ eventPairs events ↔ e ∈ events ∧ d ∈ events ∧ d.id ∈ e.deps := by
  unfold eventPairs
  simp only [List.mem_flatMap, List.mem_map, List.mem_filter, decide_eq_true_eq, Prod.mk.injEq]
  constructor
  · rintro ⟨e1, he1, depId, hdep, d1, ⟨hd1, hid⟩, rfl, rfl⟩
    exact ⟨he1, hd1, hid ▸ hdep⟩
  · rintro ⟨he, hd, hid⟩
    exact ⟨e, he, d.id, hid, d, ⟨hd, rfl⟩, rfl, rfl⟩

theorem isEmpty_false (events : List Event) (hne : events ≠ []) : events.isEmpty = false := by
  cases events with
  | nil => exact absurd rfl hne
  | cons a l => rfl

theorem run_of_unknown (self : DynamicScheduler) (keys : List Int) (events : List Event)
    (obj : Objective) (hne : events ≠ []) (p : Int × Int) (h : firstUnknown events = some p) :
    run self keys events obj = Except.ok (failure (unknownMessage p.1 p.2)) := by
  have hv := validate_unknown (prepared self events) keys p (by rw [prepared_events]; exact h)
  rw [run_eq, isEmpty_false events hne, hv]
  rfl

theorem run_of_cycle (self : DynamicScheduler) (keys : List Int) (events : List Event)
    (obj : Objective) (hne : events ≠ []) (hdeps : AllDepsExist events)
    (hk : IsKeyOrder events keys) (hc : HasCycle events) :
    run self keys events obj = Except.ok (failure cycleMessage) := by
  obtain ⟨flag, T, hflag, _, hv⟩ := validate_known (prepared self events) keys
    (by rw [prepared_events]; exact hk) (by rw [prepared_events]; exact hdeps)
  rw [prepared_events] at hflag
  have hf : flag = false := by
    cases flag with
    | false => rfl
    | true => exact absurd hc (hflag.mp rfl)
  subst hf
  rw [run_eq, isEmpty_false events hne, hv]
  rfl

theorem run_acyclic (self : DynamicScheduler) (keys : List Int) (events : List Event)
    (obj : Objective) (hne : events ≠ []) (hnd : (allIds events).Nodup)
    (hdeps : AllDepsExist events) (hk : IsKeyOrder events keys) (hc : ¬ HasCycle events) :
    ∃ T, (T.Perm keys ∧ ∀ e ∈ events, ∀ d ∈ e.deps, T.indexOf d < T.indexOf e.id) ∧
      run self keys events obj =
        (match firstTimeViolation events with
         | some p => Except.ok (timeFailure p)
         | none => planEventsWithDependencies (prepared self events) obj T) := by
  obtain ⟨flag, T, hflag, hord, hv⟩ := validate_known (prepared self events) keys
    (by rw [prepared_events]; exact hk) (by rw [prepared_events]; exact hdeps)
  rw [prepared_events] at hflag hord
  have hf : flag = true := hflag.mpr hc
  subst hf
  refine ⟨T, hord rfl, ?_⟩
  have ht := checkAllTimes_unique (prepared self events) events (prepared_events self events)
    (prepared_idToIdx self events) hnd hdeps
  rw [prepared_events] at hv
  rw [run_eq, isEmpty_false events hne, hv, ht]
  cases firstTimeViolation events with
  | none => rfl
  | some p => rfl

theorem Recon.refl (self : DynamicScheduler) (st : List Int × List Event) : Recon self st st :=
  ⟨fun _ h => h, fun _ h => h, fun _ h hn => absurd h hn, fun _ h hn => absurd h hn⟩

theorem Recon.trans {self : DynamicScheduler} {a b c : List Int × List Event}
    (h1 : Recon self a b) (h2 : Recon self b c) : Recon self a c := by
  constructor
  · exact fun x hx => h2.vis x (h1.vis x hx)
  · exact fun x hx => h2.cho x (h1.cho x hx)
  · intro x hx hxa
    by_cases hxb : x ∈ b.1
    · obtain ⟨i, ev, hi, hget, hev, hdeps⟩ := h1.newId x hxb hxa
      refine ⟨i, ev, hi, hget, h2.cho ev hev, ?_⟩
      intro d hd
      rcases hdeps d hd with h | h
      · exact Or.inl h
      · exact Or.inr (h2.vis d h)
    · exact h2.newId x hx hxb
  · intro ev hev heva
    by_cases hevb : ev ∈ b.2
    · obtain ⟨x, i, hx, hi, hget⟩ := h1.newEv ev hevb heva
      exact ⟨x, i, h2.vis x hx, hi, hget⟩
    · exact h2.newEv ev hev hevb

theorem foldlM_recon (self : DynamicScheduler)
    (f : List Int × List Event → Int → Except Fault (List Int × List Event))
    (hf : ∀ d s s1, f s d = Except.ok s1 → Recon self s s1 ∧ (d = -1 ∨ d ∈ s1.1)) :
    ∀ (deps : List Int) (st st1 : List Int × List Event),
      deps.foldlM f st = Except.ok st1 →
      Recon self st st1 ∧ ∀ d ∈ deps, d = -1 ∨ d ∈ st1.1 := by
  intro deps
  induction deps with
  | nil =>
    intro st st1 h
    have : st = st1 := by simpa [List.foldlM, pure, Except.pure] using h
    subst this
    exact ⟨Recon.refl self st, fun d hd => absurd hd (by simp)⟩
  | cons d rest ih =>
    intro st st1 h
    rw [List.foldlM_cons] at h
    cases hfd : f st d with
    | error e =>
      rw [hfd] at h
      exact absurd h (by simp [bind, Except.bind])
    | ok s =>
      rw [hfd] at h
      have h1 : rest.foldlM f s = Except.ok st1 := by simpa [bind, Except.bind] using h
      obtain ⟨r1, hd1⟩ := hf d st s hfd
      obtain ⟨r2, hd2⟩ := ih s st1 h1
      refine ⟨r1.trans r2, ?_⟩
      intro x hx
      rcases List.mem_cons.mp hx with hx1 | hx1
      · subst hx1
        rcases hd1 with h3 | h3
        · exact Or.inl h3
        · exact Or.inr (r2.vis x h3)
      · exact hd2 x hx1

theorem reconstruct_spec (self : DynamicScheduler) (parent : Int → Option Int) :
    ∀ (fuel : Nat) (id : Int) (st st1 : List Int × List Event),
      reconstruct self parent fuel id st = Except.ok st1 →
      Recon self st st1 ∧ (id = -1 ∨ id ∈ st1.1) := by
  intro fuel
  induction fuel with
  | zero =>
    intro id st st1 h
    simp [reconstruct] at h
  | succ fuel ih =>
    intro id st st1 h
    simp only [reconstruct] at h
    split_ifs at h with hskip
    · have : st = st1 := Except.ok.inj h
      subst this
      exact ⟨Recon.refl self st, hskip⟩
    · split at h
      · exact absurd h (by simp)
      · rename_i i hi
        split at h
        · exact absurd h (by simp)
        · rename_i cur hget
          split at h
          · exact absurd h (by simp)
          · rename_i s1 hpar
            split at h
            · exact absurd h (by simp)
            · rename_i s2 hfold
              have hst1 : st1 = (s2.1, s2.2 ++ [cur]) := (Except.ok.inj h).symm
              have r01 : Recon self (id :: st.1, st.2) s1 := by
                split at hpar
                · exact (ih _ _ _ hpar).1
                · have : (id :: st.1, st.2) = s1 := Except.ok.inj hpar
                  rw [← this]
                  exact Recon.refl self _
              obtain ⟨r12, hdeps⟩ := foldlM_recon self
                (fun s depId => reconstruct self parent fuel depId s)
                (fun d s s3 hs => ih d s s3 hs) cur.deps s1 s2 hfold
              have r02 := r01.trans r12
              have hid : id ∈ s2.1 := r02.vis id (List.mem_cons_self id st.1)
              subst hst1
              refine ⟨⟨?_, ?_, ?_, ?_⟩, Or.inr hid⟩
              · exact fun x hx => r02.vis x (List.mem_cons_of_mem id hx)
              · exact fun ev hev => List.mem_append_left _ (r02.cho ev hev)
              · intro x hx hxn
                by_cases hxid : x = id
                · subst hxid
                  exact ⟨i, cur, hi, hget, List.mem_append_right _ (List.mem_singleton_self cur),
                    hdeps⟩
                · obtain ⟨j, ev, hj, hgetj, hev, hd⟩ := r02.newId x hx (by
                    simp only [List.mem_cons, not_or]; exact ⟨hxid, hxn⟩)
                  exact ⟨j, ev, hj, hgetj, List.mem_append_left _ hev, hd⟩
              · intro ev hev hevn
                rcases List.mem_append.mp hev with h1 | h1
                · obtain ⟨x, j, hx, hj, hgetj⟩ := r02.newEv ev h1 hevn
                  exact ⟨x, j, hx, hj, hgetj⟩
                · rw [List.mem_singleton.mp h1]
                  exact ⟨id, i, hid, hi, hget⟩

theorem lookup_id (events : List Event) (x : Int) (i : Nat) (ev : Event)
    (hi : fillIdToIdx events 0 (fun _ => none) x = some i) (hget : events[i]? = some ev) :
    ev ∈ events ∧ ev.id = x := by
  have hs := fill_spec events 0 (fun _ => none) x
  by_cases hx : x ∈ allIds events
  · obtain ⟨j, e, hj, hgetj, hid⟩ := hs.2 hx
    rw [hi] at hj
    have hij : i = j := by simpa using hj
    subst hij
    rw [hget] at hgetj
    rw [Option.some.inj hgetj]
    exact ⟨List.getElem?_mem (by rw [← Option.some.inj hgetj]; exact hget), hid⟩
  · rw [hs.1 hx] at hi
    exact absurd hi (by simp)

theorem validate_success (self : DynamicScheduler) (keys : List Int) (r : ScheduleResult)
    (topo : List Int) (hv : validateAndBuildGraph self keys = Except.ok (r, topo))
    (hs : r.success = true) :
    AllDepsExist self.events_ ∧ checkAllTimes self self.events_ = Except.ok none := by
  cases hp : firstUnknown self.events_ with
  | some p =>
    rw [validate_unknown self keys p hp] at hv
    have h1 : failure (unknownMessage p.1 p.2) = r := congrArg Prod.fst (Except.ok.inj hv)
    rw [← h1] at hs
    exact absurd hs (by simp [failure])
  | none =>
    have hdeps := (firstUnknown_none_iff _).mp hp
    refine ⟨hdeps, ?_⟩
    obtain ⟨g, hg, _⟩ := buildGraph_ok self.events_ hdeps
    simp only [validateAndBuildGraph, hg] at hv
    split at hv
    · exact absurd hv (by simp)
    · have h1 : failure cycleMessage = r := congrArg Prod.fst (Except.ok.inj hv)
      rw [← h1] at hs
      exact absurd hs (by simp [failure])
    · split at hv
      · exact absurd hv (by simp)
      · rename_i r1 hc
        have h1 : r1 = r := congrArg Prod.fst (Except.ok.inj hv)
        obtain ⟨a, b, c, d, hr⟩ := checkAllTimes_some _ _ _ hc
        rw [← h1, hr] at hs
        exact absurd hs (by simp [failure])
      · assumption

theorem run_success (self : DynamicScheduler) (keys : List Int) (events : List Event)
    (obj : Objective) (r : ScheduleResult) (hne : events ≠ [])
    (hrun : run self keys events obj = Except.ok r) (hs : r.success = true) :
    AllDepsExist events ∧ checkAllTimes (prepared self events) events = Except.ok none ∧
      ∃ topo, planEventsWithDependencies (prepared self events) obj topo = Except.ok r := by
  rw [run_eq, isEmpty_false events hne] at hrun
  simp only [Bool.false_eq_true, if_false] at hrun
  split at hrun
  · exact absurd hrun (by simp)
  · rename_i vr topo hv
    by_cases hvs : vr.success = true
    · obtain ⟨h1, h2⟩ := validate_success _ keys vr topo hv hvs
      rw [prepared_events] at h1 h2
      refine ⟨h1, h2, topo, ?_⟩
      simpa [hvs] using hrun
    · have hvf : vr.success = false := by simpa using hvs
      simp only [hvf, Bool.not_false, if_true] at hrun
      rw [← Except.ok.inj hrun] at hs
      exact absurd hs hvs

theorem mem_sortByEnd (l : List Event) (x : Event) : x ∈ sortByEnd l ↔ x ∈ l := by
  unfold sortByEnd
  exact (List.perm_insertionSort _ l).mem_iff

theorem keyOrder_permutations (events : List Event) (keys ids : List Int)
    (hids : (allIds events).dedup = ids) (hk : IsKeyOrder events keys) :
    keys ∈ ids.permutations := by
  unfold IsKeyOrder at hk
  rw [hids] at hk
  exact List.mem_permutations.mpr hk

theorem testCatalog_orders : ∀ keys ∈ List.permutations [1, 2, 3, 4, 5, 6],
    run (newScheduler (1 / 2)) keys testCatalog Objective.ATTENDANCE = Except.ok testResult := by
  decide!

theorem overlapCatalog_orders : ∀ keys ∈ List.permutations [1, 2, 3],
    run (newScheduler (1 / 2)) keys overlapCatalog Objective.ATTENDANCE =
      Except.ok overlapResult := by
  decide!

theorem chainCatalog_orders : ∀ keys ∈ List.permutations [1, 2, 3],
    (scoreOf (run (newScheduler (1 / 2)) keys chainCatalog Objective.ATTENDANCE)).isSome = true ∧
    ∀ s ∈ scoreOf (run (newScheduler (1 / 2)) keys chainCatalog Objective.ATTENDANCE),
      s ≤ 20 := by
  decide!

theorem testCatalog_optimum :
    bruteForceMax (fun e => calculateWeight (newScheduler (1 / 2)) e Objective.ATTENDANCE)
      testCatalog = 850 := by
  decide!

theorem chainCatalog_optimum :
    bruteForceMax (fun e => calculateWeight (newScheduler (1 / 2)) e Objective.ATTENDANCE)
      chainCatalog = 30 := by
  decide!

theorem minusOneCatalog_orders : ∀ keys ∈ List.permutations [-1, 2],
    run (newScheduler (1 / 2)) keys minusOneCatalog Objective.ATTENDANCE =
      Except.ok minusOneResult := by
  decide!

theorem dupCatalog_orders : ∀ keys ∈ List.permutations [1, 2, 3],
    run (newScheduler (1 / 2)) keys dupCatalog Objective.ATTENDANCE = Except.ok dupResult ∧
    run (newScheduler (1 / 2)) keys dupCatalogRepeated Objective.ATTENDANCE =
      Except.ok dupRepeatedResult := by
  decide!

theorem run_ok_cases (self : DynamicScheduler) (keys : List Int) (events : List Event)
    (obj : Objective) (hne : events ≠ []) (hdeps : AllDepsExist events) (r : ScheduleResult)
    (h : run self keys events obj = Except.ok r) :
    r = failure cycleMessage ∨ (∃ a b c d, r = failure (timeMessage a b c d)) ∨
      r.success = true := by
  obtain ⟨g, hg, _⟩ := buildGraph_ok events hdeps
  rw [run_eq, isEmpty_false events hne] at h
  simp only [Bool.false_eq_true, if_false, validateAndBuildGraph, prepared_events, hg] at h
  split at h
  · exact absurd h (by simp)
  · rename_i vr topo hv
    split at hv
    · exact absurd hv (by simp)
    · have h1 := Except.ok.inj hv
      have h2 : vr = failure cycleMessage := (congrArg Prod.fst h1).symm
      subst h2
      left
      simpa [failure] using h.symm
    · split at hv
      · exact absurd hv (by simp)
      · rename_i r1 hc
        have h1 := Except.ok.inj hv
        have h2 : vr = r1 := (congrArg Prod.fst h1).symm
        subst h2
        obtain ⟨a, b, c, d, hr⟩ := checkAllTimes_some _ _ _ hc
        right; left
        subst hr
        exact ⟨a, b, c, d, by simpa [failure] using h.symm⟩
      · have h1 := Except.ok.inj hv
        have h2 : vr = _ := (congrArg Prod.fst h1).symm
        subst h2
        right; right
        simp only [Bool.not_true, Bool.false_eq_true, if_false] at h
        exact (plan_success _ _ _ _ h).1

theorem lateCatalog_acyclic : ¬ HasCycle lateCatalog := by
  intro hc
  have h := run_of_cycle (newScheduler (1 / 2)) [1, 2] lateCatalog Objective.ATTENDANCE
    (by decide) (by unfold AllDepsExist; decide) (by unfold IsKeyOrder; decide) hc
  exact absurd h (by decide!)

theorem upperBound_total (comp : Event → Bool) (l : List Event) :
    ∀ (fuel first len : Nat), len ≤ fuel → first + len ≤ l.length →
      ∃ it, upperBound comp l fuel first len = Except.ok it ∧ it ≤ first + len := by
  intro fuel
  induction fuel with
  | zero =>
    intro first len h1 _
    have : len = 0 := by omega
    subst this
    exact ⟨first, by simp [upperBound], by omega⟩
  | succ fuel ih =>
    intro first len h1 h2
    cases len with
    | zero => exact ⟨first, by simp [upperBound], by omega⟩
    | succ len =>
      have hmid : first + (len + 1) / 2 < l.length := by omega
      have hget : l[first + (len + 1) / 2]? = some l[first + (len + 1) / 2] :=
        List.getElem?_eq_getElem hmid
      simp only [upperBound, hget]
      split_ifs
      · obtain ⟨it, hit, hle⟩ := ih first ((len + 1) / 2) (by omega) (by omega)
        exact ⟨it, hit, by omega⟩
      · obtain ⟨it, hit, hle⟩ := ih (first + (len + 1) / 2 + 1) (len + 1 - (len + 1) / 2 - 1)
          (by omega) (by omega)
        exact ⟨it, hit, by omega⟩

theorem groupByVenue_spec (events : List Event) (v : String) :
    groupByVenue events v =
      (if events.filter (fun x => decide (x.venue = v)) = [] then none
       else some (events.filter (fun x => decide (x.venue = v)))) := by
  unfold groupByVenue
  induction events using List.reverseRecOn with
  | nil => simp
  | append_singleton es e ih =>
    rw [List.foldl_append]
    simp only [List.foldl_cons, List.foldl_nil, List.filter_append]
    by_cases hv : e.venue = v
    · subst hv
      simp only [setVenue, if_true, ih]
      by_cases hes : es.filter (fun x => decide (x.venue = e.venue)) = []
      · simp [hes]
      · simp [hes]
    · have hv1 : ¬ v = e.venue := fun h => hv h.symm
      simp only [setVenue, hv1, if_false, ih]
      simp [hv]

theorem eventsByVenue_some (events : List Event) (cur : Event) (hcur : cur ∈ events) :
    ∃ l, eventsByVenue events cur.venue = some l ∧ ∀ x ∈ l, x ∈ events := by
  have hmem : cur ∈ events.filter (fun x => decide (x.venue = cur.venue)) := by
    simp [List.mem_filter, hcur]
  have hne : events.filter (fun x => decide (x.venue = cur.venue)) ≠ [] :=
    List.ne_nil_of_mem hmem
  refine ⟨sortByEnd (events.filter (fun x => decide (x.venue = cur.venue))), ?_, ?_⟩
  · unfold eventsByVenue
    rw [groupByVenue_spec, if_neg hne]
    rfl
  · intro x hx
    rw [mem_sortByEnd] at hx
    exact (List.mem_filter.mp hx).1

theorem dpStep_total (self : DynamicScheduler) (events : List Event) (obj : Objective)
    (h1 : self.events_ = events) (h2 : self.idToIdx_ = fillIdToIdx events 0 (fun _ => none))
    (st : DPState) (hgood : DPGood events st) (eventId : Int) (hid : eventId ∈ allIds events) :
    ∃ st1, dpStep self obj (eventsByVenue events) st eventId = Except.ok st1 ∧
      DPGood events st1 := by
  obtain ⟨i, cur, hi, hget, _, hcur⟩ := lookup_some self events h1 h2 eventId hid
  obtain ⟨l, hl, hsub⟩ := eventsByVenue_some events cur hcur
  obtain ⟨it, hit, hle⟩ := upperBound_total (fun ev => decide (cur.start > ev.end_)) l
    l.length 0 l.length (le_refl _) (by omega)
  simp only [dpStep, hi, hget, hl, hit]
  by_cases hz : it = 0
  · subst hz
    simp only [ne_eq, not_true_eq_false, if_false]
    refine ⟨_, rfl, ?_, ?_⟩
    · simp only
      split_ifs
      · exact Or.inr hid
      · exact hgood.last
    · intro k p hp
      simp only [setKey] at hp
      split_ifs at hp
      · exact Or.inl (Option.some.inj hp).symm
      · exact hgood.par k p hp
  · have hlt : it - 1 < l.length := by omega
    have hget1 : l[it - 1]? = some l[it - 1] := List.getElem?_eq_getElem hlt
    have hprev : l[it - 1] ∈ events := hsub _ (List.getElem_mem hlt)
    have hprevid : l[it - 1].id ∈ allIds events := List.mem_map.mpr ⟨_, hprev, rfl⟩
    simp only [ne_eq, hz, not_false_eq_true, if_true, hget1]
    cases hdp : st.dp l[it - 1].id with
    | none =>
      refine ⟨_, rfl, ?_, ?_⟩
      · simp only
        split_ifs
        · exact Or.inr hid
        · exact hgood.last
      · intro k p hp
        simp only [setKey] at hp
        split_ifs at hp
        · exact Or.inl (Option.some.inj hp).symm
        · exact hgood.par k p hp
    | some sc =>
      refine ⟨_, rfl, ?_, ?_⟩
      · simp only
        split_ifs
        · exact Or.inr hid
        · exact hgood.last
      · intro k p hp
        simp only [setKey] at hp
        split_ifs at hp
        · exact Or.inr ((Option.some.inj hp) ▸ hprevid)
        · exact hgood.par k p hp

theorem dpLoop_total (self : DynamicScheduler) (events : List Event) (obj : Objective)
    (h1 : self.events_ = events) (h2 : self.idToIdx_ = fillIdToIdx events 0 (fun _ => none)) :
    ∀ (topo : List Int) (st : DPState), DPGood events st → (∀ k ∈ topo, k ∈ allIds events) →
      ∃ st1, dpLoop self obj (eventsByVenue events) topo st = Except.ok st1 ∧
        DPGood events st1 := by
  intro topo
  induction topo with
  | nil => intro st hg _; exact ⟨st, rfl, hg⟩
  | cons k rest ih =>
    intro st hg hk
    obtain ⟨s1, hs1, hg1⟩ := dpStep_total self events obj h1 h2 st hg k
      (hk k (List.mem_cons_self k rest))
    obtain ⟨s2, hs2, hg2⟩ := ih s1 hg1 (fun x hx => hk x (List.mem_cons_of_mem k hx))
    exact ⟨s2, by simp only [dpLoop, hs1]; exact hs2, hg2⟩

theorem unvisited_mono (events : List Event) (V W : List Int) (h : ∀ x ∈ V, x ∈ W) :
    (unvisited events W).length ≤ (unvisited events V).length := by
  unfold unvisited
  refine (List.monotone_filter_right _ ?_).length_le
  intro a ha
  simp only [decide_eq_true_eq] at ha ⊢
  exact fun hv => ha (h a hv)

theorem unvisited_cons (events : List Event) (V : List Int) (id : Int)
    (hid : id ∈ allIds events) (hV : id ∉ V) :
    (unvisited events (id :: V)).length < (unvisited events V).length := by
  have heq : unvisited events (id :: V) =
      (unvisited events V).filter (fun k => decide (k ≠ id)) := by
    unfold unvisited
    rw [List.filter_filter]
    congr 1
    funext k
    simp only [List.mem_cons, not_or, Bool.decide_and, ne_eq]
  rw [heq, List.length_filter_lt_length_iff_exists]
  refine ⟨id, ?_, by simp⟩
  unfold unvisited
  simp [List.mem_filter, hid, hV]

theorem foldlM_total (self : DynamicScheduler) (events : List Event) (fuel : Nat)
    (f : List Int × List Event → Int → Except Fault (List Int × List Event))
    (hspec : ∀ d s s1, f s d = Except.ok s1 → Recon self s s1 ∧ (d = -1 ∨ d ∈ s1.1))
    (htot : ∀ d s, (d = -1 ∨ d ∈ allIds events) → (unvisited events s.1).length < fuel →
      ∃ s1, f s d = Except.ok s1) :
    ∀ (deps : List Int) (st : List Int × List Event),
      (∀ d ∈ deps, d = -1 ∨ d ∈ allIds events) → (unvisited events st.1).length < fuel →
      ∃ st1, deps.foldlM f st = Except.ok st1 := by
  intro deps
  induction deps with
  | nil => intro st _ _; exact ⟨st, rfl⟩
  | cons d rest ih =>
    intro st hd hfuel
    obtain ⟨s1, hs1⟩ := htot d st (hd d (List.mem_cons_self d rest)) hfuel
    have hrec := (hspec d st s1 hs1).1
    have hle := unvisited_mono events st.1 s1.1 hrec.vis
    obtain ⟨s2, hs2⟩ := ih s1 (fun x hx => hd x (List.mem_cons_of_mem d hx)) (by omega)
    refine ⟨s2, ?_⟩
    rw [List.foldlM_cons, hs1]
    exact hs2

theorem reconstruct_total (self : DynamicScheduler) (events : List Event)
    (parent : Int → Option Int) (h1 : self.events_ = events)
    (h2 : self.idToIdx_ = fillIdToIdx events 0 (fun _ => none))
    (hpar : ∀ k p, parent k = some p → p = -1 ∨ p ∈ allIds events)
    (hdeps : AllDepsExist events) :
    ∀ (fuel : Nat) (id : Int) (st : List Int × List Event),
      (id = -1 ∨ id ∈ allIds events) → (unvisited events st.1).length < fuel →
      ∃ st1, reconstruct self parent fuel id st = Except.ok st1 := by
  intro fuel
  induction fuel with
  | zero => intro id st _ h; omega
  | succ fuel ih =>
    intro id st hid hfuel
    by_cases hskip : id = -1 ∨ id ∈ st.1
    · exact ⟨st, by simp only [reconstruct, hskip, if_true]⟩
    · have hidk : id ∈ allIds events := by
        rcases hid with h | h
        · exact absurd (Or.inl h) hskip
        · exact h
      have hnv : id ∉ st.1 := fun h => hskip (Or.inr h)
      obtain ⟨i, cur, hi, hget, _, hcur⟩ := lookup_some self events h1 h2 id hidk
      have hlt := unvisited_cons events st.1 id hidk hnv
      have hfin : ∀ s1, (unvisited events s1.1).length < fuel →
          ∃ s2, cur.deps.foldlM (fun s depId => reconstruct self parent fuel depId s) s1 =
            Except.ok s2 := by
        intro s1 hf1
        exact foldlM_total self events fuel
          (fun s depId => reconstruct self parent fuel depId s)
          (fun d s s3 hs => reconstruct_spec self parent fuel d s s3 hs)
          (fun d s hd hs => ih d s hd hs) cur.deps s1
          (fun d hd => Or.inr (hdeps cur hcur d hd)) hf1
      cases hp : parent id with
      | none =>
        obtain ⟨s2, hs2⟩ := hfin (id :: st.1, st.2) (by simp only; omega)
        refine ⟨(s2.1, s2.2 ++ [cur]), ?_⟩
        simp only [reconstruct, hskip, if_false, hi, hget, hp, hs2]
      | some p =>
        obtain ⟨s1, hs1⟩ := ih p (id :: st.1, st.2) (hpar id p hp) (by simp only; omega)
        have hrec := (reconstruct_spec self parent fuel p _ s1 hs1).1
        have hle := unvisited_mono events (id :: st.1) s1.1 hrec.vis
        obtain ⟨s2, hs2⟩ := hfin s1 (by omega)
        refine ⟨(s2.1, s2.2 ++ [cur]), ?_⟩
        simp only [reconstruct, hskip, if_false, hi, hget, hp, hs1, hs2]

theorem plan_total (self : DynamicScheduler) (events : List Event) (obj : Objective)
    (h1 : self.events_ = events) (h2 : self.idToIdx_ = fillIdToIdx events 0 (fun _ => none))
    (hdeps : AllDepsExist events) (topo : List Int) (htopo : ∀ k ∈ topo, k ∈ allIds events) :
    ∃ r, planEventsWithDependencies self obj topo = Except.ok r := by
  obtain ⟨st, hst, hg⟩ := dpLoop_total self events obj h1 h2 topo
    { dp := fun _ => none, parent := fun _ => none, maxTotalScore := 0, lastEventId := -1 }
    ⟨Or.inl rfl, fun k p hp => absurd hp (by simp)⟩ htopo
  obtain ⟨out, hout⟩ := reconstruct_total self events st.parent h1 h2 hg.par hdeps
    (events.length + 1) st.lastEventId ([], []) hg.last (by
      show (unvisited events []).length < events.length + 1
      have : (unvisited events []).length ≤ events.length := by
        unfold unvisited
        refine le_trans (List.length_filter_le _ _) ?_
        refine le_trans (List.dedup_sublist _).length_le ?_
        simp [allIds]
      omega)
  refine ⟨{ total_score := st.maxTotalScore, chosen_events := sortByEnd out.2,
             error_message := "", success := true }, ?_⟩
  simp only [planEventsWithDependencies, h1, hst, hout]

theorem checkAllTimes_total (self : DynamicScheduler) : ∀ L : List Event,
    (∀ e ∈ L, ∀ d ∈ e.deps, ∃ i ev, self.idToIdx_ d = some i ∧ self.events_[i]? = some ev) →
    ∃ x, checkAllTimes self L = Except.ok x := by
  have hdep : ∀ (e : Event) (deps : List Int),
      (∀ d ∈ deps, ∃ i ev, self.idToIdx_ d = some i ∧ self.events_[i]? = some ev) →
      ∃ x, checkDepTimes self e deps = Except.ok x := by
    intro e deps
    induction deps with
    | nil => intro _; exact ⟨none, rfl⟩
    | cons d rest ih =>
      intro h
      obtain ⟨i, ev, hi, hget⟩ := h d (List.mem_cons_self d rest)
      simp only [checkDepTimes, hi, hget]
      split_ifs
      · exact ⟨_, rfl⟩
      · exact ih (fun x hx => h x (List.mem_cons_of_mem d hx))
  intro L
  induction L with
  | nil => intro _; exact ⟨none, rfl⟩
  | cons e rest ih =>
    intro h
    obtain ⟨x, hx⟩ := hdep e e.deps (h e (List.mem_cons_self e rest))
    simp only [checkAllTimes, hx]
    cases x with
    | some r => exact ⟨_, rfl⟩
    | none => exact ih (fun e1 he1 => h e1 (List.mem_cons_of_mem e he1))

theorem run_total (self : DynamicScheduler) (keys : List Int) (events : List Event)
    (obj : Objective) (hk : IsKeyOrder events keys) :
    ∃ r, run self keys events obj = Except.ok r := by
  by_cases hne : events = []
  · subst hne
    exact ⟨_, by rw [run_eq]; rfl⟩
  · by_cases hdeps : AllDepsExist events
    · obtain ⟨flag, T, _, hord, hv⟩ := validate_known (prepared self events) keys
        (by rw [prepared_events]; exact hk) (by rw [prepared_events]; exact hdeps)
      rw [prepared_events] at hv hord
      rw [run_eq, isEmpty_false events hne, hv]
      cases flag with
      | false => exact ⟨_, rfl⟩
      | true =>
        obtain ⟨x, hx⟩ := checkAllTimes_total (prepared self events) events (by
          intro e he d hd
          obtain ⟨i, ev, hi, hget, _⟩ := lookup_some (prepared self events) events
            (prepared_events self events) (prepared_idToIdx self events) d (hdeps e he d hd)
          exact ⟨i, ev, hi, hget⟩)
        simp only [hx]
        cases x with
        | some r =>
          obtain ⟨a, b, c, d, hr⟩ := checkAllTimes_some _ _ _ hx
          subst hr
          exact ⟨_, rfl⟩
        | none =>
          obtain ⟨r, hr⟩ := plan_total (prepared self events) events obj
            (prepared_events self events) (prepared_idToIdx self events) hdeps T (by
              intro k hkT
              exact (keyOrder_mem events keys hk k).mp ((hord rfl).1.mem_iff.mp hkT))
          exact ⟨r, by simpa [validationOk] using hr⟩
    · cases hp : firstUnknown events with
      | none => exact absurd ((firstUnknown_none_iff events).mp hp) hdeps
      | some p => exact ⟨_, run_of_unknown self keys events obj hne p hp⟩

/-! ### Bounds, state independence, reconstruction order, venue query -/

theorem bounds_fold (l : List Event) : ∀ s : DynamicScheduler,
    l.foldl
      (fun s e => { s with maxAtt_ := max s.maxAtt_ (e.attendance : ℚ)
                           maxRev_ := max s.maxRev_ (e.revenue : ℚ) }) s =
      { alpha_ := s.alpha_
        maxAtt_ := l.foldl (fun m e => max m (e.attendance : ℚ)) s.maxAtt_
        maxRev_ := l.foldl (fun m e => max m (e.revenue : ℚ)) s.maxRev_
        events_ := s.events_
        idToIdx_ := s.idToIdx_ } := by
  induction l with
  | nil => intro s; rfl
  | cons e rest ih =>
    intro s
    simp only [List.foldl_cons]
    rw [ih]

theorem foldl_max_cast (f : Event → Int) (es : List Event) : ∀ (m : Int) (q : ℚ),
    es.foldl (fun x e => max x ((f e : Int) : ℚ)) (max q (m : ℚ)) =
      max q (((es.map f).foldl max m : Int) : ℚ) := by
  induction es with
  | nil => intro m q; rfl
  | cons e rest ih =>
    intro m q
    simp only [List.foldl_cons, List.map_cons]
    rw [← ih (max m (f e)) q]
    congr 1
    rw [Int.cast_max, max_assoc]

theorem foldl_max_specBound (f : Event → Int) (es : List Event) :
    es.foldl (fun x e => max x ((f e : Int) : ℚ)) 1 = specBound (es.map f) := by
  cases es with
  | nil => rfl
  | cons e rest =>
    simp only [List.foldl_cons, List.map_cons, specBound, List.max?]
    exact foldl_max_cast f rest (f e) 1

theorem bounds_eq (self : DynamicScheduler) (events : List Event) :
    calculateNormalizationBounds self events =
      { alpha_ := self.alpha_
        maxAtt_ := specBound (events.map (fun e => e.attendance))
        maxRev_ := specBound (events.map (fun e => e.revenue))
        events_ := self.events_
        idToIdx_ := self.idToIdx_ } := by
  unfold calculateNormalizationBounds
  rw [bounds_fold]
  simp only
  rw [foldl_max_specBound (fun e => e.attendance), foldl_max_specBound (fun e => e.revenue)]

theorem prepared_eq (self : DynamicScheduler) (events : List Event) :
    prepared self events =
      { alpha_ := self.alpha_
        maxAtt_ := specBound (events.map (fun e => e.attendance))
        maxRev_ := specBound (events.map (fun e => e.revenue))
        events_ := events
        idToIdx_ := fillIdToIdx events 0 (fun _ => none) } := by
  unfold prepared
  rw [bounds_eq]

theorem specBound_pos (vals : List Int) : 1 ≤ specBound vals := by
  unfold specBound
  split
  · exact le_max_left _ _
  · exact le_refl _

theorem rat_floor_eq (q : ℚ) : Rat.floor q = ⌊q⌋ := rfl

theorem rat_ceil_eq (q : ℚ) : Rat.ceil q = ⌈q⌉ := by
  symm
  unfold Rat.ceil
  split
  · rename_i h
    have hq : q = (q.num : ℚ) := by
      have := Rat.num_div_den q
      rw [h] at this
      simpa using this.symm
    rw [hq]
    simp
  · rename_i h
    rw [← Rat.floor_def, Int.ceil_eq_iff]
    constructor
    · push_cast
      have h1 : (⌊q⌋ : ℚ) ≤ q := Int.floor_le q
      have h2 : (⌊q⌋ : ℚ) ≠ q := by
        intro heq
        apply h
        rw [← heq]
        exact Rat.den_intCast _
      have := lt_of_le_of_ne h1 h2
      linarith
    · push_cast
      exact le_of_lt (Int.lt_floor_add_one q)

theorem truncToInt_mono (x y : ℚ) (h : x ≤ y) : truncToInt x ≤ truncToInt y := by
  unfold truncToInt
  by_cases hx : 0 ≤ x
  · have hy : 0 ≤ y := le_trans hx h
    rw [if_pos hx, if_pos hy, rat_floor_eq, rat_floor_eq]
    exact Int.floor_le_floor h
  · by_cases hy : 0 ≤ y
    · rw [if_neg hx, if_pos hy, rat_floor_eq, rat_ceil_eq]
      have h1 : ⌈x⌉ ≤ 0 := Int.ceil_le.mpr (by push_cast; linarith)
      have h2 : 0 ≤ ⌊y⌋ := Int.floor_nonneg.mpr hy
      omega
    · rw [if_neg hx, if_neg hy, rat_ceil_eq, rat_ceil_eq]
      exact Int.ceil_le_ceil h

theorem checkDepTimes_congr (s s1 : DynamicScheduler) (h1 : s.events_ = s1.events_)
    (h2 : s.idToIdx_ = s1.idToIdx_) (e : Event) (deps : List Int) :
    checkDepTimes s e deps = checkDepTimes s1 e deps := by
  induction deps with
  | nil => rfl
  | cons d rest ih => simp only [checkDepTimes, h1, h2, ih]

theorem checkAllTimes_congr (s s1 : DynamicScheduler) (h1 : s.events_ = s1.events_)
    (h2 : s.idToIdx_ = s1.idToIdx_) (L : List Event) :
    checkAllTimes s L = checkAllTimes s1 L := by
  induction L with
  | nil => rfl
  | cons e rest ih => simp only [checkAllTimes, checkDepTimes_congr s s1 h1 h2, ih]

theorem validate_congr (s s1 : DynamicScheduler) (h1 : s.events_ = s1.events_)
    (h2 : s.idToIdx_ = s1.idToIdx_) (keys : List Int) :
    validateAndBuildGraph s keys = validateAndBuildGraph s1 keys := by
  simp only [validateAndBuildGraph, h1, checkAllTimes_congr s s1 h1 h2]

theorem dpStep_congr (s s1 : DynamicScheduler) (obj : Objective)
    (h1 : s.events_ = s1.events_) (h2 : s.idToIdx_ = s1.idToIdx_)
    (hw : ∀ e, calculateWeight s e obj = calculateWeight s1 e obj)
    (byVenue : String → Option (List Event)) (st : DPState) (eventId : Int) :
    dpStep s obj byVenue st eventId = dpStep s1 obj byVenue st eventId := by
  simp only [dpStep, h1, h2, hw]

theorem dpLoop_congr (s s1 : DynamicScheduler) (obj : Objective)
    (h1 : s.events_ = s1.events_) (h2 : s.idToIdx_ = s1.idToIdx_)
    (hw : ∀ e, calculateWeight s e obj = calculateWeight s1 e obj)
    (byVenue : String → Option (List Event)) (topo : List Int) : ∀ st : DPState,
    dpLoop s obj byVenue topo st = dpLoop s1 obj byVenue topo st := by
  induction topo with
  | nil => intro st; rfl
  | cons k rest ih =>
    intro st
    simp only [dpLoop, dpStep_congr s s1 obj h1 h2 hw, ih]

theorem reconstruct_congr (s s1 : DynamicScheduler) (h1 : s.events_ = s1.events_)
    (h2 : s.idToIdx_ = s1.idToIdx_) (parent : Int → Option Int) :
    ∀ (fuel : Nat) (id : Int) (st : List Int × List Event),
      reconstruct s parent fuel id st = reconstruct s1 parent fuel id st := by
  intro fuel
  induction fuel with
  | zero => intro id st; rfl
  | succ fuel ih =>
    intro id st
    have hf : (fun (x : List Int × List Event) (depId : Int) => reconstruct s parent fuel depId x) =
        (fun x depId => reconstruct s1 parent fuel depId x) := by
      funext x depId
      exact ih depId x
    simp only [reconstruct, h1, h2, hf, ih]

theorem plan_congr (s s1 : DynamicScheduler) (obj : Objective)
    (h1 : s.events_ = s1.events_) (h2 : s.idToIdx_ = s1.idToIdx_)
    (hw : ∀ e, calculateWeight s e obj = calculateWeight s1 e obj) (topo : List Int) :
    planEventsWithDependencies s obj topo = planEventsWithDependencies s1 obj topo := by
  have hr : ∀ parent fuel id st, reconstruct s parent fuel id st =
      reconstruct s1 parent fuel id st := reconstruct_congr s s1 h1 h2
  simp only [planEventsWithDependencies, dpLoop_congr s s1 obj h1 h2 hw, hr, h1]

theorem run_congr (s s1 : DynamicScheduler) (keys : List Int) (events : List Event)
    (obj : Objective)
    (hw : ∀ e, calculateWeight (prepared s events) e obj =
      calculateWeight (prepared s1 events) e obj) :
    run s keys events obj = run s1 keys events obj := by
  have h1 : (prepared s events).events_ = (prepared s1 events).events_ := by
    rw [prepared_events, prepared_events]
  have h2 : (prepared s events).idToIdx_ = (prepared s1 events).idToIdx_ := rfl
  rw [run_eq, run_eq, validate_congr _ _ h1 h2]
  have hp : ∀ topo, planEventsWithDependencies (prepared s events) obj topo =
      planEventsWithDependencies (prepared s1 events) obj topo :=
    plan_congr _ _ obj h1 h2 hw
  simp only [hp]

theorem message_ne_empty (msg : String) (n : Nat) (c : Char) (cs : List Char)
    (h : msg.data.take n = c :: cs) : msg ≠ "" := by
  intro he
  rw [he] at h
  simp at h

theorem validate_failure (self : DynamicScheduler) (keys : List Int) (vr : ScheduleResult)
    (topo : List Int) (hv : validateAndBuildGraph self keys = Except.ok (vr, topo))
    (hs : vr.success = false) : ∃ msg, vr = failure msg ∧ msg ≠ "" := by
  cases hp : firstUnknown self.events_ with
  | some p =>
    rw [validate_unknown self keys p hp] at hv
    have h1 : failure (unknownMessage p.1 p.2) = vr := congrArg Prod.fst (Except.ok.inj hv)
    exact ⟨_, h1.symm, message_ne_empty _ 8 _ _ (unknownMessage_head p.1 p.2)⟩
  | none =>
    have hdeps := (firstUnknown_none_iff _).mp hp
    obtain ⟨g, hg, _⟩ := buildGraph_ok self.events_ hdeps
    simp only [validateAndBuildGraph, hg] at hv
    split at hv
    · exact absurd hv (by simp)
    · have h1 : failure cycleMessage = vr := congrArg Prod.fst (Except.ok.inj hv)
      exact ⟨_, h1.symm, message_ne_empty _ 19 _ _ cycleMessage_head⟩
    · split at hv
      · exact absurd hv (by simp)
      · rename_i r1 hc
        have h1 : r1 = vr := congrArg Prod.fst (Except.ok.inj hv)
        obtain ⟨a, b, c, d, hr⟩ := checkAllTimes_some _ _ _ hc
        rw [← h1, hr]
        exact ⟨_, rfl, message_ne_empty _ 19 _ _ (timeMessage_head a b c d)⟩
      · have h1 := congrArg Prod.fst (Except.ok.inj hv)
        simp only at h1
        rw [← h1] at hs
        exact absurd hs (by simp)

theorem freshPush_refl (st : List Int × List Event) : FreshPush st st :=
  ⟨fun _ h => h, [], by simp, fun _ h => absurd h (by simp), List.nodup_nil⟩

theorem freshPush_trans {a b c : List Int × List Event} (h1 : FreshPush a b)
    (h2 : FreshPush b c) : FreshPush a c := by
  obtain ⟨v1, n1, e1, m1, d1⟩ := h1
  obtain ⟨v2, n2, e2, m2, d2⟩ := h2
  refine ⟨fun x hx => v2 x (v1 x hx), n1 ++ n2, ?_, ?_, ?_⟩
  · rw [e2, e1, List.append_assoc]
  · intro ev hev
    rcases List.mem_append.mp hev with h | h
    · exact ⟨v2 _ (m1 ev h).1, (m1 ev h).2⟩
    · exact ⟨(m2 ev h).1, fun hx => (m2 ev h).2 (v1 _ hx)⟩
  · rw [List.map_append]
    refine List.nodup_append.mpr ⟨d1, d2, ?_⟩
    intro x hx1 hx2
    obtain ⟨ev1, hev1, rfl⟩ := List.mem_map.mp hx1
    obtain ⟨ev2, hev2, hid⟩ := List.mem_map.mp hx2
    have := (m2 ev2 hev2).2
    rw [hid] at this
    exact this (m1 ev1 hev1).1

theorem foldlM_fresh
    (f : List Int × List Event → Int → Except Fault (List Int × List Event))
    (hf : ∀ d s s1, f s d = Except.ok s1 → FreshPush s s1) :
    ∀ (deps : List Int) (st st1 : List Int × List Event),
      deps.foldlM f st = Except.ok st1 → FreshPush st st1 := by
  intro deps
  induction deps with
  | nil =>
    intro st st1 h
    have : st = st1 := by simpa [List.foldlM, pure, Except.pure] using h
    subst this
    exact freshPush_refl st
  | cons d rest ih =>
    intro st st1 h
    rw [List.foldlM_cons] at h
    cases hfd : f st d with
    | error e =>
      rw [hfd] at h
      exact absurd h (by simp [bind, Except.bind])
    | ok s =>
      rw [hfd] at h
      have h1 : rest.foldlM f s = Except.ok st1 := by simpa [bind, Except.bind] using h
      exact freshPush_trans (hf d st s hfd) (ih s st1 h1)

theorem reconstruct_fresh (self : DynamicScheduler) (parent : Int → Option Int)
    (hlook : ∀ x i ev, self.idToIdx_ x = some i → self.events_[i]? = some ev → ev.id = x) :
    ∀ (fuel : Nat) (id : Int) (st st1 : List Int × List Event),
      reconstruct self parent fuel id st = Except.ok st1 → FreshPush st st1 := by
  intro fuel
  induction fuel with
  | zero =>
    intro id st st1 h
    simp [reconstruct] at h
  | succ fuel ih =>
    intro id st st1 h
    simp only [reconstruct] at h
    split_ifs at h with hskip
    · have : st = st1 := Except.ok.inj h
      subst this
      exact freshPush_refl st
    · split at h
      · exact absurd h (by simp)
      · rename_i i hi
        split at h
        · exact absurd h (by simp)
        · rename_i cur hget
          split at h
          · exact absurd h (by simp)
          · rename_i s1 hpar
            split at h
            · exact absurd h (by simp)
            · rename_i s2 hfold
              have hst1 : st1 = (s2.1, s2.2 ++ [cur]) := (Except.ok.inj h).symm
              have r01 : FreshPush (id :: st.1, st.2) s1 := by
                split at hpar
                · exact ih _ _ _ hpar
                · have : (id :: st.1, st.2) = s1 := Except.ok.inj hpar
                  rw [← this]
                  exact freshPush_refl _
              have r12 := foldlM_fresh
                (fun s depId => reconstruct self parent fuel depId s)
                (fun d s s3 hs => ih d s s3 hs) cur.deps s1 s2 hfold
              obtain ⟨v, pushed, he, hm, hd⟩ := freshPush_trans r01 r12
              have hid : id ∈ s2.1 := v id (List.mem_cons_self id st.1)
              have hcur : cur.id = id := hlook id i cur hi hget
              have hnv : id ∉ st.1 := fun hx => hskip (Or.inr hx)
              subst hst1
              refine ⟨fun x hx => v x (List.mem_cons_of_mem id hx), pushed ++ [cur], ?_, ?_, ?_⟩
              · simp only at he ⊢
                rw [he, List.append_assoc]
              · intro ev hev
                rcases List.mem_append.mp hev with h1 | h1
                · exact ⟨(hm ev h1).1, fun hx => (hm ev h1).2 (List.mem_cons_of_mem id hx)⟩
                · rw [List.mem_singleton.mp h1, hcur]
                  exact ⟨hid, hnv⟩
              · rw [List.map_append]
                refine List.nodup_append.mpr ⟨hd, by simp, ?_⟩
                intro x hx1 hx2
                obtain ⟨ev1, hev1, rfl⟩ := List.mem_map.mp hx1
                simp only [List.map_cons, List.map_nil, List.mem_singleton] at hx2
                have := (hm ev1 hev1).2
                rw [hx2, hcur] at this
                exact this (List.mem_cons_self id st.1)

theorem sortByEnd_sorted (l : List Event) :
    (sortByEnd l).Pairwise (fun a b => a.end_ ≤ b.end_) := by
  haveI : IsTotal Event (fun a b => a.end_ ≤ b.end_) := ⟨fun a b => le_total a.end_ b.end_⟩
  haveI : IsTrans Event (fun a b => a.end_ ≤ b.end_) := ⟨fun _ _ _ h1 h2 => le_trans h1 h2⟩
  exact List.sorted_insertionSort (fun a b => a.end_ ≤ b.end_) l

theorem foldl_fixed (f : Int → Int → Int) (deps : List Int) (init : Int)
    (hf : ∀ s d, f s d = s) : deps.foldl f init = init := by
  induction deps with
  | nil => rfl
  | cons d rest ih => rw [List.foldl_cons, hf, ih]

theorem dpStep_zero (self : DynamicScheduler) (obj : Objective)
    (byVenue : String → Option (List Event))
    (hw : ∀ e ∈ self.events_, calculateWeight self e obj = 0) (st st1 : DPState)
    (eventId : Int) (hz : ZeroState st)
    (h : dpStep self obj byVenue st eventId = Except.ok st1) : ZeroState st1 := by
  obtain ⟨hdp, hmax, hlast⟩ := hz
  simp only [dpStep] at h
  split at h
  · exact absurd h (by simp)
  · split at h
    · exact absurd h (by simp)
    · rename_i cur hget
      have hcur : calculateWeight self cur obj = 0 := hw cur (List.getElem?_mem hget)
      split at h
      · exact absurd h (by simp)
      · split at h
        · exact absurd h (by simp)
        · split at h
          · exact absurd h (by simp)
          · rename_i best bid hfound
            have hbest : best = 0 := by
              split_ifs at hfound
              · split at hfound
                · exact absurd hfound (by simp)
                · split at hfound
                  · rename_i sc hsc
                    have := Except.ok.inj hfound
                    rw [← (Prod.mk.inj this).1]
                    exact hdp _ _ hsc
                  · exact ((Prod.mk.inj (Except.ok.inj hfound)).1).symm
              · exact ((Prod.mk.inj (Except.ok.inj hfound)).1).symm
            rw [foldl_fixed] at h
            swap
            · intro s d
              split
              · rename_i v hv
                rw [hdp d v hv]
                simp
              · rfl
            rw [hcur, hbest, hmax] at h
            have hst := Except.ok.inj h
            rw [← hst]
            refine ⟨?_, ?_, ?_⟩
            · intro k v hk
              simp only [setKey] at hk
              split_ifs at hk
              · exact (Option.some.inj hk).symm
              · exact hdp k v hk
            · simp
            · simpa using hlast

theorem dpLoop_zero (self : DynamicScheduler) (obj : Objective)
    (byVenue : String → Option (List Event))
    (hw : ∀ e ∈ self.events_, calculateWeight self e obj = 0) (topo : List Int) :
    ∀ (st st1 : DPState), ZeroState st →
      dpLoop self obj byVenue topo st = Except.ok st1 → ZeroState st1 := by
  induction topo with
  | nil =>
    intro st st1 hz h
    rw [← Except.ok.inj h]
    exact hz
  | cons k rest ih =>
    intro st st1 hz h
    simp only [dpLoop] at h
    split at h
    · exact absurd h (by simp)
    · rename_i s1 hs1
      exact ih s1 st1 (dpStep_zero self obj byVenue hw st s1 k hz hs1) h

theorem firstTimeViolation_none (events : List Event)
    (h : ∀ e ∈ events, ∀ d ∈ events, d.id ∈ e.deps → d.end_ ≤ e.start) :
    firstTimeViolation events = none := by
  unfold firstTimeViolation
  rw [List.find?_eq_none]
  rintro ⟨e, d⟩ hp
  obtain ⟨he, hd, hid⟩ := (mem_eventPairs events e d).mp hp
  have := h e he d hd hid
  simp only [gt_iff_lt, decide_eq_true_eq, not_lt]
  exact this

theorem zeroCatalog_acyclic : ¬ HasCycle zeroCatalog := by
  intro hc
  have h := run_of_cycle (newScheduler (1 / 2)) [1, 2, 3] zeroCatalog Objective.ATTENDANCE
    (by decide) (by unfold AllDepsExist; decide) (by unfold IsKeyOrder; decide) hc
  exact absurd h (by decide!)

theorem upperBound_all_true (comp : Event → Bool) (l : List Event) :
    ∀ (fuel first len : Nat), len ≤ fuel → first + len ≤ l.length →
      (∀ i x, first ≤ i → i < first + len → l[i]? = some x → comp x = true) →
      upperBound comp l fuel first len = Except.ok first := by
  intro fuel
  induction fuel with
  | zero =>
    intro first len h1 _ _
    have : len = 0 := by omega
    subst this
    simp [upperBound]
  | succ fuel ih =>
    intro first len h1 h2 hall
    cases len with
    | zero => simp [upperBound]
    | succ len =>
      have hmid : first + (len + 1) / 2 < l.length := by omega
      have hget : l[first + (len + 1) / 2]? = some l[first + (len + 1) / 2] :=
        List.getElem?_eq_getElem hmid
      have hc := hall _ _ (by omega) (by omega) hget
      simp only [upperBound, hget, hc, if_true]
      exact ih first ((len + 1) / 2) (by omega) (by omega)
        (fun i x hi1 hi2 hx => hall i x hi1 (by omega) hx)

theorem upperBound_all_false (comp : Event → Bool) (l : List Event) :
    ∀ (fuel first len : Nat), len ≤ fuel → first + len ≤ l.length →
      (∀ i x, first ≤ i → i < first + len → l[i]? = some x → comp x = false) →
      upperBound comp l fuel first len = Except.ok (first + len) := by
  intro fuel
  induction fuel with
  | zero =>
    intro first len h1 _ _
    have : len = 0 := by omega
    subst this
    simp [upperBound]
  | succ fuel ih =>
    intro first len h1 h2 hall
    cases len with
    | zero => simp [upperBound]
    | succ len =>
      have hmid : first + (len + 1) / 2 < l.length := by omega
      have hget : l[first + (len + 1) / 2]? = some l[first + (len + 1) / 2] :=
        List.getElem?_eq_getElem hmid
      have hc := hall _ _ (by omega) (by omega) hget
      simp only [upperBound, hget, hc, Bool.false_eq_true, if_false]
      rw [ih (first + (len + 1) / 2 + 1) (len + 1 - (len + 1) / 2 - 1) (by omega) (by omega)
        (fun i x hi1 hi2 hx => hall i x (by omega) (by omega) hx)]
      congr 1
      omega

theorem venueCandidate_sorted (cur : Event) (l : List Event)
    (hs : l.Pairwise (fun a b => a.end_ ≤ b.end_)) :
    (l = [] → venueCandidate cur l = Except.ok none) ∧
    (∀ m, l[l.length / 2]? = some m → cur.start > m.end_ →
      venueCandidate cur l = Except.ok none) ∧
    (∀ m, l[l.length / 2]? = some m → ¬ cur.start > m.end_ →
      venueCandidate cur l = Except.ok l.getLast?) := by
  have hsorted : ∀ (i j : Nat) (x y : Event), i < j → l[i]? = some x → l[j]? = some y → x.end_ ≤ y.end_ := by
    intro i j x y hij hx hy
    obtain ⟨hi, hxe⟩ := List.getElem?_eq_some.mp hx
    obtain ⟨hj, hye⟩ := List.getElem?_eq_some.mp hy
    rw [← hxe, ← hye]
    exact List.pairwise_iff_getElem.mp hs i j hi hj hij
  refine ⟨?_, ?_, ?_⟩
  · intro hl
    subst hl
    simp [venueCandidate, upperBound]
  · intro m hm hgt
    have hlen : l.length / 2 < l.length := (List.getElem?_eq_some.mp hm).1
    obtain ⟨n, hn⟩ : ∃ n, l.length = n + 1 := ⟨l.length - 1, by omega⟩
    have hm1 : l[0 + (n + 1) / 2]? = some m := by rw [Nat.zero_add, ← hn]; exact hm
    have hrec := upperBound_all_true (fun ev => decide (cur.start > ev.end_)) l n 0
      ((n + 1) / 2) (by omega) (by omega) (by
        intro i x _ hi hx
        have := hsorted i (l.length / 2) x m (by rw [hn]; omega) hx hm
        simp only [gt_iff_lt, decide_eq_true_eq]
        omega)
    simp only [venueCandidate, hn, upperBound, hm1, gt_iff_lt, decide_eq_true_eq]
    rw [if_pos hgt]
    simp only [gt_iff_lt] at hrec
    rw [hrec]
    simp
  · intro m hm hle
    have hlen : l.length / 2 < l.length := (List.getElem?_eq_some.mp hm).1
    obtain ⟨n, hn⟩ : ∃ n, l.length = n + 1 := ⟨l.length - 1, by omega⟩
    have hm1 : l[0 + (n + 1) / 2]? = some m := by rw [Nat.zero_add, ← hn]; exact hm
    have hrec := upperBound_all_false (fun ev => decide (cur.start > ev.end_)) l n
      (0 + (n + 1) / 2 + 1) (n + 1 - (n + 1) / 2 - 1) (by omega) (by omega) (by
        intro i x hi1 _ hx
        have := hsorted (l.length / 2) i m x (by rw [hn]; omega) hm hx
        simp only [gt_iff_lt, decide_eq_false_iff_not, not_lt]
        omega)
    simp only [venueCandidate, hn, upperBound, hm1, gt_iff_lt, decide_eq_true_eq]
    rw [if_neg hle]
    simp only [gt_iff_lt] at hrec
    rw [hrec]
    have hit : 0 + (n + 1) / 2 + 1 + (n + 1 - (n + 1) / 2 - 1) = n + 1 := by omega
    rw [hit]
    simp only [ne_eq, Nat.add_one_ne_zero, not_false_eq_true, if_true, Nat.add_sub_cancel]
    have hlast : l[n]? = l.getLast? := by
      rw [List.getLast?_eq_getElem?, hn]
      simp
    rw [hlast]
    cases hg : l.getLast? with
    | none =>
      rw [← hlast] at hg
      have : n < l.length := by omega
      rw [List.getElem?_eq_getElem this] at hg
      exact absurd hg (by simp)
    | some x => rfl

theorem depChain_plans : ∀ topo ∈ List.permutations [1, 2, 3],
    isTopoOrder depChainCatalog topo = true →
      planEventsWithDependencies (prepared (newScheduler (1 / 2)) depChainCatalog)
        Objective.ATTENDANCE topo = Except.ok depChainResult ∧
      WithDep.planEventsWithDependencies depChainGlobals depChainCatalog Objective.ATTENDANCE
        (fillIdToIdx depChainCatalog 0 (fun _ => none)) topo = Except.ok (70, [1, 2, 3]) := by
  decide!

theorem dpStep_venueCandidate (self : DynamicScheduler) (obj : Objective)
    (byVenue : String → Option (List Event)) (st st1 : DPState) (eventId : Int) (i : Nat)
    (cur : Event) (l : List Event) (hi : self.idToIdx_ eventId = some i)
    (hget : self.events_[i]? = some cur) (hl : byVenue cur.venue = some l)
    (hstep : dpStep self obj byVenue st eventId = Except.ok st1) :
    (venueCandidate cur l = Except.ok none → st1.parent eventId = some (-1)) ∧
    (∀ prev, venueCandidate cur l = Except.ok (some prev) →
      st1.parent eventId = some (if (st.dp prev.id).isSome then prev.id else -1)) := by
  simp only [dpStep, hi, hget, hl] at hstep
  unfold venueCandidate
  cases hub : upperBound (fun ev => decide (cur.start > ev.end_)) l l.length 0 l.length with
  | error f => simp [hub] at hstep
  | ok it =>
    simp only [hub] at hstep ⊢
    by_cases hit : it ≠ 0
    · simp only [hit, ne_eq, not_false_eq_true, if_true] at hstep ⊢
      cases hp : l[it - 1]? with
      | none => simp [hp] at hstep
      | some prev =>
        simp only [hp] at hstep ⊢
        cases hd : st.dp prev.id with
        | none =>
          simp only [hd, Except.ok.injEq] at hstep
          subst hstep
          refine ⟨fun h => by simp at h, fun p h => ?_⟩
          simp only [Except.ok.injEq, Option.some.injEq] at h
          subst h
          simp [setKey, hd]
        | some s =>
          simp only [hd, Except.ok.injEq] at hstep
          subst hstep
          refine ⟨fun h => by simp at h, fun p h => ?_⟩
          simp only [Except.ok.injEq, Option.some.injEq] at h
          subst h
          simp [setKey, hd]
    · simp only [hit, if_false, Except.ok.injEq] at hstep ⊢
      subst hstep
      exact ⟨fun _ => by simp [setKey], fun p h => by simp at h⟩

/-! ### Linear scan, score bounds, dependency-free engine -/

theorem sharedCatalog_orders : ∀ keys ∈ List.permutations [1, 2, 3, 4],
    run (newScheduler (1 / 2)) keys sharedCatalog Objective.ATTENDANCE =
      Except.ok sharedResult := by
  decide!

theorem truncToInt_intCast (n : Int) : truncToInt (n : ℚ) = n := by
  unfold truncToInt
  split
  · rw [rat_floor_eq]; exact Int.floor_intCast n
  · rw [rat_ceil_eq]; exact Int.ceil_intCast n

theorem eventsByVenue_mem (events : List Event) (cur : Event) (hcur : cur ∈ events) :
    ∃ l, eventsByVenue events cur.venue = some l ∧
      ∀ x, x ∈ l ↔ x ∈ events ∧ x.venue = cur.venue := by
  have hmem : cur ∈ events.filter (fun x => decide (x.venue = cur.venue)) := by
    simp [List.mem_filter, hcur]
  have hne : events.filter (fun x => decide (x.venue = cur.venue)) ≠ [] :=
    List.ne_nil_of_mem hmem
  refine ⟨sortByEnd (events.filter (fun x => decide (x.venue = cur.venue))), ?_, ?_⟩
  · unfold eventsByVenue
    rw [groupByVenue_spec, if_neg hne]
    rfl
  · intro x
    rw [mem_sortByEnd, List.mem_filter]
    simp

theorem scanVenue_spec (dp : Int → Option Int) (start : Int) :
    ∀ (l : List Event) (best : Int × Int),
      best.1 ≤ (WithDep.scanVenue dp start l best).1 ∧
      (∀ x ∈ l, x.end_ ≤ start → ∀ u, dp x.id = some u →
        u ≤ (WithDep.scanVenue dp start l best).1) ∧
      (WithDep.scanVenue dp start l best = best ∨
        ∃ x ∈ l, x.id = (WithDep.scanVenue dp start l best).2 ∧ x.end_ ≤ start ∧
          dp x.id = some (WithDep.scanVenue dp start l best).1 ∧
          best.1 < (WithDep.scanVenue dp start l best).1) := by
  intro l
  induction l with
  | nil =>
    intro best
    simp [WithDep.scanVenue]
  | cons prev rest ih =>
    intro best
    by_cases hq : prev.end_ ≤ start
    · cases hd : dp prev.id with
      | none =>
        have heq : WithDep.scanVenue dp start (prev :: rest) best =
            WithDep.scanVenue dp start rest best := by
          simp [WithDep.scanVenue, hq, hd]
        rw [heq]
        obtain ⟨h1, h2, h3⟩ := ih best
        refine ⟨h1, ?_, ?_⟩
        · intro x hx hxe u hu
          rcases List.mem_cons.mp hx with rfl | hx
          · rw [hd] at hu; exact absurd hu (by simp)
          · exact h2 x hx hxe u hu
        · rcases h3 with h3 | ⟨x, hx, h⟩
          · exact Or.inl h3
          · exact Or.inr ⟨x, List.mem_cons_of_mem _ hx, h⟩
      | some v =>
        by_cases hv : v > best.1
        · have heq : WithDep.scanVenue dp start (prev :: rest) best =
              WithDep.scanVenue dp start rest (v, prev.id) := by
            simp [WithDep.scanVenue, hq, hd, hv]
          rw [heq]
          obtain ⟨h1, h2, h3⟩ := ih (v, prev.id)
          simp only at h1
          refine ⟨by omega, ?_, Or.inr ?_⟩
          · intro x hx hxe u hu
            rcases List.mem_cons.mp hx with rfl | hx
            · rw [hd] at hu
              have : u = v := (Option.some.inj hu).symm
              omega
            · exact h2 x hx hxe u hu
          · rcases h3 with h3 | ⟨x, hx, hid, hxe, hdx, hlt⟩
            · rw [h3]
              exact ⟨prev, List.mem_cons_self _ _, rfl, hq, hd, hv⟩
            · simp only at hlt
              exact ⟨x, List.mem_cons_of_mem _ hx, hid, hxe, hdx, by omega⟩
        · have heq : WithDep.scanVenue dp start (prev :: rest) best =
              WithDep.scanVenue dp start rest best := by
            simp [WithDep.scanVenue, hq, hd, hv]
          rw [heq]
          obtain ⟨h1, h2, h3⟩ := ih best
          refine ⟨h1, ?_, ?_⟩
          · intro x hx hxe u hu
            rcases List.mem_cons.mp hx with rfl | hx
            · rw [hd] at hu
              have : u = v := (Option.some.inj hu).symm
              omega
            · exact h2 x hx hxe u hu
          · rcases h3 with h3 | ⟨x, hx, h⟩
            · exact Or.inl h3
            · exact Or.inr ⟨x, List.mem_cons_of_mem _ hx, h⟩
    · have heq : WithDep.scanVenue dp start (prev :: rest) best =
          WithDep.scanVenue dp start rest best := by
        simp [WithDep.scanVenue, hq]
      rw [heq]
      obtain ⟨h1, h2, h3⟩ := ih best
      refine ⟨h1, ?_, ?_⟩
      · intro x hx hxe u hu
        rcases List.mem_cons.mp hx with rfl | hx
        · exact absurd hxe hq
        · exact h2 x hx hxe u hu
      · rcases h3 with h3 | ⟨x, hx, h⟩
        · exact Or.inl h3
        · exact Or.inr ⟨x, List.mem_cons_of_mem _ hx, h⟩

theorem withDep_step_parent (g : WithDep.Globals) (events : List Event) (obj : Objective)
    (IdtoIdx : Int → Option Nat) (st : WithDep.DPState) (eventId : Int) (i : Nat)
    (cur : Event) (l : List Event) (hi : IdtoIdx eventId = some i)
    (hget : events[i]? = some cur) (hl : eventsByVenue events cur.venue = some l) :
    ∃ st1, WithDep.dpStep g events obj IdtoIdx (eventsByVenue events) st eventId =
        Except.ok st1 ∧
      st1.parent eventId = some (WithDep.scanVenue st.dp cur.start l (0, -1)).2 := by
  simp only [WithDep.dpStep, hi, hget, hl]
  exact ⟨_, rfl, by simp [setKey]⟩

theorem foldl_add_values (f : Int → Int → Int) (g : Int → Int)
    (hf : ∀ s d, f s d = s + g d) (deps : List Int) :
    ∀ init : Int, deps.foldl f init = init + (deps.map g).sum := by
  induction deps with
  | nil => intro init; simp
  | cons d rest ih =>
    intro init
    rw [List.foldl_cons, ih, hf, List.map_cons, List.sum_cons]
    omega

theorem lookup_unique (events : List Event) (hnd : (allIds events).Nodup) (e : Event)
    (he : e ∈ events) :
    ∃ i, fillIdToIdx events 0 (fun _ => none) e.id = some i ∧ events[i]? = some e := by
  obtain ⟨i, ev, hi, hget, hid, hev⟩ := lookup_some
    { alpha_ := 0, maxAtt_ := 1, maxRev_ := 1, events_ := events,
      idToIdx_ := fillIdToIdx events 0 (fun _ => none) } events rfl rfl e.id
    (List.mem_map_of_mem (fun x => x.id) he)
  have : ev = e := List.inj_on_of_nodup_map hnd hev he hid
  subst this
  exact ⟨i, hi, hget⟩

theorem scanBack_spec (s : List Event) (cur : Event) :
    ∀ j, j ≤ s.length → ∃ r : Int, WithoutDep.scanBack s cur j = Except.ok r ∧ -1 ≤ r ∧
      r < (j : Int) ∧
      (r ≠ -1 → ∃ e, s[r.toNat]? = some e ∧ e.venue = cur.venue ∧ e.end_ ≤ cur.start) ∧
      (∀ (k : Nat) e, r < (k : Int) → k < j → s[k]? = some e →
        ¬ (e.venue = cur.venue ∧ e.end_ ≤ cur.start)) := by
  intro j
  induction j with
  | zero =>
    intro _
    refine ⟨-1, rfl, le_refl _, by omega, fun h => absurd rfl h, ?_⟩
    intro k e _ hk
    omega
  | succ j ih =>
    intro hj
    have hlt : j < s.length := by omega
    have hget : s[j]? = some s[j] := List.getElem?_eq_getElem hlt
    by_cases hq : s[j].venue = cur.venue ∧ s[j].end_ ≤ cur.start
    · refine ⟨(j : Int), ?_, by omega, by omega, ?_, ?_⟩
      · simp only [WithoutDep.scanBack, hget, hq, and_self, if_true]
      · intro _
        exact ⟨s[j], by simp, hq.1, hq.2⟩
      · intro k e h1 h2
        omega
    · obtain ⟨r, hr, h1, h2, h3, h4⟩ := ih (by omega)
      refine ⟨r, ?_, h1, by omega, h3, ?_⟩
      · simp only [WithoutDep.scanBack, hget, hq, if_false]
        exact hr
      · intro k e hk1 hk2 hke
        by_cases hkj : k = j
        · subst hkj
          rw [hget] at hke
          rw [← Option.some.inj hke]
          exact hq
        · exact h4 k e hk1 (by omega) hke

theorem getD_set_self (l : List Int) (i : Nat) (v d : Int) (h : i < l.length) :
    (l.set i v).getD i d = v := by
  simp [List.getD_eq_getElem?_getD, List.getElem?_set, h]

theorem getD_set_other (l : List Int) (i j : Nat) (v d : Int) (h : i ≠ j) :
    (l.set i v).getD j d = l.getD j d := by
  simp [List.getD_eq_getElem?_getD, List.getElem?_set, h]

theorem buildFrom_spec (s : List Event) :
    ∀ (k i : Nat) (p : List Int), i + k = s.length → p.length = s.length →
      (∀ j cur, j < i → s[j]? = some cur →
        WithoutDep.scanBack s cur j = Except.ok (p.getD j (-1))) →
      ∃ p1, WithoutDep.buildFrom s k i p = Except.ok p1 ∧ p1.length = s.length ∧
        ∀ j cur, s[j]? = some cur →
          WithoutDep.scanBack s cur j = Except.ok (p1.getD j (-1)) := by
  intro k
  induction k with
  | zero =>
    intro i p hik hlen hinv
    refine ⟨p, rfl, hlen, ?_⟩
    intro j cur hj
    have : j < s.length := (List.getElem?_eq_some.mp hj).1
    exact hinv j cur (by omega) hj
  | succ k ih =>
    intro i p hik hlen hinv
    have hlt : i < s.length := by omega
    have hget : s[i]? = some s[i] := List.getElem?_eq_getElem hlt
    obtain ⟨r, hr, _⟩ := scanBack_spec s s[i] i (by omega)
    simp only [WithoutDep.buildFrom, hget, hr]
    apply ih (i + 1) (p.set i r) (by omega) (by simp [hlen])
    intro j cur hj hjc
    by_cases hji : j = i
    · subst hji
      rw [hget] at hjc
      rw [← Option.some.inj hjc, getD_set_self p j r (-1) (by omega)]
      exact hr
    · rw [getD_set_other p i j r (-1) (fun h => hji h.symm)]
      exact hinv j cur (by omega) hjc

theorem buildPrevCompatible_spec (s : List Event) :
    ∃ p, WithoutDep.buildPrevCompatible s = Except.ok p ∧ WithoutDep.PrevTable s p := by
  obtain ⟨p, hp, hlen, hall⟩ := buildFrom_spec s s.length 0 (List.replicate s.length (-1))
    (by omega) (by simp) (fun j cur hj => absurd hj (by omega))
  refine ⟨p, hp, hlen, ?_, ?_, ?_, ?_⟩
  · intro i hi
    obtain ⟨r, hr, h1, _⟩ := scanBack_spec s s[i] i (by omega)
    rw [hall i s[i] (List.getElem?_eq_getElem hi)] at hr
    rw [Except.ok.inj hr]
    exact h1
  · intro i hi
    obtain ⟨r, hr, _, h2, _⟩ := scanBack_spec s s[i] i (by omega)
    rw [hall i s[i] (List.getElem?_eq_getElem hi)] at hr
    rw [Except.ok.inj hr]
    exact h2
  · intro i cur hcur hne
    have hi : i < s.length := (List.getElem?_eq_some.mp hcur).1
    obtain ⟨r, hr, _, _, h3, _⟩ := scanBack_spec s cur i (by omega)
    rw [hall i cur hcur] at hr
    rw [Except.ok.inj hr] at hne ⊢
    exact h3 hne
  · intro i cur k e hcur hk1 hk2 hke
    have hi : i < s.length := (List.getElem?_eq_some.mp hcur).1
    obtain ⟨r, hr, _, _, _, h4⟩ := scanBack_spec s cur i (by omega)
    rw [hall i cur hcur] at hr
    rw [Except.ok.inj hr] at hk1
    exact h4 k e hk1 hk2 hke

theorem at_spec (dp : List Int) (pi : Int) (h0 : 0 ≤ pi) (h1 : pi.toNat < dp.length) :
    WithoutDep.at_ dp pi = Except.ok (dp.getD pi.toNat 0) := by
  unfold WithoutDep.at_
  rw [if_neg (by omega), List.getElem?_eq_getElem h1]
  simp [List.getD_eq_getElem?_getD, List.getElem?_eq_getElem h1]

theorem getD_of_lt (l : List Int) (i : Nat) (d : Int) (h : i < l.length) :
    l[i]? = some (l.getD i d) := by
  simp [List.getD_eq_getElem?_getD, List.getElem?_eq_getElem h]

theorem inclValue_set (w : Event → Int) (s : List Event) (p dp : List Int)
    (hp : WithoutDep.PrevTable s p) (i j : Nat) (v : Int) (e : Event) (hj : j < s.length)
    (hji : j ≤ i) :
    WithoutDep.inclValue w p (dp.set i v) j e = WithoutDep.inclValue w p dp j e := by
  unfold WithoutDep.inclValue
  by_cases h : p.getD j (-1) = -1
  · rw [if_pos h, if_pos h]
  · rw [if_neg h, if_neg h, getD_set_other]
    have h1 := hp.lower j hj
    have h2 := hp.upper j hj
    omega

theorem dpTable_set (w : Event → Int) (s : List Event) (p dp taken taken1 : List Int)
    (hp : WithoutDep.PrevTable s p) (i : Nat) (h : WithoutDep.DPTable w s p dp taken i)
    (hi0 : 0 < i) (hin : i < s.length) (e : Event) (he : s[i]? = some e) (v t : Int)
    (hT : taken1.length = s.length)
    (hTo : ∀ j, j ≠ i → taken1.getD j 0 = taken.getD j 0) (hTi : taken1.getD i 0 = t)
    (hv : (WithoutDep.inclValue w p dp i e > dp.getD (i - 1) 0 →
            v = WithoutDep.inclValue w p dp i e ∧ t = 1) ∧
          (¬ WithoutDep.inclValue w p dp i e > dp.getD (i - 1) 0 →
            v = dp.getD (i - 1) 0 ∧ t = 0)) :
    WithoutDep.DPTable w s p (dp.set i v) taken1 (i + 1) := by
  refine ⟨by simp [h.lenD], hT, ?_, ?_, ?_⟩
  · intro e0 he0
    rw [getD_set_other dp i 0 v 0 (by omega), hTo 0 (by omega)]
    exact h.first e0 he0
  · intro j e1 hj0 hj he1
    have hjn : j < s.length := (List.getElem?_eq_some.mp he1).1
    rw [inclValue_set w s p dp hp i j v e1 hjn (by omega),
      getD_set_other dp i (j - 1) v 0 (by omega)]
    by_cases hji : j = i
    · subst hji
      rw [he] at he1
      have : e = e1 := Option.some.inj he1
      subst this
      rw [getD_set_self dp j v 0 (by rw [h.lenD]; exact hjn), hTi]
      exact hv
    · rw [getD_set_other dp i j v 0 (fun hh => hji hh.symm), hTo j hji]
      exact h.step j e1 hj0 (by omega) he1
  · intro j hj hj0
    rw [hTo j (by omega)]
    exact h.rest j (by omega) hj0

theorem dpFrom_spec (g : WithoutDep.Globals) (obj : Objective) (s : List Event)
    (p : List Int) (hp : WithoutDep.PrevTable s p) :
    ∀ (k i : Nat) (st : List Int × List Int), 0 < i → i + k = s.length →
      WithoutDep.DPTable (fun e => WithoutDep.weight g e obj) s p st.1 st.2 i →
      ∃ st1, WithoutDep.dpFrom g obj s p k i st = Except.ok st1 ∧
        WithoutDep.DPTable (fun e => WithoutDep.weight g e obj) s p st1.1 st1.2
          s.length := by
  intro k
  induction k with
  | zero =>
    intro i st _ hik h
    have : i = s.length := by omega
    subst this
    exact ⟨st, rfl, h⟩
  | succ k ih =>
    intro i st hi0 hik h
    have hin : i < s.length := by omega
    have hget : s[i]? = some s[i] := List.getElem?_eq_getElem hin
    have hpget : p[i]? = some (p.getD i (-1)) := getD_of_lt p i (-1) (by rw [hp.len]; exact hin)
    have hex : st.1[i - 1]? = some (st.1.getD (i - 1) 0) :=
      getD_of_lt st.1 (i - 1) 0 (by rw [h.lenD]; omega)
    have hincl : (if p.getD i (-1) ≠ -1 then
          match WithoutDep.at_ st.1 (p.getD i (-1)) with
          | Except.error f => Except.error f
          | Except.ok v => Except.ok (WithoutDep.weight g s[i] obj + v)
        else Except.ok (WithoutDep.weight g s[i] obj)) =
        (Except.ok (WithoutDep.inclValue (fun e => WithoutDep.weight g e obj) p st.1 i s[i]) :
          Except Fault Int) := by
      unfold WithoutDep.inclValue
      by_cases hne : p.getD i (-1) = -1
      · rw [if_neg (fun hh => hh hne), if_pos hne, add_zero]
      · have h1 := hp.lower i hin
        have h2 := hp.upper i hin
        rw [if_pos hne, if_neg hne, at_spec st.1 (p.getD i (-1)) (by omega)
          (by rw [h.lenD]; omega)]
    simp only [WithoutDep.dpFrom, hget, hpget, hincl, hex]
    by_cases hgt : WithoutDep.inclValue (fun e => WithoutDep.weight g e obj) p st.1 i s[i] >
        st.1.getD (i - 1) 0
    · rw [if_pos hgt]
      apply ih (i + 1) _ (by omega) (by omega)
      exact dpTable_set _ s p st.1 st.2 _ hp i h hi0 hin s[i] hget _ 1
        (by simp [h.lenT])
        (fun j hj => getD_set_other st.2 i j 1 0 (fun hh => hj hh.symm))
        (getD_set_self st.2 i 1 0 (by rw [h.lenT]; exact hin))
        ⟨fun _ => ⟨rfl, rfl⟩, fun hn => absurd hgt hn⟩
    · rw [if_neg hgt]
      apply ih (i + 1) _ (by omega) (by omega)
      exact dpTable_set _ s p st.1 st.2 _ hp i h hi0 hin s[i] hget _ 0 h.lenT
        (fun j _ => rfl) (h.rest i (le_refl _) hi0)
        ⟨fun hn => absurd hn hgt, fun _ => ⟨rfl, rfl⟩⟩

theorem dpTable_init (w : Event → Int) (s : List Event) (p : List Int) (first : Event)
    (hfirst : s[0]? = some first) :
    WithoutDep.DPTable w s p ((List.replicate s.length 0).set 0 (w first))
      ((List.replicate s.length 0).set 0 1) 1 := by
  have hlen : 0 < s.length := (List.getElem?_eq_some.mp hfirst).1
  refine ⟨by simp, by simp, ?_, ?_, ?_⟩
  · intro e he
    rw [hfirst] at he
    rw [← Option.some.inj he, getD_set_self _ 0 _ 0 (by simpa using hlen),
      getD_set_self _ 0 _ 0 (by simpa using hlen)]
    exact ⟨rfl, rfl⟩
  · intro i e h0 h1
    omega
  · intro i _ h0
    rw [getD_set_other _ 0 i _ 0 (by omega)]
    simp only [List.getD_eq_getElem?_getD, List.getElem?_replicate]
    split <;> rfl

theorem mem_take_index (s : List Event) (m : Nat) (x : Event) (hx : x ∈ s.take m) :
    ∃ k, k < m ∧ s[k]? = some x := by
  obtain ⟨k, hk, hxk⟩ := List.mem_take_iff_getElem.mp hx
  refine ⟨k, by omega, ?_⟩
  rw [← hxk]
  exact List.getElem?_eq_getElem (by omega)

theorem weightSum_append (w : Event → Int) (a b : List Event) :
    weightSum w (a ++ b) = weightSum w a + weightSum w b := by
  simp [weightSum]

theorem traceBack_spec (w : Event → Int) (s : List Event) (p dp taken : List Int)
    (hp : WithoutDep.PrevTable s p) (ht : WithoutDep.DPTable w s p dp taken s.length)
    (hsort : ∀ (k j : Nat) (x y : Event), k ≤ j → s[k]? = some x → s[j]? = some y →
      x.end_ ≤ y.end_) :
    ∀ (m : Nat) (i : Int), i + 1 = (m : Int) → m ≤ s.length → ∀ fuel, m < fuel →
      ∀ chosen, ∃ c : List Event,
        WithoutDep.traceBack s p taken fuel i chosen =
          Except.ok (chosen ++ (c.map (fun e => e.id)).reverse) ∧
        c.Sublist (s.take m) ∧
        weightSum w c = (if i = -1 then 0 else dp.getD i.toNat 0) ∧
        c.Pairwise (fun a b => a.end_ ≤ b.start) := by
  intro m
  induction m using Nat.strong_induction_on with
  | _ m ih =>
    intro i him hm fuel hfuel chosen
    obtain ⟨f, rfl⟩ : ∃ f, fuel = f + 1 := ⟨fuel - 1, by omega⟩
    cases m with
    | zero =>
      have hi : i = -1 := by omega
      subst hi
      refine ⟨[], ?_, by simp, by simp [weightSum], List.Pairwise.nil⟩
      simp [WithoutDep.traceBack]
    | succ m1 =>
      have hi : i = (m1 : Int) := by omega
      subst hi
      have hin : m1 < s.length := by omega
      have hget : s[m1]? = some s[m1] := List.getElem?_eq_getElem hin
      have hpget : p[m1]? = some (p.getD m1 (-1)) :=
        getD_of_lt p m1 (-1) (by rw [hp.len]; exact hin)
      have htget : taken[m1]? = some (taken.getD m1 0) :=
        getD_of_lt taken m1 0 (by rw [ht.lenT]; exact hin)
      have hlow := hp.lower m1 hin
      have hupp := hp.upper m1 hin
      have hne1 : ¬ ((m1 : Int) = -1) := by omega
      by_cases htk : taken.getD m1 0 ≠ 0
      · -- the event at index m1 is taken
        have hdp : dp.getD m1 0 = WithoutDep.inclValue w p dp m1 s[m1] := by
          by_cases h0 : m1 = 0
          · subst h0
            have hp0 : p.getD 0 (-1) = -1 := by omega
            unfold WithoutDep.inclValue
            rw [if_pos hp0, add_zero]
            exact (ht.first s[0] hget).1
          · have hst := ht.step m1 s[m1] (by omega) hin hget
            by_cases hgt : WithoutDep.inclValue w p dp m1 s[m1] > dp.getD (m1 - 1) 0
            · exact (hst.1 hgt).1
            · exact absurd (hst.2 hgt).2 htk
        obtain ⟨c1, hc1, hsub, hsum, hpw⟩ := ih (p.getD m1 (-1) + 1).toNat (by omega)
          (p.getD m1 (-1)) (by omega) (by omega) f (by omega) (chosen ++ [s[m1].id])
        refine ⟨c1 ++ [s[m1]], ?_, ?_, ?_, ?_⟩
        · simp only [WithoutDep.traceBack, Int.toNat_ofNat, htget, hget, hpget]
          rw [if_pos (by omega), if_pos htk, hc1]
          simp
        · rw [List.take_succ, hget]
          exact List.Sublist.append
            (hsub.trans (List.take_sublist_take_left s (by omega))) (List.Sublist.refl _)
        · rw [weightSum_append, hsum, if_neg hne1, Int.toNat_ofNat, hdp]
          unfold WithoutDep.inclValue
          simp only [weightSum, List.map_cons, List.map_nil, List.sum_cons, List.sum_nil]
          omega
        · rw [List.pairwise_append]
          refine ⟨hpw, List.pairwise_singleton _ _, ?_⟩
          intro x hx y hy
          rw [List.mem_singleton] at hy
          subst hy
          obtain ⟨k, hk, hkx⟩ := mem_take_index s _ x (hsub.subset hx)
          have hpne : p.getD m1 (-1) ≠ -1 := by omega
          obtain ⟨e, he, _, hee⟩ := hp.hit m1 s[m1] hget hpne
          have := hsort k (p.getD m1 (-1)).toNat x e (by omega) hkx he
          omega
      · -- the event at index m1 is not taken
        have htk0 : taken.getD m1 0 = 0 := by omega
        have h0 : 0 < m1 := by
          by_contra hcon
          have : m1 = 0 := by omega
          subst this
          have := (ht.first s[0] hget).2
          omega
        have hdp : dp.getD m1 0 = dp.getD (m1 - 1) 0 := by
          have hst := ht.step m1 s[m1] h0 hin hget
          by_cases hgt : WithoutDep.inclValue w p dp m1 s[m1] > dp.getD (m1 - 1) 0
          · have := (hst.1 hgt).2
            omega
          · exact (hst.2 hgt).1
        obtain ⟨c1, hc1, hsub, hsum, hpw⟩ := ih m1 (by omega) ((m1 : Int) - 1) (by omega)
          (by omega) f (by omega) chosen
        refine ⟨c1, ?_, hsub.trans (List.take_sublist_take_left s (by omega)), ?_, hpw⟩
        · simp only [WithoutDep.traceBack, Int.toNat_ofNat, htget]
          rw [if_pos (by omega), if_neg (by omega), hc1]
        · rw [hsum, if_neg hne1, if_neg (by omega), Int.toNat_ofNat, hdp]
          congr 1
          omega

theorem byEnd_false_iff (a b : Event) :
    WithoutDep.byEnd b a = false ↔
      a.end_ < b.end_ ∨ (a.end_ = b.end_ ∧ a.start ≤ b.start) := by
  unfold WithoutDep.byEnd
  by_cases h : b.end_ = a.end_
  · rw [if_neg (fun hh => hh h), decide_eq_false_iff_not]
    constructor
    · intro h1
      omega
    · intro h1
      omega
  · rw [if_pos h, decide_eq_false_iff_not]
    constructor
    · intro h1
      omega
    · intro h1
      omega

theorem sortByEndStart_sorted (l : List Event) :
    (WithoutDep.sortByEndStart l).Pairwise (fun a b => WithoutDep.byEnd b a = false) := by
  haveI : IsTotal Event (fun a b => WithoutDep.byEnd b a = false) :=
    ⟨fun a b => by
      show WithoutDep.byEnd b a = false ∨ WithoutDep.byEnd a b = false
      rw [byEnd_false_iff, byEnd_false_iff]
      omega⟩
  haveI : IsTrans Event (fun a b => WithoutDep.byEnd b a = false) :=
    ⟨fun a b c h1 h2 => by
      have h1a := (byEnd_false_iff a b).mp h1
      have h2a := (byEnd_false_iff b c).mp h2
      exact (byEnd_false_iff a c).mpr (by omega)⟩
  exact List.sorted_insertionSort (fun a b => WithoutDep.byEnd b a = false) l

theorem sortByEndStart_perm (l : List Event) : (WithoutDep.sortByEndStart l).Perm l :=
  List.perm_insertionSort _ l

theorem sorted_index (s : List Event)
    (hs : s.Pairwise (fun a b => WithoutDep.byEnd b a = false)) (k j : Nat) (x y : Event)
    (hkj : k < j) (hx : s[k]? = some x) (hy : s[j]? = some y) :
    x.end_ < y.end_ ∨ (x.end_ = y.end_ ∧ x.start ≤ y.start) := by
  obtain ⟨hk, hxe⟩ := List.getElem?_eq_some.mp hx
  obtain ⟨hj, hye⟩ := List.getElem?_eq_some.mp hy
  rw [← hxe, ← hye]
  exact (byEnd_false_iff _ _).mp (List.pairwise_iff_getElem.mp hs k j hk hj hkj)

theorem sorted_end (s : List Event)
    (hs : s.Pairwise (fun a b => WithoutDep.byEnd b a = false)) (k j : Nat) (x y : Event)
    (hkj : k ≤ j) (hx : s[k]? = some x) (hy : s[j]? = some y) : x.end_ ≤ y.end_ := by
  by_cases h : k = j
  · subst h
    rw [hx] at hy
    rw [Option.some.inj hy]
  · have := sorted_index s hs k j x y (by omega) hx hy
    omega

theorem planSorted_spec (g : WithoutDep.Globals) (obj : Objective) (s : List Event)
    (hne : s ≠ []) (hs : s.Pairwise (fun a b => WithoutDep.byEnd b a = false)) :
    ∃ p dp taken c,
      WithoutDep.planSorted g s obj =
        Except.ok (dp.getD (s.length - 1) 0, c.map (fun e => e.id)) ∧
      WithoutDep.PrevTable s p ∧
      WithoutDep.DPTable (fun e => WithoutDep.weight g e obj) s p dp taken s.length ∧
      c.Sublist s ∧
      weightSum (fun e => WithoutDep.weight g e obj) c = dp.getD (s.length - 1) 0 ∧
      c.Pairwise (fun a b => a.end_ ≤ b.start) := by
  have hlen : 0 < s.length := List.length_pos.mpr hne
  obtain ⟨p, hp, hpt⟩ := buildPrevCompatible_spec s
  have hget : s[0]? = some s[0] := List.getElem?_eq_getElem hlen
  obtain ⟨st, hst, hdt⟩ := dpFrom_spec g obj s p hpt (s.length - 1) 1
    ((List.replicate s.length 0).set 0 (WithoutDep.weight g s[0] obj),
     (List.replicate s.length 0).set 0 1) (by omega) (by omega)
    (dpTable_init _ s p s[0] hget)
  obtain ⟨c, hc, hsub, hsum, hpw⟩ := traceBack_spec _ s p st.1 st.2 hpt hdt
    (sorted_end s hs) s.length ((s.length : Int) - 1) (by omega) (le_refl _)
    (s.length + 1) (by omega) []
  refine ⟨p, st.1, st.2, c, ?_, hpt, hdt, ?_, ?_, hpw⟩
  · have hbest : st.1[s.length - 1]? = some (st.1.getD (s.length - 1) 0) :=
      getD_of_lt st.1 (s.length - 1) 0 (by rw [hdt.lenD]; omega)
    simp only [WithoutDep.planSorted, if_neg (by omega : ¬ s.length = 0), hp, hget, hst, hc,
      hbest]
    simp
  · rw [List.take_length] at hsub
    exact hsub
  · rw [hsum, if_neg (by omega)]
    congr 1
    omega

theorem planEvents_spec (g : WithoutDep.Globals) (obj : Objective) (events : List Event) :
    ∃ score c,
      WithoutDep.planEvents g events obj = Except.ok (score, c.map (fun e => e.id)) ∧
      c.Sublist (WithoutDep.sortByEndStart events) ∧
      weightSum (fun e => WithoutDep.weight g e obj) c = score ∧
      c.Pairwise (fun a b => a.end_ ≤ b.start) := by
  by_cases hne : events = []
  · subst hne
    exact ⟨0, [], rfl, List.Sublist.refl _, rfl, List.Pairwise.nil⟩
  · have hne1 : WithoutDep.sortByEndStart events ≠ [] := by
      intro h
      have := (sortByEndStart_perm events).length_eq
      rw [h] at this
      exact hne (List.length_eq_zero.mp this.symm)
    obtain ⟨p, dp, taken, c, hplan, _, _, hsub, hsum, hpw⟩ :=
      planSorted_spec g obj _ hne1 (sortByEndStart_sorted events)
    exact ⟨_, c, hplan, hsub, hsum, hpw⟩

theorem chosen_filter_perm (events c : List Event) (hnd : (allIds events).Nodup)
    (hsub : c.Sublist (WithoutDep.sortByEndStart events)) :
    (events.filter (fun e => decide (e.id ∈ c.map (fun e => e.id)))).Perm c := by
  have hnd1 : events.Nodup := List.Nodup.of_map _ hnd
  have hmem : ∀ x, x ∈ c → x ∈ events := fun x hx =>
    (sortByEndStart_perm events).mem_iff.mp (hsub.subset hx)
  have hndc : c.Nodup :=
    List.Nodup.sublist hsub ((sortByEndStart_perm events).nodup_iff.mpr hnd1)
  rw [List.perm_ext_iff_of_nodup (hnd1.filter _) hndc]
  intro a
  rw [List.mem_filter]
  constructor
  · rintro ⟨ha, hid⟩
    obtain ⟨b, hb, hba⟩ := List.mem_map.mp (of_decide_eq_true hid)
    have : b = a := List.inj_on_of_nodup_map hnd (hmem b hb) ha hba
    rw [← this]
    exact hb
  · intro ha
    exact ⟨hmem a ha, decide_eq_true (List.mem_map_of_mem (fun e => e.id) ha)⟩

theorem weightSum_perm (w : Event → Int) (a b : List Event) (h : a.Perm b) :
    weightSum w a = weightSum w b :=
  List.Perm.sum_eq (List.Perm.map w h)

theorem disjointInTime_symm {a b : Event} (h : disjointInTime a b) : disjointInTime b a :=
  Or.symm h

theorem sublist_take_of_forall (q : Event → Bool) (s l1 : List Event) (m k : Nat)
    (hsub : l1.Sublist (s.take m)) (hall : ∀ x ∈ l1, q x = true)
    (hmiss : ∀ (j : Nat) (e : Event), k ≤ j → j < m → s[j]? = some e → q e = false) :
    l1.Sublist (s.take k) := by
  have h1 : l1.filter q = l1 := List.filter_eq_self.mpr hall
  have h2 : (l1.filter q).Sublist ((s.take m).filter q) := hsub.filter q
  have h3 : (s.take m).filter q = ((s.take m).take k).filter q := by
    conv_lhs => rw [← List.take_append_drop k (s.take m)]
    rw [List.filter_append]
    have : ((s.take m).drop k).filter q = [] := by
      rw [List.filter_eq_nil_iff]
      intro a ha
      obtain ⟨i, hi, hia⟩ := List.mem_drop_iff_getElem.mp ha
      have hlen : k + i < (s.take m).length := by omega
      have hlen2 : (s.take m).length ≤ m := by simp
      have hlen3 : (s.take m).length ≤ s.length := by simp
      have hget : s[k + i]? = some a := by
        rw [← hia, List.getElem_take]
        exact List.getElem?_eq_getElem (by omega)
      rw [hmiss (k + i) a (by omega) (by omega) hget]
      simp
    rw [this, List.append_nil]
  rw [h1, h3, List.take_take] at h2
  exact (h2.trans (List.filter_sublist _)).trans (List.take_sublist_take_left s (by omega))

theorem dpTable_mono (w : Event → Int) (s : List Event) (p dp taken : List Int)
    (ht : WithoutDep.DPTable w s p dp taken s.length) (m : Nat) (hm : m < s.length)
    (e : Event) (he : s[m]? = some e) (hp0 : m = 0 → p.getD 0 (-1) = -1) :
    WithoutDep.inclValue w p dp m e ≤ dp.getD m 0 ∧ (0 < m → dp.getD (m - 1) 0 ≤ dp.getD m 0) := by
  by_cases h0 : m = 0
  · subst h0
    refine ⟨?_, fun h => absurd h (by omega)⟩
    unfold WithoutDep.inclValue
    rw [if_pos (hp0 rfl), add_zero, (ht.first e he).1]
  · have hst := ht.step m e (by omega) hm he
    by_cases hgt : WithoutDep.inclValue w p dp m e > dp.getD (m - 1) 0
    · have := (hst.1 hgt).1
      exact ⟨by omega, fun _ => by omega⟩
    · have := (hst.2 hgt).1
      exact ⟨by omega, fun _ => by omega⟩

theorem dpTable_upper (w : Event → Int) (s : List Event) (p dp taken : List Int)
    (hp : WithoutDep.PrevTable s p) (ht : WithoutDep.DPTable w s p dp taken s.length)
    (hs : s.Pairwise (fun a b => WithoutDep.byEnd b a = false))
    (hv : ∀ a ∈ s, ∀ b ∈ s, a.venue = b.venue) (hw : ∀ e ∈ s, 0 ≤ w e)
    (hse : ∀ e ∈ s, e.start ≤ e.end_) :
    ∀ (m : Nat), m < s.length → ∀ l : List Event, l.Sublist (s.take (m + 1)) →
      l.Pairwise disjointInTime → weightSum w l ≤ dp.getD m 0 := by
  intro m
  induction m using Nat.strong_induction_on with
  | _ m ih =>
    intro hm l hsub hpw
    have hget : s[m]? = some s[m] := List.getElem?_eq_getElem hm
    have hlow := hp.lower m hm
    have hupp := hp.upper m hm
    obtain ⟨hincl, hmono⟩ := dpTable_mono w s p dp taken ht m hm s[m] hget
      (fun h0 => by subst h0; omega)
    have hwm : 0 ≤ w s[m] := hw _ (List.getElem?_mem hget)
    rw [List.take_succ, hget] at hsub
    obtain ⟨l1, l2, hl, hsub1, hsub2⟩ := List.sublist_append_iff.mp hsub
    subst hl
    have hl1 : l1.Pairwise disjointInTime := (List.pairwise_append.mp hpw).1
    have hbase : weightSum w l1 ≤ dp.getD m 0 ∨ (m = 0 ∧ l1 = []) := by
      by_cases h0 : m = 0
      · right
        subst h0
        exact ⟨rfl, List.eq_nil_of_sublist_nil (by simpa using hsub1)⟩
      · left
        have h1 := ih (m - 1) (by omega) (by omega) l1
          (by rw [show m - 1 + 1 = m by omega]; exact hsub1) hl1
        have h2 := hmono (by omega)
        omega
    cases l2 with
    | nil =>
      rw [List.append_nil]
      rcases hbase with h | ⟨h0, hnil⟩
      · exact h
      · subst h0
        subst hnil
        have := (ht.first s[0] hget).1
        simp only [weightSum, List.map_nil, List.sum_nil]
        omega
    | cons x rest =>
      have hx : x = s[m] ∧ rest = [] := by
        have hlen := hsub2.length_le
        simp only [Option.toList, List.length_cons, List.length_nil] at hlen
        have hrest : rest = [] := List.length_eq_zero.mp (by omega)
        subst hrest
        have := hsub2.subset (List.mem_singleton.mpr rfl)
        simp only [Option.toList, List.mem_singleton] at this
        exact ⟨this, rfl⟩
      obtain ⟨hx1, hx2⟩ := hx
      subst hx1
      subst hx2
      have hcross : ∀ a ∈ l1, disjointInTime a s[m] := by
        intro a ha
        exact (List.pairwise_append.mp hpw).2.2 a ha s[m] (List.mem_singleton.mpr rfl)
      have hqual : ∀ a ∈ l1, decide (a.venue = s[m].venue ∧ a.end_ ≤ s[m].start) = true := by
        intro a ha
        obtain ⟨k, hk, hka⟩ := mem_take_index s m a (hsub1.subset ha)
        have hlex := sorted_index s hs k m a s[m] hk hka hget
        have hdis := hcross a ha
        have hae := hse a (List.getElem?_mem hka)
        unfold disjointInTime at hdis
        refine decide_eq_true ⟨hv a (List.getElem?_mem hka) _ (List.getElem?_mem hget), ?_⟩
        omega
      have hsubp : l1.Sublist (s.take (p.getD m (-1) + 1).toNat) := by
        apply sublist_take_of_forall
          (fun a => decide (a.venue = s[m].venue ∧ a.end_ ≤ s[m].start)) s l1 m _ hsub1 hqual
        intro j e hj1 hj2 hje
        exact decide_eq_false (hp.miss m s[m] j e hget (by omega) hj2 hje)
      have hsum1 : weightSum w l1 ≤
          (if p.getD m (-1) = -1 then 0 else dp.getD (p.getD m (-1)).toNat 0) := by
        by_cases hneg : p.getD m (-1) = -1
        · rw [if_pos hneg]
          rw [hneg] at hsubp
          have : l1 = [] := List.eq_nil_of_sublist_nil (by simpa using hsubp)
          subst this
          simp [weightSum]
        · rw [if_neg hneg]
          exact ih (p.getD m (-1)).toNat (by omega) (by omega) l1
            (by rw [show (p.getD m (-1)).toNat + 1 = (p.getD m (-1) + 1).toNat by omega]
                exact hsubp) hl1
      rw [weightSum_append]
      unfold WithoutDep.inclValue at hincl
      simp only [weightSum, List.map_cons, List.map_nil, List.sum_cons, List.sum_nil] at hsum1 ⊢
      omega

theorem foldl_max_ge (L : List Int) :
    ∀ a : Int, a ≤ L.foldl max a ∧ ∀ y ∈ L, y ≤ L.foldl max a := by
  induction L with
  | nil => intro a; exact ⟨le_refl _, fun y hy => absurd hy (List.not_mem_nil y)⟩
  | cons b rest ih =>
    intro a
    obtain ⟨h1, h2⟩ := ih (max a b)
    rw [List.foldl_cons]
    refine ⟨le_trans (le_max_left a b) h1, ?_⟩
    intro y hy
    rcases List.mem_cons.mp hy with rfl | hy
    · exact le_trans (le_max_right a y) h1
    · exact h2 y hy

theorem foldl_max_le (L : List Int) (x : Int) :
    ∀ a : Int, a ≤ x → (∀ y ∈ L, y ≤ x) → L.foldl max a ≤ x := by
  induction L with
  | nil => intro a ha _; exact ha
  | cons b rest ih =>
    intro a ha hall
    rw [List.foldl_cons]
    exact ih (max a b) (max_le ha (hall b (List.mem_cons_self _ _)))
      (fun y hy => hall y (List.mem_cons_of_mem _ hy))

theorem maxDisjointScore_eq (w : Event → Int) (events : List Event) (x : Int)
    (hmem : ∃ l : List Event, l.Sublist events ∧ l.Pairwise disjointInTime ∧
      weightSum w l = x)
    (hub : ∀ l : List Event, l.Sublist events → l.Pairwise disjointInTime →
      weightSum w l ≤ x) :
    maxDisjointScore w events = x := by
  unfold maxDisjointScore
  apply le_antisymm
  · apply foldl_max_le
    · exact hub [] (List.nil_sublist _) List.Pairwise.nil
    · intro y hy
      obtain ⟨l, hl, rfl⟩ := List.mem_map.mp hy
      obtain ⟨hl1, hl2⟩ := List.mem_filter.mp hl
      exact hub l (List.mem_sublists.mp hl1) (of_decide_eq_true hl2)
  · obtain ⟨l, hl1, hl2, rfl⟩ := hmem
    apply (foldl_max_ge _ 0).2
    exact List.mem_map.mpr ⟨l, List.mem_filter.mpr ⟨List.mem_sublists.mpr hl1,
      decide_eq_true hl2⟩, rfl⟩

theorem pairwise_disjoint_of_ordered (c : List Event)
    (h : c.Pairwise (fun a b => a.end_ ≤ b.start)) : c.Pairwise disjointInTime :=
  h.imp (fun hab => Or.inl hab)

theorem planEvents_optimal (g : WithoutDep.Globals) (events : List Event) (obj : Objective)
    (hv : ∀ a ∈ events, ∀ b ∈ events, a.venue = b.venue)
    (hw : ∀ e ∈ events, 0 ≤ WithoutDep.weight g e obj)
    (hse : ∀ e ∈ events, e.start ≤ e.end_) :
    ∃ score ids, WithoutDep.planEvents g events obj = Except.ok (score, ids) ∧
      score = maxDisjointScore (fun e => WithoutDep.weight g e obj) events := by
  by_cases hne : events = []
  · subst hne
    exact ⟨0, [], rfl, by simp [maxDisjointScore, weightSum]⟩
  · have hperm := sortByEndStart_perm events
    have hne1 : WithoutDep.sortByEndStart events ≠ [] := by
      intro h
      have := hperm.length_eq
      rw [h] at this
      exact hne (List.length_eq_zero.mp this.symm)
    have hlen : 0 < (WithoutDep.sortByEndStart events).length := List.length_pos.mpr hne1
    obtain ⟨p, dp, taken, c, hplan, hpt, hdt, hsub, hsum, hpw⟩ :=
      planSorted_spec g obj _ hne1 (sortByEndStart_sorted events)
    refine ⟨_, _, hplan, (maxDisjointScore_eq _ events _ ?_ ?_).symm⟩
    · obtain ⟨l, hl1, hl2⟩ := hsub.subperm.trans hperm.subperm
      refine ⟨l, hl2, ?_, ?_⟩
      · exact (List.Perm.pairwise_iff disjointInTime_symm hl1).mpr
          (pairwise_disjoint_of_ordered c hpw)
      · rw [weightSum_perm _ l c hl1, hsum]
    · intro l hl hlpw
      obtain ⟨l1, hl1, hl2⟩ := hl.subperm.trans hperm.symm.subperm
      rw [← weightSum_perm _ l1 l hl1]
      apply dpTable_upper _ _ p dp taken hpt hdt (sortByEndStart_sorted events)
        (fun a ha b hb => hv a (hperm.mem_iff.mp ha) b (hperm.mem_iff.mp hb))
        (fun e he => hw e (hperm.mem_iff.mp he))
        (fun e he => hse e (hperm.mem_iff.mp he))
        ((WithoutDep.sortByEndStart events).length - 1) (by omega) l1
      · rw [show (WithoutDep.sortByEndStart events).length - 1 + 1 =
          (WithoutDep.sortByEndStart events).length by omega, List.take_length]
        exact hl2
      · exact (List.Perm.pairwise_iff disjointInTime_symm hl1).mpr hlpw

theorem disjoint_not_conflicts (a b : Event) (h : disjointInTime a b) :
    conflicts a b = false := by
  unfold conflicts overlaps
  unfold disjointInTime at h
  rw [Bool.and_eq_false_iff]
  right
  rw [decide_eq_false_iff_not]
  intro hlt
  rcases h with h | h
  · have h1 : min a.end_ b.end_ ≤ a.end_ := min_le_left _ _
    have h2 : b.start ≤ max a.start b.start := le_max_right _ _
    omega
  · have h1 : min a.end_ b.end_ ≤ b.end_ := min_le_right _ _
    have h2 : a.start ≤ max a.start b.start := le_max_left _ _
    omega

/-! ### Machine arithmetic: agreement with the exact sums, rounding errors -/

theorem wrapLL_id (x : Int) (h0 : -2 ^ 63 ≤ x) (h1 : x < 2 ^ 63) : wrapLL x = x := by
  unfold wrapLL
  omega

theorem dpTable_bounds (w : Event → Int) (s : List Event) (p dp taken : List Int)
    (ht : WithoutDep.DPTable w s p dp taken s.length) (hw : ∀ e ∈ s, 0 ≤ w e) :
    ∀ j, j < s.length → 0 ≤ dp.getD j 0 ∧ ∀ i, i ≤ j → dp.getD i 0 ≤ dp.getD j 0 := by
  intro j
  induction j with
  | zero =>
    intro h
    have hget : s[0]? = some s[0] := List.getElem?_eq_getElem h
    rw [(ht.first s[0] hget).1]
    refine ⟨hw _ (List.getElem?_mem hget), ?_⟩
    intro i hi
    have : i = 0 := by omega
    subst this
    rw [(ht.first s[0] hget).1]
  | succ j ih =>
    intro h
    obtain ⟨h0, hmono⟩ := ih (by omega)
    have hget : s[j + 1]? = some s[j + 1] := List.getElem?_eq_getElem h
    have hstep := (dpTable_mono w s p dp taken ht (j + 1) h s[j + 1] hget
      (fun h0 => absurd h0 (by omega))).2 (by omega)
    rw [Nat.add_sub_cancel] at hstep
    refine ⟨by omega, ?_⟩
    intro i hi
    rcases Nat.lt_or_ge i (j + 1) with hlt | hge
    · exact le_trans (hmono i (by omega)) hstep
    · have : i = j + 1 := by omega
      subst this
      exact le_refl _

theorem dpFrom_machine (g : WithoutDep.Globals) (obj : Objective) (s : List Event)
    (p : List Int) (hp : WithoutDep.PrevTable s p) (F T : List Int)
    (hF : WithoutDep.DPTable (fun e => WithoutDep.weight g e obj) s p F T s.length)
    (hw : ∀ e ∈ s, 0 ≤ WithoutDep.weight g e obj)
    (hfit : F.getD (s.length - 1) 0 ≤ maxLL) :
    ∀ (k i : Nat) (st : List Int × List Int), 0 < i → i + k = s.length →
      st.1.length = s.length → (∀ j, j < i → st.1.getD j 0 = F.getD j 0) →
      WithoutDep.Machine.dpFrom g obj s p k i st = WithoutDep.dpFrom g obj s p k i st := by
  have hb := dpTable_bounds _ s p F T hF hw
  intro k
  induction k with
  | zero => intro i st _ _ _ _; rfl
  | succ k ih =>
    intro i st hi0 hik hlen hagree
    have hin : i < s.length := by omega
    have hget : s[i]? = some s[i] := List.getElem?_eq_getElem hin
    have hpget : p[i]? = some (p.getD i (-1)) :=
      getD_of_lt p i (-1) (by rw [hp.len]; exact hin)
    have hex : st.1[i - 1]? = some (st.1.getD (i - 1) 0) :=
      getD_of_lt st.1 (i - 1) 0 (by rw [hlen]; omega)
    have hlow := hp.lower i hin
    have hupp := hp.upper i hin
    have hwi : 0 ≤ WithoutDep.weight g s[i] obj := hw _ (List.getElem?_mem hget)
    have hprev : st.1.getD (i - 1) 0 = F.getD (i - 1) 0 := hagree (i - 1) (by omega)
    have hstep := hF.step i s[i] hi0 hin hget
    have hincl := (dpTable_mono _ s p F T hF i hin s[i] hget
      (fun h0 => absurd h0 (by omega))).1
    have htop := (hb (s.length - 1) (by omega)).2 i (by omega)
    unfold maxLL at hfit
    have key : ∀ X : Int,
        X = WithoutDep.inclValue (fun e => WithoutDep.weight g e obj) p F i s[i] →
        (if X > st.1.getD (i - 1) 0 then
          WithoutDep.Machine.dpFrom g obj s p k (i + 1) (st.1.set i X, st.2.set i 1)
        else WithoutDep.Machine.dpFrom g obj s p k (i + 1)
          (st.1.set i (st.1.getD (i - 1) 0), st.2)) =
        (if X > st.1.getD (i - 1) 0 then
          WithoutDep.dpFrom g obj s p k (i + 1) (st.1.set i X, st.2.set i 1)
        else WithoutDep.dpFrom g obj s p k (i + 1)
          (st.1.set i (st.1.getD (i - 1) 0), st.2)) := by
      intro X hX
      by_cases hgt : X > st.1.getD (i - 1) 0
      · rw [if_pos hgt, if_pos hgt]
        apply ih (i + 1) _ (by omega) (by omega) (by simp [hlen])
        intro j hj
        by_cases hji : j = i
        · subst hji
          rw [getD_set_self st.1 j _ 0 (by rw [hlen]; exact hin)]
          rw [hX, hprev] at hgt
          rw [hX, (hstep.1 hgt).1]
        · rw [getD_set_other st.1 i j _ 0 (fun hh => hji hh.symm)]
          exact hagree j (by omega)
      · rw [if_neg hgt, if_neg hgt]
        apply ih (i + 1) _ (by omega) (by omega) (by simp [hlen])
        intro j hj
        by_cases hji : j = i
        · subst hji
          rw [getD_set_self st.1 j _ 0 (by rw [hlen]; exact hin)]
          rw [hX, hprev] at hgt
          rw [hprev, (hstep.2 hgt).1]
        · rw [getD_set_other st.1 i j _ 0 (fun hh => hji hh.symm)]
          exact hagree j (by omega)
    by_cases hne : p.getD i (-1) = -1
    · simp only [WithoutDep.Machine.dpFrom, WithoutDep.dpFrom, hget, hpget, hex, hne, ne_eq,
        not_true_eq_false, if_false]
      exact key _ (by unfold WithoutDep.inclValue; rw [if_pos hne, add_zero])
    · have hpv : st.1.getD (p.getD i (-1)).toNat 0 = F.getD (p.getD i (-1)).toNat 0 :=
        hagree _ (by omega)
      have hp0 := (hb (p.getD i (-1)).toNat (by omega)).1
      have hval : WithoutDep.weight g s[i] obj + st.1.getD (p.getD i (-1)).toNat 0 =
          WithoutDep.inclValue (fun e => WithoutDep.weight g e obj) p F i s[i] := by
        unfold WithoutDep.inclValue; rw [if_neg hne, hpv]
      simp only [WithoutDep.Machine.dpFrom, WithoutDep.dpFrom, hget, hpget, hex, hne, ne_eq,
        not_false_eq_true, if_true,
        at_spec st.1 (p.getD i (-1)) (by omega) (by rw [hlen]; omega)]
      rw [wrapLL_id _ (by omega) (by omega)]
      exact key _ hval

theorem planEvents_machine (g : WithoutDep.Globals) (events : List Event) (obj : Objective)
    (hw : ∀ e ∈ events, 0 ≤ WithoutDep.weight g e obj)
    (hfit : ∀ score ids, WithoutDep.planEvents g events obj = Except.ok (score, ids) →
      score ≤ maxLL) :
    WithoutDep.Machine.planEvents g events obj = WithoutDep.planEvents g events obj := by
  have hperm := sortByEndStart_perm events
  have hw1 : ∀ e ∈ WithoutDep.sortByEndStart events, 0 ≤ WithoutDep.weight g e obj :=
    fun e he => hw e (hperm.mem_iff.mp he)
  have hs := sortByEndStart_sorted events
  unfold WithoutDep.planEvents at hfit
  unfold WithoutDep.Machine.planEvents WithoutDep.planEvents
  generalize WithoutDep.sortByEndStart events = s at hw1 hs hfit
  by_cases hlen : s.length = 0
  · unfold WithoutDep.Machine.planSorted WithoutDep.planSorted
    rw [if_pos hlen, if_pos hlen]
  · have hne : s ≠ [] := fun h => hlen (by rw [h]; rfl)
    obtain ⟨p, hp, hpt⟩ := buildPrevCompatible_spec s
    have hget : s[0]? = some s[0] := List.getElem?_eq_getElem (by omega)
    obtain ⟨st, hst, hdt⟩ := dpFrom_spec g obj s p hpt (s.length - 1) 1
      ((List.replicate s.length 0).set 0 (WithoutDep.weight g s[0] obj),
       (List.replicate s.length 0).set 0 1) (by omega) (by omega)
      (dpTable_init _ s p s[0] hget)
    obtain ⟨c, hc, _, _, _⟩ := traceBack_spec _ s p st.1 st.2 hpt hdt
      (sorted_end s hs) s.length ((s.length : Int) - 1) (by omega) (le_refl _)
      (s.length + 1) (by omega) []
    have hbest : st.1[s.length - 1]? = some (st.1.getD (s.length - 1) 0) :=
      getD_of_lt st.1 (s.length - 1) 0 (by rw [hdt.lenD]; omega)
    have hplan : ∃ ids, WithoutDep.planSorted g s obj =
        Except.ok (st.1.getD (s.length - 1) 0, ids) := by
      refine ⟨([] ++ (c.map (fun (e : Event) => e.id)).reverse).reverse, ?_⟩
      simp only [WithoutDep.planSorted, if_neg hlen, hp, hget, hst, hc, hbest]
    obtain ⟨ids, hplan⟩ := hplan
    have hmax := hfit _ _ hplan
    unfold WithoutDep.Machine.planSorted WithoutDep.planSorted
    rw [if_neg hlen, if_neg hlen, hp]
    simp only [hget]
    have hagree := dpFrom_machine g obj s p hpt st.1 st.2 hdt hw1 hmax (s.length - 1) 1
      ((List.replicate s.length 0).set 0 (WithoutDep.weight g s[0] obj),
       (List.replicate s.length 0).set 0 1) (by omega) (by omega) (by simp)
      (by
        intro j hj
        have hj0 : j = 0 := by omega
        subst hj0
        rw [getD_set_self _ 0 _ 0 (by simp; omega), (hdt.first s[0] hget).1])
    exact congrArg
      (fun r : Except Fault (List Int × List Int) =>
        match r with
        | Except.error f => (Except.error f : Except Fault (Int × List Int))
        | Except.ok st =>
          match WithoutDep.traceBack s p st.2 (s.length + 1) ((s.length : Int) - 1) [] with
          | Except.error f => Except.error f
          | Except.ok chosen =>
            match st.1[s.length - 1]? with
            | none => Except.error Fault.outOfRange
            | some best => Except.ok (best, chosen.reverse)) hagree

theorem machine_bounds_events (l : List Event) : ∀ s : DynamicScheduler,
    (l.foldl
      (fun s e => { s with maxAtt_ := max s.maxAtt_ (Binary64.round (e.attendance : ℚ))
                           maxRev_ := max s.maxRev_ (Binary64.round (e.revenue : ℚ)) })
      s).events_ = s.events_ ∧
    (l.foldl
      (fun s e => { s with maxAtt_ := max s.maxAtt_ (Binary64.round (e.attendance : ℚ))
                           maxRev_ := max s.maxRev_ (Binary64.round (e.revenue : ℚ)) })
      s).alpha_ = s.alpha_ := by
  induction l with
  | nil => intro s; exact ⟨rfl, rfl⟩
  | cons e rest ih =>
    intro s
    simp only [List.foldl_cons]
    exact ⟨(ih _).1, (ih _).2⟩

theorem machine_prepared_events (self : DynamicScheduler) (events : List Event) :
    (Machine.prepared self events).events_ = events := by
  unfold Machine.prepared Machine.calculateNormalizationBounds
  exact (machine_bounds_events events _).1

theorem machine_prepared_idToIdx (self : DynamicScheduler) (events : List Event) :
    (Machine.prepared self events).idToIdx_ = fillIdToIdx events 0 (fun _ => none) := rfl

theorem machine_validate (self : DynamicScheduler) (keys : List Int) (events : List Event) :
    validateAndBuildGraph (Machine.prepared self events) keys =
      validateAndBuildGraph (prepared self events) keys :=
  validate_congr (Machine.prepared self events) (prepared self events)
    (by rw [machine_prepared_events, prepared_events]) rfl keys

theorem machine_dpStep_total (norm : Int → Int) (self : DynamicScheduler)
    (events : List Event) (obj : Objective)
    (h1 : self.events_ = events) (h2 : self.idToIdx_ = fillIdToIdx events 0 (fun _ => none))
    (st : DPState) (hgood : DPGood events st) (eventId : Int) (hid : eventId ∈ allIds events) :
    ∃ st1, Machine.dpStep norm self obj (eventsByVenue events) st eventId = Except.ok st1 ∧
      DPGood events st1 := by
  obtain ⟨i, cur, hi, hget, _, hcur⟩ := lookup_some self events h1 h2 eventId hid
  obtain ⟨l, hl, hsub⟩ := eventsByVenue_some events cur hcur
  obtain ⟨it, hit, hle⟩ := upperBound_total (fun ev => decide (cur.start > ev.end_)) l
    l.length 0 l.length (le_refl _) (by omega)
  simp only [Machine.dpStep, hi, hget, hl, hit]
  by_cases hz : it = 0
  · subst hz
    simp only [ne_eq, not_true_eq_false, if_false]
    refine ⟨_, rfl, ?_, ?_⟩
    · simp only
      split_ifs
      · exact Or.inr hid
      · exact hgood.last
    · intro k p hp
      simp only [setKey] at hp
      split_ifs at hp
      · exact Or.inl (Option.some.inj hp).symm
      · exact hgood.par k p hp
  · have hlt : it - 1 < l.length := by omega
    have hget1 : l[it - 1]? = some l[it - 1] := List.getElem?_eq_getElem hlt
    have hprev : l[it - 1] ∈ events := hsub _ (List.getElem_mem hlt)
    have hprevid : l[it - 1].id ∈ allIds events := List.mem_map.mpr ⟨_, hprev, rfl⟩
    simp only [ne_eq, hz, not_false_eq_true, if_true, hget1]
    cases hdp : st.dp l[it - 1].id with
    | none =>
      refine ⟨_, rfl, ?_, ?_⟩
      · simp only
        split_ifs
        · exact Or.inr hid
        · exact hgood.last
      · intro k p hp
        simp only [setKey] at hp
        split_ifs at hp
        · exact Or.inl (Option.some.inj hp).symm
        · exact hgood.par k p hp
    | some sc =>
      refine ⟨_, rfl, ?_, ?_⟩
      · simp only
        split_ifs
        · exact Or.inr hid
        · exact hgood.last
      · intro k p hp
        simp only [setKey] at hp
        split_ifs at hp
        · exact Or.inr ((Option.some.inj hp) ▸ hprevid)
        · exact hgood.par k p hp

theorem foldl_wrap_values (f : Int → Int → Int) (g : Int → Int)
    (hg : ∀ d, 0 ≤ g d)
    (hf : ∀ s d, 0 ≤ s → s + g d ≤ maxLL → f s d = s + g d) (deps : List Int) :
    ∀ init : Int, 0 ≤ init → init + (deps.map g).sum ≤ maxLL →
      deps.foldl f init = init + (deps.map g).sum := by
  induction deps with
  | nil => intro init _ _; simp
  | cons d rest ih =>
    intro init h0 h1
    have hrest : 0 ≤ (rest.map g).sum := List.sum_nonneg (by
      intro x hx
      obtain ⟨y, _, rfl⟩ := List.mem_map.mp hx
      exact hg y)
    have hd := hg d
    rw [List.map_cons, List.sum_cons] at h1
    rw [List.foldl_cons, hf init d h0 (by omega), ih (init + g d) (by omega) (by omega),
      List.map_cons, List.sum_cons]
    omega

theorem machine_dpStep_lower (self : DynamicScheduler) (obj : Objective)
    (byVenue : String → Option (List Event))
    (hw : ∀ e ∈ self.events_, 0 ≤ Machine.calculateWeight self e obj) (st st1 : DPState)
    (eventId : Int) (hz : Machine.LowerState self obj st)
    (h : Machine.dpStep id self obj byVenue st eventId = Except.ok st1) :
    Machine.LowerState self obj st1 ∧ (∃ v, st1.dp eventId = some v) ∧
      (∀ k, (∃ v, st.dp k = some v) → ∃ v, st1.dp k = some v) ∧
      st.maxTotalScore ≤ st1.maxTotalScore ∧
      (st1.maxTotalScore ≤ maxLL →
        Machine.dpStep wrapLL self obj byVenue st eventId = Except.ok st1) := by
  obtain ⟨hmax, hdp⟩ := hz
  unfold Machine.dpStep at h ⊢
  split at h
  · exact absurd h (by simp)
  · rename_i i hi
    split at h
    · exact absurd h (by simp)
    · rename_i cur hcur
      have hwc : 0 ≤ Machine.calculateWeight self cur obj := hw cur (List.getElem?_mem hcur)
      split at h
      · exact absurd h (by simp)
      · rename_i l hl
        split at h
        · exact absurd h (by simp)
        · rename_i it hit
          simp only [hi, hcur, hl, hit]
          simp only at h
          split at h
          · exact absurd h (by simp)
          · rename_i b bid hfound
            have hb : 0 ≤ b := by
              by_cases hit0 : it ≠ 0
              · rw [if_pos hit0] at hfound
                cases hprev : l[it - 1]? with
                | none =>
                  rw [hprev] at hfound
                  exact absurd hfound (by simp)
                | some prev =>
                  rw [hprev] at hfound
                  cases hs : st.dp prev.id with
                  | none =>
                    simp only [hs, Except.ok.injEq, Prod.mk.injEq] at hfound
                    omega
                  | some s =>
                    simp only [hs, Except.ok.injEq, Prod.mk.injEq] at hfound
                    rw [← hfound.1]
                    exact (hdp _ _ hs).1
              · rw [if_neg hit0] at hfound
                simp only [Except.ok.injEq, Prod.mk.injEq] at hfound
                omega
            have hval : ∀ d, 0 ≤ (fun d => (st.dp d).getD 0) d := by
              intro d
              cases hd : st.dp d with
              | none => simp [hd]
              | some v => simpa [hd] using (hdp d v hd).1
            have hsum : 0 ≤ (cur.deps.map (fun d => (st.dp d).getD 0)).sum := by
              apply List.sum_nonneg
              intro x hx
              obtain ⟨d, _, rfl⟩ := List.mem_map.mp hx
              exact hval d
            rw [foldl_add_values _ (fun d => (st.dp d).getD 0)] at h
            swap
            · intro s d
              split
              · rename_i v hv
                simp [hv]
              · rename_i hv
                simp [hv]
            simp only [id_eq, Except.ok.injEq] at h
            subst h
            refine ⟨⟨?_, ?_⟩, ⟨_, if_pos rfl⟩, ?_, ?_, ?_⟩
            · simp only
              split <;> omega
            · intro k v hkv
              simp only [setKey] at hkv
              split at hkv
              · rename_i hk
                subst hk
                have hv := Option.some.inj hkv
                refine ⟨by omega, ?_, ?_⟩
                · simp only
                  split <;> omega
                · intro i1 e1 hi1 he1
                  rw [hi] at hi1
                  have : i = i1 := Option.some.inj hi1
                  subst this
                  rw [hcur] at he1
                  have : cur = e1 := Option.some.inj he1
                  subst this
                  omega
              · obtain ⟨h0, h1, h2⟩ := hdp k v hkv
                refine ⟨h0, ?_, h2⟩
                simp only
                split <;> omega
            · intro k ⟨v, hv⟩
              simp only [setKey]
              split
              · exact ⟨_, rfl⟩
              · exact ⟨v, hv⟩
            · simp only
              split <;> omega
            · intro hfit
              simp only at hfit
              have hcs : Machine.calculateWeight self cur obj + b +
                  (cur.deps.map (fun d => (st.dp d).getD 0)).sum ≤ maxLL := by
                split at hfit <;> omega
              have hm : maxLL = 2 ^ 63 - 1 := rfl
              rw [wrapLL_id _ (by omega) (by omega),
                foldl_wrap_values _ (fun d => (st.dp d).getD 0) hval _ cur.deps _
                  (by omega) hcs]
              intro s d hs0 hs1
              split
              · rename_i v hv
                simp only [hv, Option.getD_some] at hs1 ⊢
                have := (hdp d v hv).1
                exact wrapLL_id _ (by omega) (by omega)
              · rename_i hv
                simp [hv]

theorem machine_dpLoop_total (norm : Int → Int) (self : DynamicScheduler)
    (events : List Event) (obj : Objective)
    (h1 : self.events_ = events) (h2 : self.idToIdx_ = fillIdToIdx events 0 (fun _ => none)) :
    ∀ (topo : List Int) (st : DPState), DPGood events st → (∀ k ∈ topo, k ∈ allIds events) →
      ∃ st1, Machine.dpLoop norm self obj (eventsByVenue events) topo st = Except.ok st1 ∧
        DPGood events st1 := by
  intro topo
  induction topo with
  | nil => intro st hg _; exact ⟨st, rfl, hg⟩
  | cons k rest ih =>
    intro st hg hk
    obtain ⟨s1, hs1, hg1⟩ := machine_dpStep_total norm self events obj h1 h2 st hg k
      (hk k (List.mem_cons_self k rest))
    obtain ⟨s2, hs2, hg2⟩ := ih s1 hg1 (fun x hx => hk x (List.mem_cons_of_mem k hx))
    exact ⟨s2, by simp only [Machine.dpLoop, hs1]; exact hs2, hg2⟩

theorem machine_dpLoop_lower (self : DynamicScheduler) (obj : Objective)
    (byVenue : String → Option (List Event))
    (hw : ∀ e ∈ self.events_, 0 ≤ Machine.calculateWeight self e obj) (topo : List Int) :
    ∀ (st st1 : DPState), Machine.LowerState self obj st →
      Machine.dpLoop id self obj byVenue topo st = Except.ok st1 →
      Machine.LowerState self obj st1 ∧ (∀ k ∈ topo, ∃ v, st1.dp k = some v) ∧
        (∀ k, (∃ v, st.dp k = some v) → ∃ v, st1.dp k = some v) ∧
        st.maxTotalScore ≤ st1.maxTotalScore ∧
        (st1.maxTotalScore ≤ maxLL →
          Machine.dpLoop wrapLL self obj byVenue topo st = Except.ok st1) := by
  induction topo with
  | nil =>
    intro st st1 hz h
    simp only [Machine.dpLoop, Except.ok.injEq] at h
    subst h
    exact ⟨hz, fun k hk => absurd hk (List.not_mem_nil k), fun k hk => hk, le_refl _,
      fun _ => rfl⟩
  | cons k0 rest ih =>
    intro st st1 hz h
    simp only [Machine.dpLoop] at h
    split at h
    · exact absurd h (by simp)
    · rename_i st2 hst2
      obtain ⟨hz2, hid, hkeep, hmax, hag⟩ :=
        machine_dpStep_lower self obj byVenue hw st st2 k0 hz hst2
      obtain ⟨hz1, hall, hkeep1, hmax1, hag1⟩ := ih st2 st1 hz2 h
      refine ⟨hz1, ?_, fun k hk => hkeep1 k (hkeep k hk), le_trans hmax hmax1, ?_⟩
      · intro k hk
        rcases List.mem_cons.mp hk with rfl | hk
        · exact hkeep1 _ hid
        · exact hall k hk
      · intro hfit
        simp only [Machine.dpLoop, hag (le_trans hmax1 hfit)]
        exact hag1 hfit

theorem machine_plan_total (norm : Int → Int) (self : DynamicScheduler)
    (events : List Event) (obj : Objective)
    (h1 : self.events_ = events) (h2 : self.idToIdx_ = fillIdToIdx events 0 (fun _ => none))
    (hdeps : AllDepsExist events) (topo : List Int) (htopo : ∀ k ∈ topo, k ∈ allIds events) :
    ∃ st r, Machine.dpLoop norm self obj (eventsByVenue events) topo
        { dp := fun _ => none, parent := fun _ => none, maxTotalScore := 0,
          lastEventId := -1 } = Except.ok st ∧
      Machine.planEventsWithDependencies norm self obj topo = Except.ok r ∧
      r.total_score = st.maxTotalScore ∧ r.success = true := by
  obtain ⟨st, hst, hg⟩ := machine_dpLoop_total norm self events obj h1 h2 topo
    { dp := fun _ => none, parent := fun _ => none, maxTotalScore := 0, lastEventId := -1 }
    ⟨Or.inl rfl, fun k p hp => absurd hp (by simp)⟩ htopo
  obtain ⟨out, hout⟩ := reconstruct_total self events st.parent h1 h2 hg.par hdeps
    (events.length + 1) st.lastEventId ([], []) hg.last (by
      show (unvisited events []).length < events.length + 1
      have : (unvisited events []).length ≤ events.length := by
        unfold unvisited
        refine le_trans (List.length_filter_le _ _) ?_
        refine le_trans (List.dedup_sublist _).length_le ?_
        simp [allIds]
      omega)
  refine ⟨st, ⟨st.maxTotalScore, sortByEnd out.2, "", true⟩, hst, ?_, rfl, rfl⟩
  simp only [Machine.planEventsWithDependencies, h1, hst, hout]

theorem validate_passes (self : DynamicScheduler) (keys : List Int) (events : List Event)
    (hnd : (allIds events).Nodup) (hpass : PassesValidation events)
    (hk : IsKeyOrder events keys) :
    ∃ T, T.Perm keys ∧
      validateAndBuildGraph (prepared self events) keys = Except.ok (validationOk, T) := by
  obtain ⟨hdeps, hacyc, htime⟩ := hpass
  obtain ⟨flag, T, hflag, hord, hv⟩ := validate_known (prepared self events) keys
    (by rw [prepared_events]; exact hk) (by rw [prepared_events]; exact hdeps)
  rw [prepared_events] at hflag hord
  have hf : flag = true := hflag.mpr hacyc
  subst hf
  refine ⟨T, (hord rfl).1, ?_⟩
  have ht := checkAllTimes_unique (prepared self events) events (prepared_events self events)
    (prepared_idToIdx self events) hnd hdeps
  rw [prepared_events] at hv
  rw [hv, ht, firstTimeViolation_none events htime]
  rfl

theorem overflowCatalog_acyclic : ¬ HasCycle overflowCatalog := by
  intro hc
  have h := run_of_cycle (newScheduler (1 / 2)) [1, 2] overflowCatalog Objective.ATTENDANCE
    (by decide) (by unfold AllDepsExist; decide) (by unfold IsKeyOrder; decide) hc
  exact absurd h (by decide!)

theorem pow2_eq_zpow (k : Int) : Binary64.pow2 k = (2 : ℚ) ^ k := by
  unfold Binary64.pow2
  split
  · rename_i h
    have hk : k = ((k.toNat : Nat) : Int) := (Int.toNat_of_nonneg h).symm
    rw [Nat.cast_pow, Nat.cast_ofNat]
    conv_rhs => rw [hk]
    rw [zpow_natCast]
  · rename_i h
    have hk : k = -(((-k).toNat : Nat) : Int) := by
      rw [Int.toNat_of_nonneg (by omega)]; omega
    rw [Nat.cast_pow, Nat.cast_ofNat]
    conv_rhs => rw [hk]
    rw [zpow_neg, zpow_natCast, one_div]

theorem pow2_pos (k : Int) : 0 < Binary64.pow2 k := by
  rw [pow2_eq_zpow]
  exact zpow_pos (by norm_num) k

theorem bits_zero (fuel : Nat) : Binary64.bits fuel 0 = 0 := by
  cases fuel with
  | zero => rfl
  | succ f => simp [Binary64.bits]

theorem bits_spec : ∀ (fuel n : Nat), n ≤ fuel →
    n < 2 ^ Binary64.bits fuel n ∧ (0 < n → 2 ^ (Binary64.bits fuel n - 1) ≤ n) := by
  intro fuel
  induction fuel with
  | zero =>
    intro n h
    have : n = 0 := by omega
    subst this
    exact ⟨by simp [Binary64.bits], fun h0 => absurd h0 (by omega)⟩
  | succ f ih =>
    intro n h
    by_cases hn : n = 0
    · subst hn
      exact ⟨by simp [Binary64.bits], fun h0 => absurd h0 (by omega)⟩
    · have hb : Binary64.bits (f + 1) n = Binary64.bits f (n / 2) + 1 := by
        simp [Binary64.bits, hn]
      obtain ⟨h1, h2⟩ := ih (n / 2) (by omega)
      rw [hb]
      constructor
      · rw [pow_succ]; omega
      · intro _
        rw [Nat.add_sub_cancel]
        by_cases hz : n / 2 = 0
        · rw [hz, bits_zero]
          simp only [pow_zero]
          omega
        · have h3 := h2 (by omega)
          have hpos : 0 < Binary64.bits f (n / 2) := by
            rcases Nat.eq_zero_or_pos (Binary64.bits f (n / 2)) with h0 | h0
            · rw [h0] at h1; simp only [pow_zero] at h1; omega
            · exact h0
          have hp : 2 ^ Binary64.bits f (n / 2) = 2 ^ (Binary64.bits f (n / 2) - 1) * 2 := by
            rw [← pow_succ]; congr 1; omega
          rw [hp]; omega

theorem exponent_le (x : ℚ) (hx : 0 < x) : (2 : ℚ) ^ Binary64.exponent x ≤ x := by
  unfold Binary64.exponent
  simp only
  split
  · rename_i h
    rw [← pow2_eq_zpow]; exact h
  · have hnum : 0 < x.num := Rat.num_pos.mpr hx
    obtain ⟨_, ha⟩ := bits_spec x.num.toNat x.num.toNat le_rfl
    obtain ⟨hd, _⟩ := bits_spec x.den x.den le_rfl
    have hapos : 0 < x.num.toNat := by omega
    have ha1 := ha hapos
    have hbpos : 0 < Binary64.bits x.num.toNat x.num.toNat := by
      rcases Nat.eq_zero_or_pos (Binary64.bits x.num.toNat x.num.toNat) with h0 | h0
      · have := (bits_spec x.num.toNat x.num.toNat le_rfl).1
        rw [h0] at this; simp only [pow_zero] at this; omega
      · exact h0
    have hxeq : x = ((x.num.toNat : Nat) : ℚ) / ((x.den : Nat) : ℚ) := by
      have h1 : ((x.num.toNat : Nat) : ℚ) = ((x.num : Int) : ℚ) := by
        have : ((x.num.toNat : Nat) : Int) = x.num := Int.toNat_of_nonneg (le_of_lt hnum)
        exact_mod_cast congrArg (fun z : Int => (z : ℚ)) this
      rw [h1]
      exact (Rat.num_div_den x).symm
    have hexp : ((Binary64.bits x.num.toNat x.num.toNat : Nat) : Int) -
        ((Binary64.bits x.den x.den : Nat) : Int) - 1 =
        (((Binary64.bits x.num.toNat x.num.toNat - 1 : Nat) : Nat) : Int) -
          ((Binary64.bits x.den x.den : Nat) : Int) := by omega
    rw [hexp, zpow_sub₀ (by norm_num : (2 : ℚ) ≠ 0), zpow_natCast, zpow_natCast]
    conv_rhs => rw [hxeq]
    have hden : (0 : ℚ) < ((x.den : Nat) : ℚ) := by exact_mod_cast x.den_pos
    refine div_le_div₀ (Nat.cast_nonneg _) ?_ hden ?_
    · exact_mod_cast ha1
    · exact_mod_cast le_of_lt hd

theorem roundHalfEven_error (r : ℚ) : |((Binary64.roundHalfEven r : Int) : ℚ) - r| ≤ 1 / 2 := by
  have h1 : ((⌊r⌋ : Int) : ℚ) ≤ r := Int.floor_le r
  have h2 : r < ((⌊r⌋ : Int) : ℚ) + 1 := Int.lt_floor_add_one r
  unfold Binary64.roundHalfEven
  simp only [rat_floor_eq]
  rw [abs_le]
  split_ifs with c1 c2 c3
  · constructor <;> linarith
  · push_cast; constructor <;> linarith
  · push_cast at c1 c2 ⊢; constructor <;> linarith
  · push_cast at c1 c2 ⊢; constructor <;> linarith

theorem round_error_pos (q : ℚ) (hq : 0 < q) :
    |Binary64.round q - q| ≤ q / 2 ^ 53 + 1 / 2 ^ 1075 := by
  have hne : ¬ q = 0 := ne_of_gt hq
  have hnl : ¬ q < 0 := not_lt.mpr (le_of_lt hq)
  unfold Binary64.round
  rw [if_neg hne, if_neg hnl]
  have hu := pow2_pos (max (Binary64.exponent q) (-1022) - 52)
  have herr := roundHalfEven_error (q / Binary64.pow2 (max (Binary64.exponent q) (-1022) - 52))
  have hbound : Binary64.pow2 (max (Binary64.exponent q) (-1022) - 52) / 2 ≤
      q / 2 ^ 53 + 1 / 2 ^ 1075 := by
    rw [pow2_eq_zpow]
    rcases le_total (Binary64.exponent q) (-1022) with hle | hge
    · rw [max_eq_right hle]
      have h0 : (0 : ℚ) ≤ q / 2 ^ 53 := by positivity
      have h1 : ((2 : ℚ) ^ ((-1022 : Int) - 52)) / 2 = 1 / 2 ^ 1075 := by
        rw [show ((-1022 : Int) - 52) = -((1074 : Nat) : Int) by norm_num, zpow_neg,
          zpow_natCast]
        norm_num
      rw [h1]; linarith
    · rw [max_eq_left hge, zpow_sub₀ (by norm_num : (2 : ℚ) ≠ 0)]
      have h0 : (0 : ℚ) ≤ 1 / 2 ^ 1075 := by positivity
      have h1 := exponent_le q hq
      have h2 : (2 : ℚ) ^ Binary64.exponent q / 2 ^ (52 : Int) / 2 ≤ q / 2 ^ 53 := by
        rw [show ((2 : ℚ) ^ (52 : Int)) = 2 ^ (52 : Nat) by norm_cast]
        rw [div_div, show ((2 : ℚ) ^ (52 : Nat)) * 2 = 2 ^ 53 by norm_num]
        exact div_le_div_of_nonneg_right h1 (by positivity)
      linarith
  set u := Binary64.pow2 (max (Binary64.exponent q) (-1022) - 52) with hudef
  set R := ((Binary64.roundHalfEven (q / u) : Int) : ℚ) with hR
  have heq : R * u - q = (R - q / u) * u := by
    field_simp
  rw [heq, abs_mul, abs_of_pos hu]
  calc |R - q / u| * u ≤ 1 / 2 * u := mul_le_mul_of_nonneg_right herr (le_of_lt hu)
    _ = u / 2 := by ring
    _ ≤ _ := hbound

theorem round_error (q : ℚ) : |Binary64.round q - q| ≤ |q| / 2 ^ 53 + 1 / 2 ^ 1075 := by
  rcases lt_trichotomy q 0 with h | h | h
  · have hpos := round_error_pos (-q) (by linarith)
    have hr : Binary64.round q = -Binary64.round (-q) := by
      have hne : ¬ q = 0 := ne_of_lt h
      have hne1 : ¬ -q = 0 := by intro h0; apply hne; linarith
      have hnl : ¬ -q < 0 := by linarith
      conv_lhs => unfold Binary64.round
      conv_rhs => unfold Binary64.round
      rw [if_neg hne, if_pos h, if_neg hne1, if_neg hnl]
    rw [hr, abs_of_neg h]
    have : -Binary64.round (-q) - q = -(Binary64.round (-q) - -q) := by ring
    rw [this, abs_neg]
    exact hpos
  · subst h
    have : Binary64.round 0 = 0 := by unfold Binary64.round; rw [if_pos rfl]
    rw [this]
    simp only [sub_zero, abs_zero, zero_div, zero_add]
    positivity
  · rw [abs_of_pos h]
    exact round_error_pos q h

theorem exponent_gt (x : ℚ) (hx : 0 < x) : x < (2 : ℚ) ^ (Binary64.exponent x + 1) := by
  unfold Binary64.exponent
  simp only
  split
  · have hnum : 0 < x.num := Rat.num_pos.mpr hx
    obtain ⟨ha, _⟩ := bits_spec x.num.toNat x.num.toNat le_rfl
    obtain ⟨hd0, hd⟩ := bits_spec x.den x.den le_rfl
    have hd1 := hd x.den_pos
    have hbpos : 0 < Binary64.bits x.den x.den := by
      rcases Nat.eq_zero_or_pos (Binary64.bits x.den x.den) with h0 | h0
      · rw [h0] at hd0; simp only [pow_zero] at hd0
        have := x.den_pos
        omega
      · exact h0
    have hxeq : x = ((x.num.toNat : Nat) : ℚ) / ((x.den : Nat) : ℚ) := by
      have h1 : ((x.num.toNat : Nat) : ℚ) = ((x.num : Int) : ℚ) := by
        have : ((x.num.toNat : Nat) : Int) = x.num := Int.toNat_of_nonneg (le_of_lt hnum)
        exact_mod_cast congrArg (fun z : Int => (z : ℚ)) this
      rw [h1]
      exact (Rat.num_div_den x).symm
    have hexp : ((Binary64.bits x.num.toNat x.num.toNat : Nat) : Int) -
        ((Binary64.bits x.den x.den : Nat) : Int) + 1 =
        ((Binary64.bits x.num.toNat x.num.toNat : Nat) : Int) -
          (((Binary64.bits x.den x.den - 1 : Nat) : Nat) : Int) := by omega
    rw [hexp, zpow_sub₀ (by norm_num : (2 : ℚ) ≠ 0), zpow_natCast, zpow_natCast]
    conv_lhs => rw [hxeq]
    have hden : (0 : ℚ) < ((x.den : Nat) : ℚ) := by exact_mod_cast x.den_pos
    have hp : (0 : ℚ) < 2 ^ (Binary64.bits x.den x.den - 1) := by positivity
    rw [div_lt_div_iff₀ hden hp]
    have h1 : ((x.num.toNat : Nat) : ℚ) < 2 ^ Binary64.bits x.num.toNat x.num.toNat := by
      exact_mod_cast ha
    have h2 : (2 : ℚ) ^ (Binary64.bits x.den x.den - 1) ≤ ((x.den : Nat) : ℚ) := by
      exact_mod_cast hd1
    have h3 : (0 : ℚ) ≤ ((x.num.toNat : Nat) : ℚ) := Nat.cast_nonneg _
    calc ((x.num.toNat : Nat) : ℚ) * 2 ^ (Binary64.bits x.den x.den - 1)
        ≤ ((x.num.toNat : Nat) : ℚ) * ((x.den : Nat) : ℚ) :=
          mul_le_mul_of_nonneg_left h2 h3
      _ < 2 ^ Binary64.bits x.num.toNat x.num.toNat * ((x.den : Nat) : ℚ) :=
          mul_lt_mul_of_pos_right h1 hden
  · rename_i h
    rw [sub_add_cancel, ← pow2_eq_zpow]
    exact not_le.mp h

theorem round_samples :
    Binary64.round (41 / 80) = 4616189618054758 / 9007199254740992 ∧
    Binary64.round (1 / 10) = 3602879701896397 / 36028797018963968 ∧
    Binary64.round (9 / 10) = 8106479329266893 / 9007199254740992 ∧
    Binary64.round 9007199254740993 = 9007199254740992 ∧
    Binary64.round 9007199254740995 = 9007199254740996 ∧
    Binary64.round (-1 / 3) = -6004799503160661 / 18014398509481984 := by
  refine ⟨by decide!, by decide!, by decide!, by decide!, by decide!, by decide!⟩

theorem finite_spec (q : ℚ) (hq : |q| ≤ 2 ^ 64) :
    Binary64.finite q = some (Binary64.round q) := by
  have herr := round_error q
  have h1 : |Binary64.round q| ≤ |Binary64.round q - q| + |q| := by
    have := abs_add (Binary64.round q - q) q
    simpa using this
  have h2 : |q| / 2 ^ 53 ≤ 2 ^ 64 / 2 ^ 53 := div_le_div_of_nonneg_right hq (by positivity)
  have hb : |Binary64.round q| ≤ 2 ^ 66 := by
    have h3 : (1 : ℚ) / 2 ^ 1075 ≤ 1 := by norm_num
    have h4 : (2 : ℚ) ^ 64 / 2 ^ 53 + 1 + 2 ^ 64 ≤ 2 ^ 66 := by norm_num
    linarith
  obtain ⟨h5, h6⟩ := abs_le.mp hb
  unfold Binary64.finite
  rw [if_pos]
  rw [pow2_eq_zpow, show (1024 : Int) = ((1024 : Nat) : Int) from rfl, zpow_natCast]
  have h7 : (2 : ℚ) ^ 66 < 2 ^ 1024 := pow_lt_pow_right₀ (by norm_num) (by norm_num)
  constructor <;> linarith

theorem fin_close (q x d : ℚ) (hq : |q - x| ≤ d) (hx : |x| ≤ 2) (hd : d ≤ 1) :
    ∃ v, Binary64.finite q = some v ∧ |v - x| ≤ d + 1 / 2 ^ 50 := by
  have h1 : |q| ≤ |q - x| + |x| := by
    have := abs_add (q - x) x
    simpa using this
  have h3 : |q| ≤ 3 := by linarith
  refine ⟨Binary64.round q, finite_spec q (by
    have : (3 : ℚ) ≤ 2 ^ 64 := by norm_num
    linarith), ?_⟩
  have herr := round_error q
  have h4 : |Binary64.round q - x| ≤ |Binary64.round q - q| + |q - x| := abs_sub_le _ _ _
  have h5 : |q| / 2 ^ 53 ≤ 3 / 2 ^ 53 := div_le_div_of_nonneg_right h3 (by positivity)
  have h6 : (3 : ℚ) / 2 ^ 53 + 1 / 2 ^ 1075 ≤ 1 / 2 ^ 50 := by norm_num
  linarith

theorem round_int (n : Int) (h0 : 0 ≤ n) :
    |Binary64.round (n : ℚ) - (n : ℚ)| ≤ (n : ℚ) / 2 ^ 52 := by
  rcases eq_or_lt_of_le h0 with h | h
  · subst h
    have : Binary64.round ((0 : Int) : ℚ) = 0 := by
      unfold Binary64.round; rw [if_pos (by norm_num)]
    rw [this]
    norm_num
  · have h1 : (1 : ℚ) ≤ (n : ℚ) := by exact_mod_cast h
    have herr := round_error (n : ℚ)
    rw [abs_of_pos (by linarith : (0 : ℚ) < (n : ℚ))] at herr
    have h2 : (1 : ℚ) / 2 ^ 1075 ≤ 1 / 2 ^ 53 := by norm_num
    have h3 : (1 : ℚ) / 2 ^ 53 ≤ (n : ℚ) / 2 ^ 53 :=
      div_le_div_of_nonneg_right h1 (by positivity)
    have h4 : (n : ℚ) / 2 ^ 52 = (n : ℚ) / 2 ^ 53 + (n : ℚ) / 2 ^ 53 := by ring
    linarith

theorem mul_close (a b x y da db : ℚ) (ha : |a - x| ≤ da) (hb : |b - y| ≤ db)
    (hx : |x| ≤ 1) (hy : |y| ≤ 1) : |a * b - x * y| ≤ da * (1 + db) + db := by
  have h1 : a * b - x * y = (a - x) * b + x * (b - y) := by ring
  have h2 : |b| ≤ |b - y| + |y| := by
    have := abs_add (b - y) y
    simpa using this
  have h3 : |(a - x) * b| ≤ da * (1 + db) := by
    rw [abs_mul]
    exact mul_le_mul ha (by linarith) (abs_nonneg _) (le_trans (abs_nonneg _) ha)
  have h4 : |x * (b - y)| ≤ 1 * db := by
    rw [abs_mul]
    exact mul_le_mul hx hb (abs_nonneg _) (by norm_num)
  rw [h1]
  have := abs_add ((a - x) * b) (x * (b - y))
  linarith

theorem quot_close (r a B A : ℚ) (hA : 1 ≤ A) (ha0 : 0 ≤ a) (haA : a ≤ A)
    (hr : |r - a| ≤ a / 2 ^ 52) (hl : (1 - 1 / 2 ^ 52) * A ≤ B)
    (hu : B ≤ (1 + 1 / 2 ^ 52) * A) : |r / B - a / A| ≤ 1 / 2 ^ 50 := by
  have hApos : 0 < A := by linarith
  have hBpos : 0 < B := by
    have : (0 : ℚ) < (1 - 1 / 2 ^ 52) * A := mul_pos (by norm_num) hApos
    linarith
  obtain ⟨hr1, hr2⟩ := abs_le.mp hr
  have hx0 : 0 ≤ a / A := div_nonneg ha0 (le_of_lt hApos)
  have hx1 : a / A ≤ 1 := (div_le_one hApos).mpr haA
  have hax : a = a / A * A := (div_mul_cancel₀ a (ne_of_gt hApos)).symm
  set x := a / A with hxdef
  have hlow : x - 1 / 2 ^ 50 ≤ r / B := by
    rw [le_div_iff₀ hBpos]
    by_cases hneg : x - 1 / 2 ^ 50 ≤ 0
    · have h1 : (x - 1 / 2 ^ 50) * B ≤ 0 :=
        mul_nonpos_of_nonpos_of_nonneg hneg (le_of_lt hBpos)
      have h2 : 0 ≤ a - a / 2 ^ 52 := by
        have : a / 2 ^ 52 ≤ a := div_le_self ha0 (by norm_num)
        linarith
      linarith
    · have hpos : 0 ≤ x - 1 / 2 ^ 50 := le_of_lt (not_le.mp hneg)
      have h1 : (x - 1 / 2 ^ 50) * B ≤ (x - 1 / 2 ^ 50) * ((1 + 1 / 2 ^ 52) * A) :=
        mul_le_mul_of_nonneg_left hu hpos
      have h2 : 0 ≤ (1 / 2 ^ 50 * (1 + 1 / 2 ^ 52) - 2 / 2 ^ 52 * x) * A :=
        mul_nonneg (by
          have : (2 : ℚ) / 2 ^ 52 * x ≤ 2 / 2 ^ 52 * 1 :=
            mul_le_mul_of_nonneg_left hx1 (by norm_num)
          have : (2 : ℚ) / 2 ^ 52 * 1 ≤ 1 / 2 ^ 50 * (1 + 1 / 2 ^ 52) := by norm_num
          linarith) (le_of_lt hApos)
      have h3 : a / 2 ^ 52 = 1 / 2 ^ 52 * (x * A) := by rw [← hax]; ring
      nlinarith
  have hupp : r / B ≤ x + 1 / 2 ^ 50 := by
    rw [div_le_iff₀ hBpos]
    have h1 : (x + 1 / 2 ^ 50) * ((1 - 1 / 2 ^ 52) * A) ≤ (x + 1 / 2 ^ 50) * B :=
      mul_le_mul_of_nonneg_left hl (by
        have : (0 : ℚ) ≤ 1 / 2 ^ 50 := by norm_num
        linarith)
    have h2 : 0 ≤ (1 / 2 ^ 50 * (1 - 1 / 2 ^ 52) - 2 / 2 ^ 52 * x) * A :=
      mul_nonneg (by
        have : (2 : ℚ) / 2 ^ 52 * x ≤ 2 / 2 ^ 52 * 1 :=
          mul_le_mul_of_nonneg_left hx1 (by norm_num)
        have : (2 : ℚ) / 2 ^ 52 * 1 ≤ 1 / 2 ^ 50 * (1 - 1 / 2 ^ 52) := by norm_num
        linarith) (le_of_lt hApos)
    have h3 : a / 2 ^ 52 = 1 / 2 ^ 52 * (x * A) := by rw [← hax]; ring
    nlinarith
  rw [abs_le]
  constructor <;> linarith

theorem truncToInt_succ_le (y : ℚ) : truncToInt (y + 1) ≤ truncToInt y + 1 := by
  unfold truncToInt
  by_cases hy : 0 ≤ y
  · rw [if_pos hy, if_pos (by linarith), rat_floor_eq, rat_floor_eq, Int.floor_add_one]
  · by_cases hy1 : 0 ≤ y + 1
    · rw [if_neg hy, if_pos hy1, rat_floor_eq, rat_ceil_eq, Int.floor_add_one]
      have := Int.floor_le_ceil y
      omega
    · rw [if_neg hy, if_neg hy1, rat_ceil_eq, rat_ceil_eq, Int.ceil_add_one]

theorem trunc_close (x y : ℚ) (h : |x - y| ≤ 1) : |truncToInt x - truncToInt y| ≤ 1 := by
  obtain ⟨h1, h2⟩ := abs_le.mp h
  rw [abs_le]
  constructor
  · have := le_trans (truncToInt_mono y (x + 1) (by linarith)) (truncToInt_succ_le x)
    omega
  · have := le_trans (truncToInt_mono x (y + 1) (by linarith)) (truncToInt_succ_le y)
    omega

theorem machine_bounds_fold (l : List Event) : ∀ s : DynamicScheduler,
    l.foldl
      (fun s e => { s with maxAtt_ := max s.maxAtt_ (Binary64.round (e.attendance : ℚ))
                           maxRev_ := max s.maxRev_ (Binary64.round (e.revenue : ℚ)) }) s =
      { alpha_ := s.alpha_
        maxAtt_ := l.foldl (fun m e => max m (Binary64.round (e.attendance : ℚ))) s.maxAtt_
        maxRev_ := l.foldl (fun m e => max m (Binary64.round (e.revenue : ℚ))) s.maxRev_
        events_ := s.events_
        idToIdx_ := s.idToIdx_ } := by
  induction l with
  | nil => intro s; rfl
  | cons e rest ih =>
    intro s
    simp only [List.foldl_cons]
    rw [ih]

theorem foldl_max_round (f : Event → Int) (es : List Event) :
    (∀ e ∈ es, 0 ≤ f e ∧ f e ≤ maxLL) → ∀ (m mi : ℚ), 1 ≤ mi →
      (1 - 1 / 2 ^ 52) * mi ≤ m → m ≤ (1 + 1 / 2 ^ 52) * mi →
      (1 - 1 / 2 ^ 52) * es.foldl (fun x e => max x ((f e : Int) : ℚ)) mi ≤
          es.foldl (fun x e => max x (Binary64.round ((f e : Int) : ℚ))) m ∧
        es.foldl (fun x e => max x (Binary64.round ((f e : Int) : ℚ))) m ≤
          (1 + 1 / 2 ^ 52) * es.foldl (fun x e => max x ((f e : Int) : ℚ)) mi ∧
        mi ≤ es.foldl (fun x e => max x ((f e : Int) : ℚ)) mi ∧
        m ≤ es.foldl (fun x e => max x (Binary64.round ((f e : Int) : ℚ))) m ∧
        ∀ e ∈ es, ((f e : Int) : ℚ) ≤ es.foldl (fun x e => max x ((f e : Int) : ℚ)) mi := by
  induction es with
  | nil =>
    intro _ m mi _ hl hu
    exact ⟨hl, hu, le_refl _, le_refl _, fun e he => absurd he (List.not_mem_nil e)⟩
  | cons e rest ih =>
    intro hf m mi h1 hl hu
    obtain ⟨he0, _⟩ := hf e (List.mem_cons_self e rest)
    have hr := abs_le.mp (round_int (f e) he0)
    have hq0 : (0 : ℚ) ≤ ((f e : Int) : ℚ) := by exact_mod_cast he0
    have hmi0 : (0 : ℚ) ≤ mi := by linarith
    have hsplit : ∀ z : ℚ, z / 2 ^ 52 = 1 / 2 ^ 52 * z := fun z => by ring
    obtain ⟨a1, a2, a3, a4, a5⟩ := ih (fun x hx => hf x (List.mem_cons_of_mem e hx))
      (max m (Binary64.round ((f e : Int) : ℚ))) (max mi ((f e : Int) : ℚ))
      (le_trans h1 (le_max_left _ _))
      (by
        rcases le_total mi ((f e : Int) : ℚ) with h | h
        · rw [max_eq_right h]
          refine le_trans ?_ (le_max_right _ _)
          have := hsplit ((f e : Int) : ℚ)
          linarith [hr.1]
        · rw [max_eq_left h]
          exact le_trans hl (le_max_left _ _))
      (by
        refine max_le ?_ ?_
        · refine le_trans hu (mul_le_mul_of_nonneg_left (le_max_left _ _) (by norm_num))
        · have h2 : (1 + 1 / 2 ^ 52) * ((f e : Int) : ℚ) ≤
              (1 + 1 / 2 ^ 52) * max mi ((f e : Int) : ℚ) :=
            mul_le_mul_of_nonneg_left (le_max_right _ _) (by norm_num)
          have := hsplit ((f e : Int) : ℚ)
          linarith [hr.2])
    simp only [List.foldl_cons]
    refine ⟨a1, a2, le_trans (le_max_left _ _) a3, le_trans (le_max_left _ _) a4, ?_⟩
    intro x hx
    rcases List.mem_cons.mp hx with rfl | hx
    · exact le_trans (le_max_right _ _) a3
    · exact a5 x hx

theorem machine_bounds_spec (self : DynamicScheduler) (events : List Event)
    (hval : ∀ x ∈ events, (0 ≤ x.attendance ∧ x.attendance ≤ maxLL) ∧
      (0 ≤ x.revenue ∧ x.revenue ≤ maxLL)) :
    (Machine.calculateNormalizationBounds self events).alpha_ = self.alpha_ ∧
    ((1 - 1 / 2 ^ 52) * specBound (events.map (fun x => x.attendance)) ≤
        (Machine.calculateNormalizationBounds self events).maxAtt_ ∧
      (Machine.calculateNormalizationBounds self events).maxAtt_ ≤
        (1 + 1 / 2 ^ 52) * specBound (events.map (fun x => x.attendance)) ∧
      1 ≤ (Machine.calculateNormalizationBounds self events).maxAtt_ ∧
      ∀ e ∈ events, (e.attendance : ℚ) ≤ specBound (events.map (fun x => x.attendance))) ∧
    ((1 - 1 / 2 ^ 52) * specBound (events.map (fun x => x.revenue)) ≤
        (Machine.calculateNormalizationBounds self events).maxRev_ ∧
      (Machine.calculateNormalizationBounds self events).maxRev_ ≤
        (1 + 1 / 2 ^ 52) * specBound (events.map (fun x => x.revenue)) ∧
      1 ≤ (Machine.calculateNormalizationBounds self events).maxRev_ ∧
      ∀ e ∈ events, (e.revenue : ℚ) ≤ specBound (events.map (fun x => x.revenue))) := by
  unfold Machine.calculateNormalizationBounds
  rw [machine_bounds_fold]
  simp only
  obtain ⟨a1, a2, _, a4, a5⟩ := foldl_max_round (fun x => x.attendance) events
    (fun x hx => (hval x hx).1) 1 1 (le_refl _) (by norm_num) (by norm_num)
  obtain ⟨r1, r2, _, r4, r5⟩ := foldl_max_round (fun x => x.revenue) events
    (fun x hx => (hval x hx).2) 1 1 (le_refl _) (by norm_num) (by norm_num)
  rw [foldl_max_specBound (fun x => x.attendance)] at a1 a2 a5
  rw [foldl_max_specBound (fun x => x.revenue)] at r1 r2 r5
  exact ⟨trivial, ⟨a1, a2, a4, a5⟩, ⟨r1, r2, r4, r5⟩⟩

theorem norm_close (a : Int) (B A : ℚ) (hA : 1 ≤ A) (ha0 : 0 ≤ a) (ham : a ≤ maxLL)
    (haA : (a : ℚ) ≤ A) (hl : (1 - 1 / 2 ^ 52) * A ≤ B) (hu : B ≤ (1 + 1 / 2 ^ 52) * A) :
    ∃ v, Binary64.div (Binary64.finite (a : ℚ)) B = some v ∧ |v - (a : ℚ) / A| ≤ 1 / 2 ^ 49 := by
  have hq0 : (0 : ℚ) ≤ (a : ℚ) := by exact_mod_cast ha0
  have hq1 : (a : ℚ) ≤ 2 ^ 64 := by
    have h1 : a ≤ 2 ^ 64 := by unfold maxLL at ham; omega
    exact_mod_cast h1
  have hfin : Binary64.finite (a : ℚ) = some (Binary64.round (a : ℚ)) :=
    finite_spec _ (by rw [abs_of_nonneg hq0]; exact hq1)
  have hApos : 0 < A := by linarith
  have hq := quot_close (Binary64.round (a : ℚ)) (a : ℚ) B A hA hq0 haA (round_int a ha0) hl hu
  obtain ⟨v, hv, hclose⟩ := fin_close (Binary64.round (a : ℚ) / B) ((a : ℚ) / A) (1 / 2 ^ 50) hq
    (by
      rw [abs_of_nonneg (div_nonneg hq0 (le_of_lt hApos))]
      have := (div_le_one hApos).mpr haA
      linarith)
    (by norm_num)
  refine ⟨v, ?_, ?_⟩
  · rw [hfin]; exact hv
  · have : (1 : ℚ) / 2 ^ 50 + 1 / 2 ^ 50 = 1 / 2 ^ 49 := by norm_num
    linarith

theorem machine_hybrid_close (s : DynamicScheduler) (e : Event) (A R : ℚ)
    (hA : 1 ≤ A) (hAl : (1 - 1 / 2 ^ 52) * A ≤ s.maxAtt_)
    (hAu : s.maxAtt_ ≤ (1 + 1 / 2 ^ 52) * A)
    (hR : 1 ≤ R) (hRl : (1 - 1 / 2 ^ 52) * R ≤ s.maxRev_)
    (hRu : s.maxRev_ ≤ (1 + 1 / 2 ^ 52) * R)
    (ha : 0 ≤ e.attendance ∧ e.attendance ≤ maxLL) (haA : (e.attendance : ℚ) ≤ A)
    (hr : 0 ≤ e.revenue ∧ e.revenue ≤ maxLL) (hrR : (e.revenue : ℚ) ≤ R)
    (hα0 : 0 ≤ s.alpha_) (hα1 : s.alpha_ ≤ 1) :
    |Machine.calculateWeight s e Objective.HYBRID - specHybrid s.alpha_ A R e| ≤ 1 := by
  have hApos : 0 < A := by linarith
  have hRpos : 0 < R := by linarith
  have hBA : s.maxAtt_ > 0 := by
    have : (0 : ℚ) < (1 - 1 / 2 ^ 52) * A := mul_pos (by norm_num) hApos
    linarith
  have hBR : s.maxRev_ > 0 := by
    have : (0 : ℚ) < (1 - 1 / 2 ^ 52) * R := mul_pos (by norm_num) hRpos
    linarith
  have hxa0 : 0 ≤ (e.attendance : ℚ) / A :=
    div_nonneg (by exact_mod_cast ha.1) (le_of_lt hApos)
  have hxa1 : (e.attendance : ℚ) / A ≤ 1 := (div_le_one hApos).mpr haA
  have hxr0 : 0 ≤ (e.revenue : ℚ) / R :=
    div_nonneg (by exact_mod_cast hr.1) (le_of_lt hRpos)
  have hxr1 : (e.revenue : ℚ) / R ≤ 1 := (div_le_one hRpos).mpr hrR
  obtain ⟨nA, hnA, cA⟩ := norm_close e.attendance s.maxAtt_ A hA ha.1 ha.2 haA hAl hAu
  obtain ⟨nR, hnR, cR⟩ := norm_close e.revenue s.maxRev_ R hR hr.1 hr.2 hrR hRl hRu
  obtain ⟨al, hal, cal⟩ := fin_close s.alpha_ s.alpha_ 0 (by simp)
    (by rw [abs_of_nonneg hα0]; linarith) (by norm_num)
  obtain ⟨be, hbe, cbe⟩ := fin_close (1 - al) (1 - s.alpha_) (1 / 2 ^ 50)
    (by
      have : 1 - al - (1 - s.alpha_) = -(al - s.alpha_) := by ring
      rw [this, abs_neg]
      linarith)
    (by rw [abs_of_nonneg (by linarith)]; linarith) (by norm_num)
  set xa := (e.attendance : ℚ) / A with hxa
  set xr := (e.revenue : ℚ) / R with hxr
  have habs : ∀ z : ℚ, 0 ≤ z → z ≤ 1 → |z| ≤ 1 := fun z h0 h1 => by
    rw [abs_of_nonneg h0]; exact h1
  have hp1 := mul_close al nA s.alpha_ xa (1 / 2 ^ 50) (1 / 2 ^ 49) (by linarith) cA
    (habs _ hα0 hα1) (habs _ hxa0 hxa1)
  have hp2 := mul_close be nR (1 - s.alpha_) xr (2 / 2 ^ 50) (1 / 2 ^ 49) (by linarith) cR
    (habs _ (by linarith) (by linarith)) (habs _ hxr0 hxr1)
  have hm1 : 0 ≤ s.alpha_ * xa := mul_nonneg hα0 hxa0
  have hm2 : s.alpha_ * xa ≤ s.alpha_ := by
    have := mul_le_mul_of_nonneg_left hxa1 hα0
    linarith
  have hm3 : 0 ≤ (1 - s.alpha_) * xr := mul_nonneg (by linarith) hxr0
  have hm4 : (1 - s.alpha_) * xr ≤ 1 - s.alpha_ := by
    have := mul_le_mul_of_nonneg_left hxr1 (by linarith : (0 : ℚ) ≤ 1 - s.alpha_)
    linarith
  obtain ⟨p1, hp1e, c1⟩ := fin_close (al * nA) (s.alpha_ * xa) (1 / 2 ^ 47)
    (le_trans hp1 (by norm_num)) (by rw [abs_of_nonneg hm1]; linarith) (by norm_num)
  obtain ⟨p2, hp2e, c2⟩ := fin_close (be * nR) ((1 - s.alpha_) * xr) (1 / 2 ^ 47)
    (le_trans hp2 (by norm_num)) (by rw [abs_of_nonneg hm3]; linarith) (by norm_num)
  obtain ⟨sc, hsc, csc⟩ := fin_close (p1 + p2) (s.alpha_ * xa + (1 - s.alpha_) * xr)
    (1 / 2 ^ 45)
    (by
      have h1 : p1 + p2 - (s.alpha_ * xa + (1 - s.alpha_) * xr) =
          (p1 - s.alpha_ * xa) + (p2 - (1 - s.alpha_) * xr) := by ring
      rw [h1]
      have h2 := abs_add (p1 - s.alpha_ * xa) (p2 - (1 - s.alpha_) * xr)
      have h3 : (1 : ℚ) / 2 ^ 47 + 1 / 2 ^ 50 + (1 / 2 ^ 47 + 1 / 2 ^ 50) ≤ 1 / 2 ^ 45 := by
        norm_num
      linarith)
    (by rw [abs_of_nonneg (by linarith)]; linarith) (by norm_num)
  set S := s.alpha_ * xa + (1 - s.alpha_) * xr with hS
  have hS0 : 0 ≤ S := by linarith
  have hS1 : S ≤ 1 := by linarith
  have hq : |sc * 1000000 - S * 1000000| ≤ 1000000 * (1 / 2 ^ 45 + 1 / 2 ^ 50) := by
    have : sc * 1000000 - S * 1000000 = 1000000 * (sc - S) := by ring
    rw [this, abs_mul, abs_of_pos (by norm_num : (0 : ℚ) < 1000000)]
    exact mul_le_mul_of_nonneg_left csc (by norm_num)
  have hqb : |sc * 1000000| ≤ 1000001 := by
    have h1 : |sc * 1000000| ≤ |sc * 1000000 - S * 1000000| + |S * 1000000| := by
      have := abs_add (sc * 1000000 - S * 1000000) (S * 1000000)
      simpa using this
    have h2 : |S * 1000000| ≤ 1000000 := by
      rw [abs_of_nonneg (by positivity)]; linarith
    have h3 : (1000000 : ℚ) * (1 / 2 ^ 45 + 1 / 2 ^ 50) ≤ 1 := by norm_num
    linarith
  have hfin : Binary64.finite (sc * 1000000) = some (Binary64.round (sc * 1000000)) :=
    finite_spec _ (le_trans hqb (by norm_num))
  have hF : |Binary64.round (sc * 1000000) - S * 1000000| ≤ 1 := by
    have h1 := abs_sub_le (Binary64.round (sc * 1000000)) (sc * 1000000) (S * 1000000)
    have h2 := round_error (sc * 1000000)
    have h3 : |sc * 1000000| / 2 ^ 53 ≤ 1000001 / 2 ^ 53 :=
      div_le_div_of_nonneg_right hqb (by positivity)
    have h4 : (1000001 : ℚ) / 2 ^ 53 + 1 / 2 ^ 1075 +
        1000000 * (1 / 2 ^ 45 + 1 / 2 ^ 50) ≤ 1 := by norm_num
    linarith
  have harg : (s.alpha_ * (e.attendance : ℚ) / A + (1 - s.alpha_) * (e.revenue : ℚ) / R) *
      1000000 = S * 1000000 := by
    rw [hS, hxa, hxr]; ring
  have hspec : specHybrid s.alpha_ A R e = truncToInt (S * 1000000) := by
    unfold specHybrid; rw [harg]
  have hT := trunc_close _ _ hF
  have hX0 : 0 ≤ truncToInt (S * 1000000) := by
    have := truncToInt_mono 0 (S * 1000000) (by positivity)
    rwa [show (0 : ℚ) = ((0 : Int) : ℚ) by norm_num, truncToInt_intCast] at this
  have hX1 : truncToInt (S * 1000000) ≤ 1000000 := by
    have := truncToInt_mono (S * 1000000) ((1000000 : Int) : ℚ) (by push_cast; linarith)
    rwa [truncToInt_intCast] at this
  obtain ⟨hT1, hT2⟩ := abs_le.mp hT
  have hval : Machine.calculateWeight s e Objective.HYBRID =
      truncToInt (Binary64.round (sc * 1000000)) := by
    simp only [Machine.calculateWeight, hBA, hBR, if_true, hnA, hnR, hal]
    simp only [Binary64.sub, hbe, Binary64.mul, hp1e, hp2e, Binary64.add, hsc, hfin,
      Binary64.toLongLong]
    rw [if_pos]
    constructor <;> omega
  rw [hval, hspec]
  exact hT

/-! ## Claims -/

/-- C1 (predefined scenario): what the code does. On the six-event catalog of `main` with
the attendance objective, for every iteration order of the key map, `run` succeeds with
score 570 and the chosen events 3, 4, 6; it does not return 850 with the events
1, 3, 4, 5, 6, although 850 is the maximum found by exhaustive search. -/
theorem run_testCatalog (keys : List Int) (hk : IsKeyOrder testCatalog keys) :
    run (newScheduler (1 / 2)) keys testCatalog Objective.ATTENDANCE = Except.ok testResult ∧
    testResult.total_score = 570 ∧
    testResult.chosen_events.map (fun e => e.id) = [3, 4, 6] ∧
    bruteForceMax (fun e => calculateWeight (newScheduler (1 / 2)) e Objective.ATTENDANCE)
      testCatalog = 850 :=
  ⟨testCatalog_orders keys (keyOrder_permutations testCatalog keys _ (by decide) hk), rfl, rfl,
    testCatalog_optimum⟩

/-- Witness for C1 with the keys in ascending order. -/
theorem run_testCatalog_witness :
    run (newScheduler (1 / 2)) [1, 2, 3, 4, 5, 6] testCatalog Objective.ATTENDANCE =
      Except.ok testResult ∧
    testResult.total_score = 570 ∧
    testResult.chosen_events.map (fun e => e.id) = [3, 4, 6] ∧
    bruteForceMax (fun e => calculateWeight (newScheduler (1 / 2)) e Objective.ATTENDANCE)
      testCatalog = 850 :=
  run_testCatalog [1, 2, 3, 4, 5, 6] (by unfold IsKeyOrder; decide)

/-- C2 (feasibility): what the code does. On `overlapCatalog` (unique ids, every start
before its end), for every iteration order of the key map `run` succeeds and the chosen
list contains two distinct events of venue A whose half-open intervals overlap (event 3 on
`[1,5)` and event 2 on `[2,6)`). -/
theorem run_overlapCatalog (keys : List Int) (hk : IsKeyOrder overlapCatalog keys) :
    (allIds overlapCatalog).Nodup ∧ (∀ e ∈ overlapCatalog, e.start ≤ e.end_) ∧
    run (newScheduler (1 / 2)) keys overlapCatalog Objective.ATTENDANCE =
      Except.ok overlapResult ∧
    overlapResult.success = true ∧
    ∃ a ∈ overlapResult.chosen_events, ∃ b ∈ overlapResult.chosen_events,
      a ≠ b ∧ conflicts a b = true :=
  ⟨by decide, by decide,
    overlapCatalog_orders keys (keyOrder_permutations overlapCatalog keys _ (by decide) hk),
    rfl, by decide⟩

/-- Witness for C2 with the keys in ascending order. -/
theorem run_overlapCatalog_witness :
    (allIds overlapCatalog).Nodup ∧ (∀ e ∈ overlapCatalog, e.start ≤ e.end_) ∧
    run (newScheduler (1 / 2)) [1, 2, 3] overlapCatalog Objective.ATTENDANCE =
      Except.ok overlapResult ∧
    overlapResult.success = true ∧
    ∃ a ∈ overlapResult.chosen_events, ∃ b ∈ overlapResult.chosen_events,
      a ≠ b ∧ conflicts a b = true :=
  run_overlapCatalog [1, 2, 3] (by unfold IsKeyOrder; decide)

/-- C3 (optimality): what the code does. On `chainCatalog` (three consecutive events in one
venue, unique ids, non-negative attendance and revenue), for every iteration order of the
key map `run` succeeds with a score of at most 20, while exhaustive search over the
prerequisite-closed conflict-free subsets gives 30. -/
theorem run_chainCatalog (keys : List Int) (hk : IsKeyOrder chainCatalog keys) :
    chainCatalog.length ≤ 12 ∧ (allIds chainCatalog).Nodup ∧
    (∀ e ∈ chainCatalog, 0 ≤ e.attendance ∧ 0 ≤ e.revenue) ∧
    (∃ r, run (newScheduler (1 / 2)) keys chainCatalog Objective.ATTENDANCE = Except.ok r ∧
      r.success = true ∧ r.total_score ≤ 20) ∧
    bruteForceMax (fun e => calculateWeight (newScheduler (1 / 2)) e Objective.ATTENDANCE)
      chainCatalog = 30 := by
  refine ⟨by decide, by decide, by decide, ?_, chainCatalog_optimum⟩
  obtain ⟨h1, h2⟩ :=
    chainCatalog_orders keys (keyOrder_permutations chainCatalog keys _ (by decide) hk)
  cases hr : run (newScheduler (1 / 2)) keys chainCatalog Objective.ATTENDANCE with
  | error f => rw [hr] at h1; simp [scoreOf] at h1
  | ok r =>
    rw [hr] at h1 h2
    have hs : r.success = true := by
      by_contra hn
      simp [scoreOf, hn] at h1
    refine ⟨r, rfl, hs, ?_⟩
    exact h2 r.total_score (by simp [scoreOf, hs])

/-- Witness for C3 with the keys in ascending order. -/
theorem run_chainCatalog_witness :
    chainCatalog.length ≤ 12 ∧ (allIds chainCatalog).Nodup ∧
    (∀ e ∈ chainCatalog, 0 ≤ e.attendance ∧ 0 ≤ e.revenue) ∧
    (∃ r, run (newScheduler (1 / 2)) [1, 2, 3] chainCatalog Objective.ATTENDANCE =
        Except.ok r ∧ r.success = true ∧ r.total_score ≤ 20) ∧
    bruteForceMax (fun e => calculateWeight (newScheduler (1 / 2)) e Objective.ATTENDANCE)
      chainCatalog = 30 :=
  run_chainCatalog [1, 2, 3] (by unfold IsKeyOrder; decide)

/-- C4 (dependency closure), amended: for a catalog with unique ids in which no event lists
the id `-1` as a prerequisite, whenever `run` succeeds every direct and transitive
prerequisite of a chosen event is chosen, and every catalog event that is a prerequisite
of a chosen event ends no later than that event starts. -/
theorem chosen_closed (self : DynamicScheduler) (keys : List Int) (events : List Event)
    (obj : Objective) (r : ScheduleResult) (hnd : (allIds events).Nodup)
    (hm1 : ∀ e ∈ events, (-1 : Int) ∉ e.deps)
    (hrun : run self keys events obj = Except.ok r) (hs : r.success = true) :
    (∀ x ∈ r.chosen_events, ∀ d, Relation.TransGen (DependsOn events) x.id d →
      ∃ y ∈ r.chosen_events, y.id = d) ∧
    (∀ e ∈ r.chosen_events, ∀ d ∈ events, d.id ∈ e.deps → d.end_ ≤ e.start) := by
  by_cases hne : events = []
  · subst hne
    rw [run_eq] at hrun
    simp only [List.isEmpty_nil, if_true] at hrun
    rw [← Except.ok.inj hrun]
    exact ⟨fun x hx => absurd hx (by simp), fun x hx => absurd hx (by simp)⟩
  · obtain ⟨hdeps, htimes, topo, hplan⟩ := run_success self keys events obj r hne hrun hs
    simp only [planEventsWithDependencies] at hplan
    split at hplan
    · exact absurd hplan (by simp)
    · rename_i st _
      split at hplan
      · exact absurd hplan (by simp)
      · rename_i out hrec
        have hr : r.chosen_events = sortByEnd out.2 := by
          rw [← Except.ok.inj hplan]
        obtain ⟨rec, _⟩ := reconstruct_spec _ _ _ _ _ _ hrec
        have hlook : ∀ (x : Int) (i : Nat) (ev : Event),
            (prepared self events).idToIdx_ x = some i →
            (prepared self events).events_[i]? = some ev → ev ∈ events ∧ ev.id = x := by
          intro x i ev hi hget
          rw [prepared_events] at hget
          exact lookup_id events x i ev hi hget
        have hin : ∀ ev ∈ out.2, ev ∈ events ∧
            ∀ d ∈ ev.deps, d ≠ -1 → ∃ y ∈ out.2, y.id = d := by
          intro ev hev
          obtain ⟨x, i, hx, hi, hget⟩ := rec.newEv ev hev (by simp)
          obtain ⟨i1, ev1, hi1, hget1, _, hd1⟩ := rec.newId x hx (by simp)
          rw [hi] at hi1
          have hii : i = i1 := Option.some.inj hi1
          subst hii
          rw [hget] at hget1
          have hee : ev = ev1 := Option.some.inj hget1
          subst hee
          refine ⟨(hlook x i ev hi hget).1, ?_⟩
          intro d hd hdne
          rcases hd1 d hd with h | h
          · exact absurd h hdne
          · obtain ⟨j, evd, hj, hgetj, hevd, _⟩ := rec.newId d h (by simp)
            exact ⟨evd, hevd, (hlook d j evd hj hgetj).2⟩
        have hdirect : ∀ x ∈ out.2, ∀ d, DependsOn events x.id d → ∃ y ∈ out.2, y.id = d := by
          rintro x hx d ⟨e, he, heid, hd⟩
          obtain ⟨hxe, hxd⟩ := hin x hx
          have hex : e = x := List.inj_on_of_nodup_map hnd he hxe heid
          subst hex
          exact hxd d hd (fun h => hm1 e he (h ▸ hd))
        constructor
        · intro x hx d htrans
          rw [hr] at hx ⊢
          rw [mem_sortByEnd] at hx
          have : ∃ y ∈ out.2, y.id = d := by
            induction htrans with
            | single h1 => exact hdirect x hx _ h1
            | tail _ h2 ih =>
              obtain ⟨y, hy, hyid⟩ := ih
              exact hdirect y hy _ (hyid ▸ h2)
          obtain ⟨y, hy, hyid⟩ := this
          exact ⟨y, (mem_sortByEnd _ _).mpr hy, hyid⟩
        · intro e he d hd hid
          rw [hr, mem_sortByEnd] at he
          have hee := (hin e he).1
          have hu := checkAllTimes_unique (prepared self events) events
            (prepared_events self events) (prepared_idToIdx self events) hnd hdeps
          rw [htimes] at hu
          have hnone : firstTimeViolation events = none := by
            cases hf : firstTimeViolation events with
            | none => rfl
            | some p => rw [hf] at hu; exact absurd (Except.ok.inj hu) (by simp)
          unfold firstTimeViolation at hnone
          have := List.find?_eq_none.mp hnone (e, d) ((mem_eventPairs events e d).mpr ⟨hee, hd, hid⟩)
          simpa using this

/-- Witness for C4 (amended) on the predefined six-event catalog. -/
theorem chosen_closed_witness :
    (∀ x ∈ testResult.chosen_events, ∀ d,
      Relation.TransGen (DependsOn testCatalog) x.id d →
        ∃ y ∈ testResult.chosen_events, y.id = d) ∧
    (∀ e ∈ testResult.chosen_events, ∀ d ∈ testCatalog, d.id ∈ e.deps → d.end_ ≤ e.start) :=
  chosen_closed (newScheduler (1 / 2)) [1, 2, 3, 4, 5, 6] testCatalog Objective.ATTENDANCE
    testResult (by decide) (by decide) (testCatalog_orders [1, 2, 3, 4, 5, 6] (List.mem_permutations.mpr (by decide))) rfl

/-- Counterexample to C4 as stated: on `minusOneCatalog` (unique ids) `run` succeeds for
both iteration orders of the key map with event 2 chosen, while its prerequisite, the
catalog event with id `-1`, is not chosen. -/
theorem chosen_closed_counterexample :
    (allIds minusOneCatalog).Nodup ∧
    run (newScheduler (1 / 2)) [-1, 2] minusOneCatalog Objective.ATTENDANCE =
      Except.ok minusOneResult ∧
    run (newScheduler (1 / 2)) [2, -1] minusOneCatalog Objective.ATTENDANCE =
      Except.ok minusOneResult ∧
    minusOneResult.success = true ∧
    ∃ x ∈ minusOneResult.chosen_events, ∃ d ∈ x.deps,
      d ∈ allIds minusOneCatalog ∧ ∀ y ∈ minusOneResult.chosen_events, y.id ≠ d :=
  ⟨by decide, minusOneCatalog_orders [-1, 2] (List.mem_permutations.mpr (by decide)),
    minusOneCatalog_orders [2, -1] (List.mem_permutations.mpr (by decide)),
    rfl, by decide⟩

/-- C5 (cycle rejection). For a non-empty catalog in which every prerequisite id exists,
`run` returns the failure record with the dependency-cycle message (score 0, no chosen
events) exactly when the prerequisite graph has a directed cycle; in particular it does so
when two events depend on each other. -/
theorem run_cycle_iff (self : DynamicScheduler) (keys : List Int) (events : List Event)
    (obj : Objective) (hne : events ≠ []) (hnd : (allIds events).Nodup)
    (hdeps : AllDepsExist events) (hk : IsKeyOrder events keys) :
    ((∃ r, run self keys events obj = Except.ok r ∧ IsCycleError r) ↔ HasCycle events) ∧
    (run self keys events obj = Except.ok (failure cycleMessage) ↔ HasCycle events) ∧
    (∀ a b, DependsOn events a b → DependsOn events b a →
      run self keys events obj = Except.ok (failure cycleMessage)) := by
  have hback : ∀ r, run self keys events obj = Except.ok r → IsCycleError r →
      HasCycle events := by
    intro r hr hcyc
    by_contra hno
    obtain ⟨T, _, hrun⟩ := run_acyclic self keys events obj hne hnd hdeps hk hno
    rw [hrun] at hr
    cases hp : firstTimeViolation events with
    | some p =>
      rw [hp] at hr
      have h1 : r = timeFailure p := (Except.ok.inj hr).symm
      rw [h1] at hcyc
      exact cycle_ne_time _ _ _ _ hcyc.2.symm
    | none =>
      rw [hp] at hr
      have h1 := (plan_success _ _ _ _ hr).1
      rw [hcyc.1] at h1
      exact absurd h1 (by simp)
  refine ⟨⟨?_, ?_⟩, ⟨?_, ?_⟩, ?_⟩
  · rintro ⟨r, hr, hcyc⟩
    exact hback r hr hcyc
  · intro hc
    exact ⟨_, run_of_cycle self keys events obj hne hdeps hk hc, rfl, rfl⟩
  · intro hr
    exact hback _ hr ⟨rfl, rfl⟩
  · exact run_of_cycle self keys events obj hne hdeps hk
  · intro a b hab hba
    exact run_of_cycle self keys events obj hne hdeps hk
      ⟨a, Relation.TransGen.tail (Relation.TransGen.single hab) hba⟩

/-- Witness for C5 on two events that depend on each other. -/
theorem run_cycle_iff_witness :
    ((∃ r, run (newScheduler (1 / 2)) [1, 2] mutualCatalog Objective.ATTENDANCE = Except.ok r ∧
        IsCycleError r) ↔ HasCycle mutualCatalog) ∧
    (run (newScheduler (1 / 2)) [1, 2] mutualCatalog Objective.ATTENDANCE =
        Except.ok (failure cycleMessage) ↔ HasCycle mutualCatalog) ∧
    (∀ a b, DependsOn mutualCatalog a b → DependsOn mutualCatalog b a →
      run (newScheduler (1 / 2)) [1, 2] mutualCatalog Objective.ATTENDANCE =
        Except.ok (failure cycleMessage)) :=
  run_cycle_iff (newScheduler (1 / 2)) [1, 2] mutualCatalog Objective.ATTENDANCE
    (by decide) (by decide) (by unfold AllDepsExist; decide) (by unfold IsKeyOrder; decide)

/-- C6 (unknown reference rejection). For a non-empty catalog, `run` fails with the
unknown-dependency error exactly when some event lists a prerequisite id that no catalog
event carries, and the record returned is the failure whose message names the first such
(event id, missing id) pair in catalog order. -/
theorem run_unknown_iff (self : DynamicScheduler) (keys : List Int) (events : List Event)
    (obj : Objective) (hne : events ≠ []) :
    ((∃ r, run self keys events obj = Except.ok r ∧ IsUnknownError r) ↔
      ∃ e ∈ events, ∃ d ∈ e.deps, d ∉ allIds events) ∧
    (∀ p, firstUnknown events = some p →
      run self keys events obj = Except.ok (failure (unknownMessage p.1 p.2))) := by
  refine ⟨⟨?_, ?_⟩, fun p hp => run_of_unknown self keys events obj hne p hp⟩
  · rintro ⟨r, hr, hsucc, eid, depId, hmsg⟩
    by_contra hno
    have hdeps : AllDepsExist events := by
      intro e he d hd
      by_contra hd1
      exact hno ⟨e, he, d, hd, hd1⟩
    rcases run_ok_cases self keys events obj hne hdeps r hr with h | ⟨a, b, c, d, h⟩ | h
    · rw [h] at hmsg
      exact unknown_ne_cycle _ _ hmsg.symm
    · rw [h] at hmsg
      exact unknown_ne_time _ _ _ _ _ _ hmsg.symm
    · rw [hsucc] at h
      exact absurd h (by simp)
  · rintro ⟨e, he, d, hd, hdn⟩
    cases hp : firstUnknown events with
    | none => exact absurd ((firstUnknown_none_iff events).mp hp e he d hd) hdn
    | some p =>
      exact ⟨_, run_of_unknown self keys events obj hne p hp, rfl, p.1, p.2, rfl⟩

/-- Witness for C6 on a catalog with two missing prerequisites; the first one is named. -/
theorem run_unknown_iff_witness :
    ((∃ r, run (newScheduler (1 / 2)) [1, 2] unknownCatalog Objective.REVENUE = Except.ok r ∧
        IsUnknownError r) ↔
      ∃ e ∈ unknownCatalog, ∃ d ∈ e.deps, d ∉ allIds unknownCatalog) ∧
    (∀ p, firstUnknown unknownCatalog = some p →
      run (newScheduler (1 / 2)) [1, 2] unknownCatalog Objective.REVENUE =
        Except.ok (failure (unknownMessage p.1 p.2))) :=
  run_unknown_iff (newScheduler (1 / 2)) [1, 2] unknownCatalog Objective.REVENUE (by decide)

/-- C7 (timing violation). For a catalog with unique ids whose prerequisite ids all exist
and whose prerequisite graph is acyclic, `run` fails with the dependency-time-mismatch
error exactly when some event has a prerequisite that ends after the event starts, and the
record returned is the failure whose message reports the first such pair in catalog order
with the event's start and the prerequisite's end. -/
theorem run_timing_iff (self : DynamicScheduler) (keys : List Int) (events : List Event)
    (obj : Objective) (hnd : (allIds events).Nodup) (hdeps : AllDepsExist events)
    (hacyc : ¬ HasCycle events) (hk : IsKeyOrder events keys) :
    ((∃ r, run self keys events obj = Except.ok r ∧ IsTimeError r) ↔
      ∃ e ∈ events, ∃ d ∈ events, d.id ∈ e.deps ∧ d.end_ > e.start) ∧
    (∀ p, firstTimeViolation events = some p →
      run self keys events obj =
        Except.ok (failure (timeMessage p.1.id p.1.start p.2.id p.2.end_))) := by
  by_cases hne : events = []
  · subst hne
    refine ⟨⟨?_, ?_⟩, ?_⟩
    · rintro ⟨r, hr, hsucc, _⟩
      rw [run_eq] at hr
      simp only [List.isEmpty_nil, if_true] at hr
      rw [← Except.ok.inj hr] at hsucc
      exact absurd hsucc (by simp)
    · rintro ⟨e, he, _⟩
      exact absurd he (by simp)
    · intro p hp
      exact absurd hp (by simp [firstTimeViolation, eventPairs])
  · obtain ⟨T, _, hrun⟩ := run_acyclic self keys events obj hne hnd hdeps hk hacyc
    refine ⟨⟨?_, ?_⟩, ?_⟩
    · rintro ⟨r, hr, hsucc, _⟩
      rw [hrun] at hr
      cases hp : firstTimeViolation events with
      | some p =>
        unfold firstTimeViolation at hp
        obtain ⟨hviol, pre, post, hsplit, _⟩ := List.find?_eq_some.mp hp
        have hmem : (p.1, p.2) ∈ eventPairs events := by rw [hsplit]; simp
        obtain ⟨h1, h2, h3⟩ := (mem_eventPairs events p.1 p.2).mp hmem
        exact ⟨p.1, h1, p.2, h2, h3, by simpa using hviol⟩
      | none =>
        rw [hp] at hr
        have h1 := (plan_success _ _ _ _ hr).1
        rw [hsucc] at h1
        exact absurd h1 (by simp)
    · rintro ⟨e, he, d, hd, hid, hlate⟩
      cases hp : firstTimeViolation events with
      | some p =>
        rw [hp] at hrun
        exact ⟨_, hrun, rfl, _, _, _, _, rfl⟩
      | none =>
        unfold firstTimeViolation at hp
        have := List.find?_eq_none.mp hp (e, d) ((mem_eventPairs events e d).mpr ⟨he, hd, hid⟩)
        exact absurd hlate (by simpa using this)
    · intro p hp
      rw [hp] at hrun
      exact hrun

/-- Witness for C7 on a catalog whose second event starts before its prerequisite ends. -/
theorem run_timing_iff_witness :
    ((∃ r, run (newScheduler (1 / 2)) [1, 2] lateCatalog Objective.ATTENDANCE = Except.ok r ∧
        IsTimeError r) ↔
      ∃ e ∈ lateCatalog, ∃ d ∈ lateCatalog, d.id ∈ e.deps ∧ d.end_ > e.start) ∧
    (∀ p, firstTimeViolation lateCatalog = some p →
      run (newScheduler (1 / 2)) [1, 2] lateCatalog Objective.ATTENDANCE =
        Except.ok (failure (timeMessage p.1.id p.1.start p.2.id p.2.end_))) :=
  run_timing_iff (newScheduler (1 / 2)) [1, 2] lateCatalog Objective.ATTENDANCE
    (by decide) (by unfold AllDepsExist; decide) lateCatalog_acyclic
    (by unfold IsKeyOrder; decide)

/-- C8 (validation precedence). For every catalog and every iteration order of its key
map: `validateAndBuildGraph` reports a timing error only when all prerequisite ids exist
and the graph is acyclic, and a cycle error only when all prerequisite ids exist; a
catalog with an unknown reference yields the unknown-dependency error (with or without a
cycle), and a catalog whose prerequisite ids all exist and whose graph has a cycle yields
the cycle error (with or without a prerequisite that ends after its dependent starts). -/
theorem validate_precedence (self : DynamicScheduler) (keys : List Int)
    (hk : IsKeyOrder self.events_ keys) :
    (∀ r topo, validateAndBuildGraph self keys = Except.ok (r, topo) →
      (IsTimeError r → AllDepsExist self.events_ ∧ ¬ HasCycle self.events_) ∧
      (IsCycleError r → AllDepsExist self.events_)) ∧
    (¬ AllDepsExist self.events_ →
      ∃ r topo, validateAndBuildGraph self keys = Except.ok (r, topo) ∧ IsUnknownError r) ∧
    (AllDepsExist self.events_ → HasCycle self.events_ →
      ∃ topo, validateAndBuildGraph self keys = Except.ok (failure cycleMessage, topo)) := by
  have hunk : ¬ AllDepsExist self.events_ →
      ∃ p : Int × Int,
        validateAndBuildGraph self keys = Except.ok (failure (unknownMessage p.1 p.2), []) := by
    intro hno
    cases hp : firstUnknown self.events_ with
    | none => exact absurd ((firstUnknown_none_iff _).mp hp) hno
    | some p => exact ⟨p, validate_unknown self keys p hp⟩
  refine ⟨?_, ?_, ?_⟩
  · intro r topo hv
    by_cases hdeps : AllDepsExist self.events_
    · obtain ⟨flag, T, hflag, _, hval⟩ := validate_known self keys hk hdeps
      refine ⟨fun ht => ⟨hdeps, ?_⟩, fun _ => hdeps⟩
      cases flag with
      | true => exact hflag.mp rfl
      | false =>
        rw [hval] at hv
        have h1 : failure cycleMessage = r := congrArg Prod.fst (Except.ok.inj hv)
        obtain ⟨_, a, b, c, d, hmsg⟩ := ht
        rw [← h1] at hmsg
        exact absurd hmsg (cycle_ne_time a b c d)
    · obtain ⟨p, hp⟩ := hunk hdeps
      rw [hp] at hv
      have h1 : failure (unknownMessage p.1 p.2) = r := congrArg Prod.fst (Except.ok.inj hv)
      constructor
      · rintro ⟨_, a, b, c, d, hmsg⟩
        rw [← h1] at hmsg
        exact absurd hmsg (unknown_ne_time _ _ a b c d)
      · rintro ⟨_, hmsg⟩
        rw [← h1] at hmsg
        exact absurd hmsg (unknown_ne_cycle _ _)
  · intro hno
    obtain ⟨p, hp⟩ := hunk hno
    exact ⟨_, _, hp, rfl, p.1, p.2, rfl⟩
  · intro hdeps hc
    obtain ⟨flag, T, hflag, _, hval⟩ := validate_known self keys hk hdeps
    cases flag with
    | true => exact absurd hc (hflag.mp rfl)
    | false => exact ⟨T, hval⟩

/-- Witness for C8 on two events that depend on each other. -/
theorem validate_precedence_witness :
    (∀ r topo, validateAndBuildGraph (prepared (newScheduler (1 / 2)) mutualCatalog) [1, 2] =
        Except.ok (r, topo) →
      (IsTimeError r → AllDepsExist (prepared (newScheduler (1 / 2)) mutualCatalog).events_ ∧
        ¬ HasCycle (prepared (newScheduler (1 / 2)) mutualCatalog).events_) ∧
      (IsCycleError r → AllDepsExist (prepared (newScheduler (1 / 2)) mutualCatalog).events_)) ∧
    (¬ AllDepsExist (prepared (newScheduler (1 / 2)) mutualCatalog).events_ →
      ∃ r topo, validateAndBuildGraph (prepared (newScheduler (1 / 2)) mutualCatalog) [1, 2] =
        Except.ok (r, topo) ∧ IsUnknownError r) ∧
    (AllDepsExist (prepared (newScheduler (1 / 2)) mutualCatalog).events_ →
      HasCycle (prepared (newScheduler (1 / 2)) mutualCatalog).events_ →
      ∃ topo, validateAndBuildGraph (prepared (newScheduler (1 / 2)) mutualCatalog) [1, 2] =
        Except.ok (failure cycleMessage, topo)) :=
  validate_precedence (prepared (newScheduler (1 / 2)) mutualCatalog) [1, 2]
    (by rw [prepared_events]; unfold IsKeyOrder; decide)

/-- C9 (topological order). For a catalog whose prerequisite ids all exist and for every
iteration order `keys` of the indegree map, the graph construction of
`validateAndBuildGraph` succeeds and `topoSort` returns; whenever it returns `true`, its
output has no repeated id, contains exactly the ids of the catalog, and places every
prerequisite id before every event id that depends on it. -/
theorem topoSort_topological_order (events : List Event) (keys : List Int)
    (hdeps : AllDepsExist events) (hk : IsKeyOrder events keys) :
    ∃ g, addAllDeps (allIds events) events (initGraph events) = Except.ok g ∧
      (∃ flag topo, topoSort g.adj g.indegree keys = Except.ok (flag, topo)) ∧
      ∀ topo, topoSort g.adj g.indegree keys = Except.ok (true, topo) →
        topo.Nodup ∧ (∀ k, k ∈ topo ↔ k ∈ allIds events) ∧
        ∀ e ∈ events, ∀ d ∈ e.deps, topo.indexOf d < topo.indexOf e.id := by
  obtain ⟨g, hg, rep⟩ := buildGraph_ok events hdeps
  obtain ⟨flag, T, hrun, _, hord⟩ := topoSort_events events keys hk hdeps g rep
  refine ⟨g, hg, ⟨flag, T, hrun⟩, ?_⟩
  intro topo htopo
  rw [hrun] at htopo
  have h1 := Except.ok.inj htopo
  have hflag : flag = true := congrArg Prod.fst h1
  have hT : T = topo := congrArg Prod.snd h1
  subst hT
  obtain ⟨hperm, hidx⟩ := hord hflag
  refine ⟨hperm.nodup_iff.mpr (keyOrder_nodup events keys hk), ?_, hidx⟩
  intro k
  rw [hperm.mem_iff]
  exact keyOrder_mem events keys hk k

/-- Witness for C9 on the predefined six-event catalog. -/
theorem topoSort_topological_order_witness :
    ∃ g, addAllDeps (allIds testCatalog) testCatalog (initGraph testCatalog) = Except.ok g ∧
      (∃ flag topo, topoSort g.adj g.indegree [1, 2, 3, 4, 5, 6] = Except.ok (flag, topo)) ∧
      ∀ topo, topoSort g.adj g.indegree [1, 2, 3, 4, 5, 6] = Except.ok (true, topo) →
        topo.Nodup ∧ (∀ k, k ∈ topo ↔ k ∈ allIds testCatalog) ∧
        ∀ e ∈ testCatalog, ∀ d ∈ e.deps, topo.indexOf d < topo.indexOf e.id :=
  topoSort_topological_order testCatalog [1, 2, 3, 4, 5, 6]
    (by unfold AllDepsExist; decide) (by unfold IsKeyOrder; decide)

/-- C10 (duplicate prerequisites): what the code does. Repeating the prerequisite of
event 2 in `dupCatalog` (`[1]` becomes `[1, 1]`; unique ids, both catalogs pass
validation) changes the result of `run` for every iteration order of the key map: the
score goes from 18 to 25 and the chosen events from event 3 to events 1 and 2. -/
theorem run_dupCatalog (keys : List Int) (hk : IsKeyOrder dupCatalog keys) :
    (allIds dupCatalog).Nodup ∧
    run (newScheduler (1 / 2)) keys dupCatalog Objective.ATTENDANCE = Except.ok dupResult ∧
    run (newScheduler (1 / 2)) keys dupCatalogRepeated Objective.ATTENDANCE =
      Except.ok dupRepeatedResult ∧
    dupResult.total_score = 18 ∧ dupRepeatedResult.total_score = 25 ∧
    dupResult.chosen_events.map (fun e => e.id) = [3] ∧
    dupRepeatedResult.chosen_events.map (fun e => e.id) = [1, 2] :=
  ⟨by decide,
    (dupCatalog_orders keys (keyOrder_permutations dupCatalog keys _ (by decide) hk)).1,
    (dupCatalog_orders keys (keyOrder_permutations dupCatalog keys _ (by decide) hk)).2,
    rfl, rfl, rfl, rfl⟩

/-- Witness for C10 with the keys in ascending order. -/
theorem run_dupCatalog_witness :
    (allIds dupCatalog).Nodup ∧
    run (newScheduler (1 / 2)) [1, 2, 3] dupCatalog Objective.ATTENDANCE =
      Except.ok dupResult ∧
    run (newScheduler (1 / 2)) [1, 2, 3] dupCatalogRepeated Objective.ATTENDANCE =
      Except.ok dupRepeatedResult ∧
    dupResult.total_score = 18 ∧ dupRepeatedResult.total_score = 25 ∧
    dupResult.chosen_events.map (fun e => e.id) = [3] ∧
    dupRepeatedResult.chosen_events.map (fun e => e.id) = [1, 2] :=
  run_dupCatalog [1, 2, 3] (by unfold IsKeyOrder; decide)

/-- C11 (venue query): what the code does. On the venue list of `chainCatalog`, sorted by
end time (ends 1, 3, 5): for event 3 (start 4) the search yields no candidate although
event 2 (end 3) is the rightmost element ending by 4, and for event 1 (start 0) it yields
event 3 (end 5) although no element ends by 0. -/
theorem venue_query_chain :
    chainVenue = [chainFirst, chainSecond, chainThird] ∧
    chainVenue.Pairwise (fun a b => a.end_ ≤ b.end_) ∧
    venueCandidate chainThird chainVenue = Except.ok none ∧
    rightmostCompatible chainThird.start chainVenue = some chainSecond ∧
    venueCandidate chainFirst chainVenue = Except.ok (some chainThird) ∧
    rightmostCompatible chainFirst.start chainVenue = none := by
  refine ⟨by decide, sortByEnd_sorted chainCatalog, ?_, ?_, ?_, ?_⟩ <;> decide!

/-- C12 (result ordering and deduplication). Whenever `run` succeeds, `chosen_events` is
sorted in non-decreasing order of end time and no event id occurs in it more than once,
however often an event is reached during reconstruction (uniqueness of the catalog ids is
not needed for this). -/
theorem chosen_sorted_nodup (self : DynamicScheduler) (keys : List Int) (events : List Event)
    (obj : Objective) (r : ScheduleResult)
    (hrun : run self keys events obj = Except.ok r) (hs : r.success = true) :
    r.chosen_events.Pairwise (fun a b => a.end_ ≤ b.end_) ∧
    (r.chosen_events.map (fun e => e.id)).Nodup := by
  by_cases hne : events = []
  · subst hne
    rw [run_eq] at hrun
    simp only [List.isEmpty_nil, if_true] at hrun
    rw [← Except.ok.inj hrun]
    exact ⟨List.Pairwise.nil, List.nodup_nil⟩
  · obtain ⟨_, _, topo, hplan⟩ := run_success self keys events obj r hne hrun hs
    simp only [planEventsWithDependencies] at hplan
    split at hplan
    · exact absurd hplan (by simp)
    · rename_i st _
      split at hplan
      · exact absurd hplan (by simp)
      · rename_i out hrec
        have hr : r.chosen_events = sortByEnd out.2 := by
          rw [← Except.ok.inj hplan]
        have hlook : ∀ (x : Int) (i : Nat) (ev : Event),
            (prepared self events).idToIdx_ x = some i →
            (prepared self events).events_[i]? = some ev → ev.id = x := by
          intro x i ev hi hget
          rw [prepared_events] at hget
          exact (lookup_id events x i ev hi hget).2
        obtain ⟨_, pushed, he, _, hd⟩ := reconstruct_fresh _ _ hlook _ _ _ _ hrec
        simp only [List.nil_append] at he
        rw [hr]
        refine ⟨sortByEnd_sorted _, ?_⟩
        have hperm : (sortByEnd out.2).Perm out.2 := List.perm_insertionSort _ _
        rw [(hperm.map _).nodup_iff, he]
        exact hd

/-- Witness for C12 on a catalog in which event 1 is a prerequisite of two chosen events. -/
theorem chosen_sorted_nodup_witness :
    sharedResult.chosen_events.Pairwise (fun a b => a.end_ ≤ b.end_) ∧
    (sharedResult.chosen_events.map (fun e => e.id)).Nodup :=
  chosen_sorted_nodup (newScheduler (1 / 2)) [1, 2, 3, 4] sharedCatalog Objective.ATTENDANCE
    sharedResult (by decide!) rfl

/-- C13 (empty catalog). For every scheduler state (every alpha), every key order and every
objective, `run` on the empty event list returns a record with `success = true`,
`total_score = 0` and no chosen events. -/
theorem run_empty (self : DynamicScheduler) (keys : List Int) (obj : Objective) :
    ∃ r, run self keys [] obj = Except.ok r ∧ r.success = true ∧ r.total_score = 0 ∧
      r.chosen_events = [] :=
  ⟨_, run_eq self keys [] obj, rfl, rfl, rfl⟩

/-- C14 (all-zero scores). For a catalog with unique ids that passes validation and in
which every event has weight 0 under the chosen objective, `run` returns `success = true`
with `total_score = 0` and no chosen events, for every iteration order of the key map. -/
theorem run_all_zero (self : DynamicScheduler) (keys : List Int) (events : List Event)
    (obj : Objective) (hnd : (allIds events).Nodup) (hpass : PassesValidation events)
    (hk : IsKeyOrder events keys)
    (hzero : ∀ e ∈ events, calculateWeight (prepared self events) e obj = 0) :
    ∃ r, run self keys events obj = Except.ok r ∧ r.success = true ∧ r.total_score = 0 ∧
      r.chosen_events = [] := by
  by_cases hne : events = []
  · subst hne
    exact ⟨_, run_eq self keys [] obj, rfl, rfl, rfl⟩
  · obtain ⟨hdeps, hacyc, htime⟩ := hpass
    obtain ⟨T, _, hrun⟩ := run_acyclic self keys events obj hne hnd hdeps hk hacyc
    rw [firstTimeViolation_none events htime] at hrun
    obtain ⟨r, hr⟩ := run_total self keys events obj hk
    rw [hrun] at hr
    refine ⟨r, by rw [hrun]; exact hr, ?_⟩
    simp only [planEventsWithDependencies] at hr
    split at hr
    · exact absurd hr (by simp)
    · rename_i st hst
      have hz : ZeroState st :=
        dpLoop_zero _ obj _ (by rw [prepared_events]; exact hzero) T _ st
          ⟨fun k v hkv => absurd hkv (by simp), rfl, rfl⟩ hst
      obtain ⟨_, hmax, hlast⟩ := hz
      rw [hlast] at hr
      simp only [reconstruct, true_or, if_true] at hr
      rw [← Except.ok.inj hr]
      exact ⟨rfl, hmax, rfl⟩

/-- Witness for C14 on a catalog whose attendance values are all zero. -/
theorem run_all_zero_witness :
    ∃ r, run (newScheduler (1 / 2)) [1, 2, 3] zeroCatalog Objective.ATTENDANCE = Except.ok r ∧
      r.success = true ∧ r.total_score = 0 ∧ r.chosen_events = [] :=
  run_all_zero (newScheduler (1 / 2)) [1, 2, 3] zeroCatalog Objective.ATTENDANCE (by decide)
    ⟨by unfold AllDepsExist; decide, zeroCatalog_acyclic, by decide⟩
    (by unfold IsKeyOrder; decide) (by decide)

/-- C15 (failure means no schedule). For every catalog, key order and objective, whenever
`run` returns a record with `success = false`, that record has `total_score = 0`, no chosen
events and a non-empty error message. -/
theorem run_failure_record (self : DynamicScheduler) (keys : List Int) (events : List Event)
    (obj : Objective) (r : ScheduleResult) (hrun : run self keys events obj = Except.ok r)
    (hs : r.success = false) :
    r.total_score = 0 ∧ r.chosen_events = [] ∧ r.error_message ≠ "" := by
  by_cases hne : events = []
  · subst hne
    rw [run_eq] at hrun
    simp only [List.isEmpty_nil, if_true] at hrun
    rw [← Except.ok.inj hrun] at hs
    exact absurd hs (by simp)
  · rw [run_eq, isEmpty_false events hne] at hrun
    simp only [Bool.false_eq_true, if_false] at hrun
    split at hrun
    · exact absurd hrun (by simp)
    · rename_i vr topo hv
      by_cases hvs : vr.success = true
      · simp only [hvs, Bool.not_true, Bool.false_eq_true, if_false] at hrun
        have := (plan_success _ _ _ _ hrun).1
        rw [hs] at this
        exact absurd this (by simp)
      · have hvf : vr.success = false := by simpa using hvs
        simp only [hvf, Bool.not_false, if_true] at hrun
        obtain ⟨msg, hmsg, hne1⟩ := validate_failure _ keys vr topo hv hvf
        rw [← Except.ok.inj hrun, hmsg]
        exact ⟨rfl, rfl, hne1⟩

/-- Witness for C15 on two events that depend on each other. -/
theorem run_failure_record_witness :
    (failure cycleMessage).total_score = 0 ∧ (failure cycleMessage).chosen_events = [] ∧
      (failure cycleMessage).error_message ≠ "" :=
  run_failure_record (newScheduler (1 / 2)) [1, 2] mutualCatalog Objective.ATTENDANCE
    (failure cycleMessage) (by decide!) rfl

/-- C16 (hybrid weight formula), amended. For every catalog whose attendance and revenue
values are non-negative `long long` values, every event `e` of it and every `alpha` with
`0 <= alpha <= 1`, after `calculateNormalizationBounds` has run on the catalog, the hybrid
weight that `calculateWeight` computes in double arithmetic differs by at most 1 from
`(alpha * attendance / M_A + (1 - alpha) * revenue / M_R) * 1000000` truncated toward zero,
with `M_A = max(1, maximum attendance)` and `M_R = max(1, maximum revenue)` of the catalog
and the formula in exact rational arithmetic; the same holds for the state with which `run`
calls the optimiser, and both computed bounds are at least 1, so no division by zero
occurs. -/
theorem hybrid_weight_formula (self : DynamicScheduler) (events : List Event) (e : Event)
    (he : e ∈ events) (halpha : 0 ≤ self.alpha_ ∧ self.alpha_ ≤ 1)
    (hval : ∀ x ∈ events, (0 ≤ x.attendance ∧ x.attendance ≤ maxLL) ∧
      (0 ≤ x.revenue ∧ x.revenue ≤ maxLL)) :
    |Machine.calculateWeight (Machine.calculateNormalizationBounds self events) e
        Objective.HYBRID -
      specHybrid self.alpha_ (specBound (events.map (fun x => x.attendance)))
        (specBound (events.map (fun x => x.revenue))) e| ≤ 1 ∧
    |Machine.calculateWeight (Machine.prepared self events) e Objective.HYBRID -
      specHybrid self.alpha_ (specBound (events.map (fun x => x.attendance)))
        (specBound (events.map (fun x => x.revenue))) e| ≤ 1 ∧
    1 ≤ (Machine.calculateNormalizationBounds self events).maxAtt_ ∧
    1 ≤ (Machine.calculateNormalizationBounds self events).maxRev_ := by
  have hA := specBound_pos (events.map (fun x => x.attendance))
  have hR := specBound_pos (events.map (fun x => x.revenue))
  obtain ⟨h0, ⟨a1, a2, a3, a4⟩, ⟨r1, r2, r3, r4⟩⟩ := machine_bounds_spec self events hval
  obtain ⟨c0, ⟨b1, b2, _, _⟩, ⟨q1, q2, _, _⟩⟩ :=
    machine_bounds_spec { self with events_ := events } events hval
  refine ⟨?_, ?_, a3, r3⟩
  · have h := machine_hybrid_close (Machine.calculateNormalizationBounds self events) e _ _
      hA a1 a2 hR r1 r2 (hval e he).1 (a4 e he) (hval e he).2 (r4 e he)
      (by rw [h0]; exact halpha.1) (by rw [h0]; exact halpha.2)
    rw [h0] at h
    exact h
  · have hp1 : (Machine.prepared self events).maxAtt_ =
        (Machine.calculateNormalizationBounds { self with events_ := events } events).maxAtt_ :=
      rfl
    have hp2 : (Machine.prepared self events).maxRev_ =
        (Machine.calculateNormalizationBounds { self with events_ := events } events).maxRev_ :=
      rfl
    have hp3 : (Machine.prepared self events).alpha_ = self.alpha_ := c0
    have h := machine_hybrid_close (Machine.prepared self events) e _ _
      hA (by rw [hp1]; exact b1) (by rw [hp1]; exact b2) hR (by rw [hp2]; exact q1)
      (by rw [hp2]; exact q2) (hval e he).1 (a4 e he) (hval e he).2 (r4 e he)
      (by rw [hp3]; exact halpha.1) (by rw [hp3]; exact halpha.2)
    rw [hp3] at h
    exact h

/-- Witness for C16: event 1 of `roundingCatalog` (attendance and revenue 41 of 80) at
`alpha = 1/2`. -/
theorem hybrid_weight_formula_witness :
    |Machine.calculateWeight
        (Machine.calculateNormalizationBounds (newScheduler (1 / 2)) roundingCatalog)
        roundingFirst Objective.HYBRID -
      specHybrid (newScheduler (1 / 2)).alpha_
        (specBound (roundingCatalog.map (fun x => x.attendance)))
        (specBound (roundingCatalog.map (fun x => x.revenue))) roundingFirst| ≤ 1 ∧
    |Machine.calculateWeight (Machine.prepared (newScheduler (1 / 2)) roundingCatalog)
        roundingFirst Objective.HYBRID -
      specHybrid (newScheduler (1 / 2)).alpha_
        (specBound (roundingCatalog.map (fun x => x.attendance)))
        (specBound (roundingCatalog.map (fun x => x.revenue))) roundingFirst| ≤ 1 ∧
    1 ≤ (Machine.calculateNormalizationBounds (newScheduler (1 / 2)) roundingCatalog).maxAtt_ ∧
    1 ≤ (Machine.calculateNormalizationBounds (newScheduler (1 / 2)) roundingCatalog).maxRev_ :=
  hybrid_weight_formula (newScheduler (1 / 2)) roundingCatalog roundingFirst (by decide)
    (by decide!) (by decide)

/-- C16 as stated fails in double arithmetic. For attendance and revenue 41 of 80 at
`alpha = 0.5` the quotient `41 / 80` is rounded down to a double, and `calculateWeight`
returns 512499 where the formula gives 512500. For attendance 17 of 45 and revenue 7 of 7
at the double nearest to `0.9` it returns 440000 where the formula gives 439999. For the
attendance `-10 ^ 13` at `alpha = 1` the formula gives `-10 ^ 19`, which is no `long long`
value. -/
theorem hybrid_weight_formula_counterexample :
    (Machine.calculateWeight
        (Machine.calculateNormalizationBounds (newScheduler (1 / 2)) roundingCatalog)
        roundingFirst Objective.HYBRID = 512499 ∧
      specHybrid (1 / 2) (specBound (roundingCatalog.map (fun x => x.attendance)))
        (specBound (roundingCatalog.map (fun x => x.revenue))) roundingFirst = 512500) ∧
    (Machine.calculateWeight
        (Machine.calculateNormalizationBounds (newScheduler nearestNineTenths)
          roundingUpCatalog)
        roundingUpFirst Objective.HYBRID = 440000 ∧
      specHybrid nearestNineTenths
        (specBound (roundingUpCatalog.map (fun x => x.attendance)))
        (specBound (roundingUpCatalog.map (fun x => x.revenue))) roundingUpFirst = 439999) ∧
    (specHybrid 1 (specBound ([negativeEvent].map (fun x => x.attendance)))
        (specBound ([negativeEvent].map (fun x => x.revenue))) negativeEvent =
        -10000000000000000000 ∧
      -10000000000000000000 < -maxLL - 1) := by
  refine ⟨⟨by decide!, by decide!⟩, ⟨by decide!, by decide!⟩, ⟨by decide!, by decide⟩⟩

/-- C18 (attendance and revenue weights). The attendance weight of an event is its
attendance and the revenue weight its revenue, whatever the scheduler state (alpha and
bounds); so under these two objectives `run` returns the same outcome for any two
scheduler states. -/
theorem attendance_revenue_weights (self other : DynamicScheduler) (keys : List Int)
    (events : List Event) (e : Event) :
    calculateWeight self e Objective.ATTENDANCE = e.attendance ∧
    calculateWeight self e Objective.REVENUE = e.revenue ∧
    run self keys events Objective.ATTENDANCE = run other keys events Objective.ATTENDANCE ∧
    run self keys events Objective.REVENUE = run other keys events Objective.REVENUE :=
  ⟨rfl, rfl, run_congr self other keys events _ (fun _ => rfl),
    run_congr self other keys events _ (fun _ => rfl)⟩

/-- C19 (no cross-invocation state). Two scheduler objects with the same alpha, whatever
their leftover bounds, catalog pointer and index map, return the same outcome of `run`
(success flag, score, chosen events in the same order) on the same catalog, objective and
key order. -/
theorem run_state_independent (s1 s2 : DynamicScheduler) (keys : List Int)
    (events : List Event) (obj : Objective) (h : s1.alpha_ = s2.alpha_) :
    run s1 keys events obj = run s2 keys events obj := by
  have hp : prepared s1 events = prepared s2 events := by
    rw [prepared_eq, prepared_eq, h]
  rw [run_eq, run_eq, hp]

/-- Witness for C19: a fresh scheduler and one with leftover state, both with alpha 1/2,
under the hybrid objective. -/
theorem run_state_independent_witness :
    run (newScheduler (1 / 2)) [1, 2, 3, 4, 5, 6] testCatalog Objective.HYBRID =
      run staleScheduler [1, 2, 3, 4, 5, 6] testCatalog Objective.HYBRID :=
  run_state_independent (newScheduler (1 / 2)) staleScheduler [1, 2, 3, 4, 5, 6] testCatalog
    Objective.HYBRID rfl

/-- C20 (agreement of the two engines): what the code does. On `depChainCatalog` (unique
ids, passes validation) under the attendance objective, for every topological order, the
optimiser of `complete.cpp` returns the score 30 and the optimiser of `withDep.cpp` the
score 70. -/
theorem engines_disagree (topo : List Int) (h : isTopoOrder depChainCatalog topo = true) :
    planEventsWithDependencies (prepared (newScheduler (1 / 2)) depChainCatalog)
      Objective.ATTENDANCE topo = Except.ok depChainResult ∧
    depChainResult.total_score = 30 ∧
    WithDep.planEventsWithDependencies depChainGlobals depChainCatalog Objective.ATTENDANCE
      (fillIdToIdx depChainCatalog 0 (fun _ => none)) topo = Except.ok (70, [1, 2, 3]) := by
  have hperm : topo.Perm [1, 2, 3] := by
    have h1 : decide (topo.Perm (allIds depChainCatalog).dedup) = true := by
      unfold isTopoOrder at h
      exact (Bool.and_eq_true _ _ ▸ h).1
    have h2 : (allIds depChainCatalog).dedup = [1, 2, 3] := by decide
    rw [h2] at h1
    exact of_decide_eq_true h1
  obtain ⟨h1, h2⟩ := depChain_plans topo (List.mem_permutations.mpr hperm) h
  exact ⟨h1, rfl, h2⟩

/-- Witness for C20 with the topological order `[1, 2, 3]`. -/
theorem engines_disagree_witness :
    planEventsWithDependencies (prepared (newScheduler (1 / 2)) depChainCatalog)
      Objective.ATTENDANCE [1, 2, 3] = Except.ok depChainResult ∧
    depChainResult.total_score = 30 ∧
    WithDep.planEventsWithDependencies depChainGlobals depChainCatalog Objective.ATTENDANCE
      (fillIdToIdx depChainCatalog 0 (fun _ => none)) [1, 2, 3] = Except.ok (70, [1, 2, 3]) :=
  engines_disagree [1, 2, 3] (by decide)

/-- C21 (linear-scan venue parent), amended. When `withDep.cpp` processes an event `cur`,
the step returns and records a parent `p` that is `-1` or the id of a catalog event of the
venue of `cur` ending by `cur.start`, holding a DP value that is maximal among the DP values
of all such events; and when no event of that venue has the id `-1`, `p` is `-1` exactly
when no such event has a strictly positive DP value. -/
theorem scan_parent (g : WithDep.Globals) (events : List Event) (obj : Objective)
    (IdtoIdx : Int → Option Nat) (st : WithDep.DPState) (eventId : Int) (i : Nat)
    (cur : Event) (hi : IdtoIdx eventId = some i) (hget : events[i]? = some cur) :
    ∃ st1 p, WithDep.dpStep g events obj IdtoIdx (eventsByVenue events) st eventId =
        Except.ok st1 ∧ st1.parent eventId = some p ∧
      (p = -1 ∨ ∃ prev ∈ events, prev.venue = cur.venue ∧ prev.id = p ∧
        prev.end_ ≤ cur.start ∧ ∃ v, st.dp p = some v ∧
          ∀ x ∈ events, x.venue = cur.venue → x.end_ ≤ cur.start →
            ∀ u, st.dp x.id = some u → u ≤ v) ∧
      ((∀ x ∈ events, x.venue = cur.venue → x.id ≠ -1) →
        (p = -1 ↔ ∀ x ∈ events, x.venue = cur.venue → x.end_ ≤ cur.start →
          ∀ u, st.dp x.id = some u → u ≤ 0)) := by
  have hcur : cur ∈ events := List.getElem?_mem hget
  obtain ⟨l, hl, hmem⟩ := eventsByVenue_mem events cur hcur
  obtain ⟨st1, hstep, hpar⟩ := withDep_step_parent g events obj IdtoIdx st eventId i cur l
    hi hget hl
  obtain ⟨h1, h2, h3⟩ := scanVenue_spec st.dp cur.start l (0, -1)
  refine ⟨st1, _, hstep, hpar, ?_, ?_⟩
  · rcases h3 with h3 | ⟨x, hx, hid, hxe, hdx, _⟩
    · left
      rw [h3]
    · right
      refine ⟨x, ((hmem x).mp hx).1, ((hmem x).mp hx).2, hid, hxe, _, hid ▸ hdx, ?_⟩
      intro y hy hyv hye u hu
      exact h2 y ((hmem y).mpr ⟨hy, hyv⟩) hye u hu
  · intro hno
    constructor
    · intro hp y hy hyv hye u hu
      rcases h3 with h3 | ⟨x, hx, hid, _, _, _⟩
      · have := h2 y ((hmem y).mpr ⟨hy, hyv⟩) hye u hu
        rw [h3] at this
        exact this
      · exact absurd (hid.trans hp) (hno x ((hmem x).mp hx).1 ((hmem x).mp hx).2)
    · intro hall
      rcases h3 with h3 | ⟨x, hx, _, hxe, hdx, hlt⟩
      · rw [h3]
      · have := hall x ((hmem x).mp hx).1 ((hmem x).mp hx).2 hxe _ hdx
        simp only at hlt
        omega

/-- Witness for C21: event 2 of `depChainCatalog` once event 1 holds the DP value 10. -/
theorem scan_parent_witness :
    ∃ st1 p, WithDep.dpStep depChainGlobals depChainCatalog Objective.ATTENDANCE
        (fillIdToIdx depChainCatalog 0 (fun _ => none)) (eventsByVenue depChainCatalog)
        depChainState 2 = Except.ok st1 ∧ st1.parent 2 = some p ∧
      (p = -1 ∨ ∃ prev ∈ depChainCatalog, prev.venue = depChainSecond.venue ∧ prev.id = p ∧
        prev.end_ ≤ depChainSecond.start ∧ ∃ v, depChainState.dp p = some v ∧
          ∀ x ∈ depChainCatalog, x.venue = depChainSecond.venue →
            x.end_ ≤ depChainSecond.start →
            ∀ u, depChainState.dp x.id = some u → u ≤ v) ∧
      ((∀ x ∈ depChainCatalog, x.venue = depChainSecond.venue → x.id ≠ -1) →
        (p = -1 ↔ ∀ x ∈ depChainCatalog, x.venue = depChainSecond.venue →
          x.end_ ≤ depChainSecond.start →
          ∀ u, depChainState.dp x.id = some u → u ≤ 0)) :=
  scan_parent depChainGlobals depChainCatalog Objective.ATTENDANCE
    (fillIdToIdx depChainCatalog 0 (fun _ => none)) depChainState 2 1 depChainSecond
    (by decide) (by decide)

/-- C21 as stated fails on `sentinelVenueCatalog`: once the event with id `-1` (venue A,
end 1) holds the DP value 5, the step for event 2 (venue A, start 1) records the parent
`-1` although an event of its venue ending by its start has a strictly positive DP value. -/
theorem scan_parent_counterexample :
    ∃ st0 st1,
      WithDep.dpLoop depChainGlobals sentinelVenueCatalog Objective.ATTENDANCE
        (fillIdToIdx sentinelVenueCatalog 0 (fun _ => none))
        (eventsByVenue sentinelVenueCatalog) [-1]
        { dp := fun _ => none, parent := fun _ => none, maxScore := 0, lastEventId := -1 } =
          Except.ok st0 ∧
      WithDep.dpStep depChainGlobals sentinelVenueCatalog Objective.ATTENDANCE
        (fillIdToIdx sentinelVenueCatalog 0 (fun _ => none))
        (eventsByVenue sentinelVenueCatalog) st0 2 = Except.ok st1 ∧
      st1.parent 2 = some (-1) ∧
      ¬ (∀ x ∈ sentinelVenueCatalog, x.venue = "A" → x.end_ ≤ 1 →
          ∀ u, st0.dp x.id = some u → u ≤ 0) := by
  refine ⟨_, _, rfl, rfl, rfl, ?_⟩
  intro h
  have := h { id := -1, start := 0, end_ := 1, attendance := 5, revenue := 5, venue := "A",
              deps := [] } (by decide) rfl (by decide) 5 rfl
  omega

/-- C22 (single-venue optimality of the dependency-free engine), amended. For every catalog
in which all events have the same venue, no weight is negative, every event has
`start <= end` and the maximum, over all subsets of pairwise non-overlapping events, of the
sum of their weights is at most the largest `long long`, and for the objective Attendance
or Revenue, the compiled `planEvents` returns a score equal to that maximum; on the
predefined five-event test case under Attendance it returns 400 with the events
1, 3, 5. -/
theorem single_venue_optimal (g : WithoutDep.Globals) (events : List Event) (obj : Objective)
    (hobj : obj = Objective.ATTENDANCE ∨ obj = Objective.REVENUE)
    (hv : ∀ a ∈ events, ∀ b ∈ events, a.venue = b.venue)
    (hw : ∀ e ∈ events, 0 ≤ WithoutDep.weight g e obj)
    (hse : ∀ e ∈ events, e.start ≤ e.end_)
    (hmax : maxDisjointScore (fun e => WithoutDep.weight g e obj) events ≤ maxLL) :
    (∃ score ids, WithoutDep.Machine.planEvents g events obj = Except.ok (score, ids) ∧
      score = maxDisjointScore (fun e => WithoutDep.weight g e obj) events) ∧
    WithoutDep.Machine.planEvents WithoutDep.testGlobals WithoutDep.testCase
      Objective.ATTENDANCE = Except.ok (400, [1, 3, 5]) := by
  refine ⟨?_, by decide!⟩
  have hfit : ∀ o, o = obj → ∀ score ids,
      WithoutDep.planEvents g events o = Except.ok (score, ids) → score ≤ maxLL := by
    intro o ho score ids h
    subst ho
    obtain ⟨score1, ids1, h1, h2⟩ := planEvents_optimal g events o hv hw hse
    rw [h1] at h
    rw [← (Prod.mk.inj (Except.ok.inj h)).1, h2]
    exact hmax
  rcases hobj with rfl | rfl
  · rw [planEvents_machine g events Objective.ATTENDANCE hw (hfit _ rfl)]
    exact planEvents_optimal g events Objective.ATTENDANCE hv hw hse
  · rw [planEvents_machine g events Objective.REVENUE hw (hfit _ rfl)]
    exact planEvents_optimal g events Objective.REVENUE hv hw hse

/-- Witness for C22 on the predefined test case under the attendance objective. -/
theorem single_venue_optimal_witness :
    (∃ score ids, WithoutDep.Machine.planEvents WithoutDep.testGlobals WithoutDep.testCase
        Objective.ATTENDANCE = Except.ok (score, ids) ∧
      score = maxDisjointScore
        (fun e => WithoutDep.weight WithoutDep.testGlobals e Objective.ATTENDANCE)
        WithoutDep.testCase) ∧
    WithoutDep.Machine.planEvents WithoutDep.testGlobals WithoutDep.testCase
      Objective.ATTENDANCE = Except.ok (400, [1, 3, 5]) :=
  single_venue_optimal WithoutDep.testGlobals WithoutDep.testCase Objective.ATTENDANCE
    (Or.inl rfl) (by decide) (by decide) (by decide) (by decide!)

/-- C22 as stated fails in two ways. On `invertedCatalog` (one venue, weights 10 and 10)
event 2 ends at 5, before event 1 starts at 10, so the two events do not overlap and the
maximum is 20, but `planEvents` returns 10. On `heavyCatalog` (one venue, two consecutive
events of weight `2 ^ 62`, every event with `start <= end`) the maximum is `2 ^ 63`, which
no `long long` holds: the sum wraps to a negative value and `planEvents` returns
`2 ^ 62`. -/
theorem single_venue_optimal_counterexample :
    ((∀ a ∈ invertedCatalog, ∀ b ∈ invertedCatalog, a.venue = b.venue) ∧
      (∀ e ∈ invertedCatalog,
        0 ≤ WithoutDep.weight WithoutDep.testGlobals e Objective.ATTENDANCE) ∧
      WithoutDep.Machine.planEvents WithoutDep.testGlobals invertedCatalog
        Objective.ATTENDANCE = Except.ok (10, [1]) ∧
      maxDisjointScore
        (fun e => WithoutDep.weight WithoutDep.testGlobals e Objective.ATTENDANCE)
        invertedCatalog = 20) ∧
    ((∀ a ∈ heavyCatalog, ∀ b ∈ heavyCatalog, a.venue = b.venue) ∧
      (∀ e ∈ heavyCatalog,
        0 ≤ WithoutDep.weight WithoutDep.testGlobals e Objective.ATTENDANCE) ∧
      (∀ e ∈ heavyCatalog, e.start ≤ e.end_) ∧
      WithoutDep.Machine.planEvents WithoutDep.testGlobals heavyCatalog
        Objective.ATTENDANCE = Except.ok (4611686018427387904, [1]) ∧
      maxDisjointScore
        (fun e => WithoutDep.weight WithoutDep.testGlobals e Objective.ATTENDANCE)
        heavyCatalog = 9223372036854775808) := by
  refine ⟨⟨by decide, by decide, by decide!, by decide!⟩,
    ⟨by decide, by decide, by decide, by decide!, by decide!⟩⟩

/-- C23 (hybrid weight of the dependency-free engine): what the code does. The hybrid
weight of `withoutDep.cpp` is always a multiple of 1000000; for event 1 of its predefined
test case (attendance 100 of 200, revenue 200 of 300) at alpha 1/2 it is 0, while the stated
formula and `calculateWeight` of `complete.cpp` with the same alpha and bounds give 583333. -/
theorem withoutDep_hybrid_weight :
    (∀ (g : WithoutDep.Globals) (e : Event),
      ∃ k : Int, WithoutDep.weight g e Objective.HYBRID = k * 1000000) ∧
    testCaseFirst ∈ WithoutDep.testCase ∧
    WithoutDep.weight WithoutDep.testGlobals testCaseFirst Objective.HYBRID = 0 ∧
    specHybrid (1 / 2) 200 300 testCaseFirst = 583333 ∧
    calculateWeight testCaseScheduler testCaseFirst Objective.HYBRID = 583333 ∧
    calculateWeight (prepared (newScheduler (1 / 2)) WithoutDep.testCase) testCaseFirst
      Objective.HYBRID = 583333 := by
  refine ⟨?_, by decide, by decide!, by decide!, by decide!, by decide!⟩
  intro g e
  refine ⟨truncToInt (g.alpha_global * ((truncToInt ((e.attendance : ℚ) / g.maxAtt) : Int) : ℚ) +
    (1 - g.alpha_global) * ((truncToInt ((e.revenue : ℚ) / g.maxRev) : Int) : ℚ)), ?_⟩
  simp only [WithoutDep.weight]
  have h := truncToInt_intCast (truncToInt (g.alpha_global *
    ((truncToInt ((e.attendance : ℚ) / g.maxAtt) : Int) : ℚ) +
    (1 - g.alpha_global) * ((truncToInt ((e.revenue : ℚ) / g.maxRev) : Int) : ℚ)) * 1000000)
  push_cast at h
  exact h

/-- C24 (reported score and chosen events): what the code does. On `sharedCatalog` (unique
ids, passes validation; event 1 is a prerequisite of the chosen events 2 and 3) under the
attendance objective, for every iteration order of the key map, `run` reports the score 25
while the weights of the four chosen events add up to 20. -/
theorem run_sharedCatalog (keys : List Int) (hk : IsKeyOrder sharedCatalog keys) :
    (allIds sharedCatalog).Nodup ∧
    run (newScheduler (1 / 2)) keys sharedCatalog Objective.ATTENDANCE =
      Except.ok sharedResult ∧
    sharedResult.success = true ∧ sharedResult.total_score = 25 ∧
    (sharedResult.chosen_events.map (fun e =>
      calculateWeight (prepared (newScheduler (1 / 2)) sharedCatalog) e
        Objective.ATTENDANCE)).sum = 20 :=
  ⟨by decide,
    sharedCatalog_orders keys (keyOrder_permutations sharedCatalog keys _ (by decide) hk),
    rfl, rfl, by decide⟩

/-- Witness for C24 with the keys in ascending order. -/
theorem run_sharedCatalog_witness :
    (allIds sharedCatalog).Nodup ∧
    run (newScheduler (1 / 2)) [1, 2, 3, 4] sharedCatalog Objective.ATTENDANCE =
      Except.ok sharedResult ∧
    sharedResult.success = true ∧ sharedResult.total_score = 25 ∧
    (sharedResult.chosen_events.map (fun e =>
      calculateWeight (prepared (newScheduler (1 / 2)) sharedCatalog) e
        Objective.ATTENDANCE)).sum = 20 :=
  run_sharedCatalog [1, 2, 3, 4] (by unfold IsKeyOrder; decide)

/-- C25 (lookup safety). For every catalog, with unique ids or not, every objective and
every iteration order of the key map, `run` returns a record: none of the keyed lookups and
vector accesses of the embedding (each of which reports `Fault.outOfRange` on a missing key
or index) fails, and no loop runs out of fuel. -/
theorem run_lookups_safe (self : DynamicScheduler) (keys : List Int) (events : List Event)
    (obj : Objective) (hk : IsKeyOrder events keys) :
    run self keys events obj ≠ Except.error Fault.outOfRange ∧
    run self keys events obj ≠ Except.error Fault.outOfFuel ∧
    ∃ r, run self keys events obj = Except.ok r := by
  obtain ⟨r, hr⟩ := run_total self keys events obj hk
  rw [hr]
  exact ⟨by simp, by simp, r, rfl⟩

/-- Witness for C25 on a catalog with a repeated id. -/
theorem run_lookups_safe_witness :
    run (newScheduler (1 / 2)) [1, 2] twinCatalog Objective.ATTENDANCE ≠
      Except.error Fault.outOfRange ∧
    run (newScheduler (1 / 2)) [1, 2] twinCatalog Objective.ATTENDANCE ≠
      Except.error Fault.outOfFuel ∧
    ∃ r, run (newScheduler (1 / 2)) [1, 2] twinCatalog Objective.ATTENDANCE = Except.ok r :=
  run_lookups_safe (newScheduler (1 / 2)) [1, 2] twinCatalog Objective.ATTENDANCE
    (by unfold IsKeyOrder; decide)

/-- C26 (schedule of the dependency-free engine is conflict free). For every catalog with
unique ids, any venues and weights and every objective, `planEvents` returns, and any two
different catalog events whose ids are among the returned ids do not overlap in time (one
ends at or before the other starts); hence they do not conflict in a venue. -/
theorem planEvents_disjoint (g : WithoutDep.Globals) (events : List Event) (obj : Objective)
    (hnd : (allIds events).Nodup) :
    ∃ score ids, WithoutDep.planEvents g events obj = Except.ok (score, ids) ∧
      ∀ a ∈ events, ∀ b ∈ events, a.id ∈ ids → b.id ∈ ids → a ≠ b →
        disjointInTime a b ∧ conflicts a b = false := by
  obtain ⟨score, c, hplan, hsub, _, hpw⟩ := planEvents_spec g obj events
  refine ⟨score, _, hplan, ?_⟩
  intro a ha b hb haid hbid hab
  have hperm := chosen_filter_perm events c hnd hsub
  have hac : a ∈ c := hperm.mem_iff.mp (List.mem_filter.mpr ⟨ha, decide_eq_true haid⟩)
  have hbc : b ∈ c := hperm.mem_iff.mp (List.mem_filter.mpr ⟨hb, decide_eq_true hbid⟩)
  have hd : disjointInTime a b :=
    (pairwise_disjoint_of_ordered c hpw).forall (fun _ _ h => disjointInTime_symm h)
      hac hbc hab
  exact ⟨hd, disjoint_not_conflicts a b hd⟩

/-- Witness for C26 on the predefined test case of `withoutDep.cpp`. -/
theorem planEvents_disjoint_witness :
    ∃ score ids, WithoutDep.planEvents WithoutDep.testGlobals WithoutDep.testCase
        Objective.ATTENDANCE = Except.ok (score, ids) ∧
      ∀ a ∈ WithoutDep.testCase, ∀ b ∈ WithoutDep.testCase, a.id ∈ ids → b.id ∈ ids →
        a ≠ b → disjointInTime a b ∧ conflicts a b = false :=
  planEvents_disjoint WithoutDep.testGlobals WithoutDep.testCase Objective.ATTENDANCE
    (by decide)

/-- C28 (lower bound by the best single event), amended. For a catalog with unique ids that
passes validation, has no negative weight under the chosen objective, and whose total score
computed with exact sums (`Machine.run id`) is at most the largest `long long`: after the
DP loop of the compiled program (`wrapLL` on every addition) over the validated order every
DP value is at least the weight of its own event, and `run` returns a success whose
`total_score` is at least the weight of every event of the catalog, for every iteration
order of the key map. -/
theorem score_lower_bound (self : DynamicScheduler) (keys : List Int) (events : List Event)
    (obj : Objective) (hnd : (allIds events).Nodup) (hpass : PassesValidation events)
    (hk : IsKeyOrder events keys)
    (hw : ∀ e ∈ events, 0 ≤ Machine.calculateWeight (Machine.prepared self events) e obj)
    (hfit : ∀ r, Machine.run id self keys events obj = Except.ok r → r.total_score ≤ maxLL) :
    (∀ vr topo st,
      validateAndBuildGraph (Machine.prepared self events) keys = Except.ok (vr, topo) →
      Machine.dpLoop wrapLL (Machine.prepared self events) obj (eventsByVenue events) topo
        { dp := fun _ => none, parent := fun _ => none, maxTotalScore := 0,
          lastEventId := -1 } = Except.ok st →
      ∀ e ∈ events, ∀ v, st.dp e.id = some v →
        Machine.calculateWeight (Machine.prepared self events) e obj ≤ v) ∧
    ∃ r, Machine.run wrapLL self keys events obj = Except.ok r ∧ r.success = true ∧
      ∀ e ∈ events,
        Machine.calculateWeight (Machine.prepared self events) e obj ≤ r.total_score := by
  by_cases hne : events = []
  · subst hne
    exact ⟨fun _ _ _ _ _ e he => absurd he (List.not_mem_nil e),
      _, rfl, rfl, fun e he => absurd he (List.not_mem_nil e)⟩
  · have hev := machine_prepared_events self events
    have hw1 : ∀ e ∈ (Machine.prepared self events).events_,
        0 ≤ Machine.calculateWeight (Machine.prepared self events) e obj := by
      rw [hev]; exact hw
    have hinit : Machine.LowerState (Machine.prepared self events) obj
        { dp := fun _ => none, parent := fun _ => none, maxTotalScore := 0,
          lastEventId := -1 } :=
      ⟨le_refl _, fun k v hkv => absurd hkv (by simp)⟩
    obtain ⟨T, hperm, hval⟩ := validate_passes self keys events hnd hpass hk
    rw [← machine_validate] at hval
    have hT : ∀ k ∈ T, k ∈ allIds events :=
      fun k hkT => (keyOrder_mem events keys hk k).mp (hperm.mem_iff.mp hkT)
    obtain ⟨st0, r0, hst0, hr0, htot0, _⟩ := machine_plan_total id
      (Machine.prepared self events) events obj hev (machine_prepared_idToIdx self events)
      hpass.1 T hT
    have hrun : ∀ norm, Machine.run norm self keys events obj =
        Machine.planEventsWithDependencies norm (Machine.prepared self events) obj T := by
      intro norm
      simp only [Machine.run, isEmpty_false events hne, hval]
      rfl
    obtain ⟨hlow, hall, _, _, hag⟩ := machine_dpLoop_lower _ obj _ hw1 T _ st0 hinit hst0
    have hmax : st0.maxTotalScore ≤ maxLL := by
      rw [← htot0]
      exact hfit r0 (by rw [hrun]; exact hr0)
    have hst : Machine.dpLoop wrapLL (Machine.prepared self events) obj
        (eventsByVenue events) T
        { dp := fun _ => none, parent := fun _ => none, maxTotalScore := 0,
          lastEventId := -1 } = Except.ok st0 := hag hmax
    have hown : ∀ e ∈ events, ∀ v, st0.dp e.id = some v →
        Machine.calculateWeight (Machine.prepared self events) e obj ≤ v := by
      intro e he v hv
      obtain ⟨i, hi, hget⟩ := lookup_unique events hnd e he
      exact (hlow.2 e.id v hv).2.2 i e (by rw [machine_prepared_idToIdx]; exact hi)
        (by rw [hev]; exact hget)
    constructor
    · intro vr topo st hv hloop
      rw [hval] at hv
      have htopo : T = topo := (Prod.mk.inj (Except.ok.inj hv)).2
      subst htopo
      rw [hst] at hloop
      have := Except.ok.inj hloop
      subst this
      exact hown
    · obtain ⟨st1, r1, hst1, hr1, htot1, hsucc⟩ := machine_plan_total wrapLL
        (Machine.prepared self events) events obj hev (machine_prepared_idToIdx self events)
        hpass.1 T hT
      rw [hst] at hst1
      have := Except.ok.inj hst1
      subst this
      refine ⟨r1, by rw [hrun]; exact hr1, hsucc, ?_⟩
      intro e he
      have hid : e.id ∈ T :=
        hperm.mem_iff.mpr ((keyOrder_mem events keys hk e.id).mpr
          (List.mem_map_of_mem (fun x => x.id) he))
      obtain ⟨v, hv⟩ := hall e.id hid
      rw [htot1]
      exact le_trans (hown e he v hv) (hlow.2 e.id v hv).2.1

/-- Witness for C28 on `zeroCatalog` under the revenue objective (weights 3, 4, 5, exact
total score 15). -/
theorem score_lower_bound_witness :
    (∀ vr topo st,
      validateAndBuildGraph (Machine.prepared (newScheduler (1 / 2)) zeroCatalog) [1, 2, 3] =
        Except.ok (vr, topo) →
      Machine.dpLoop wrapLL (Machine.prepared (newScheduler (1 / 2)) zeroCatalog)
        Objective.REVENUE (eventsByVenue zeroCatalog) topo
        { dp := fun _ => none, parent := fun _ => none, maxTotalScore := 0,
          lastEventId := -1 } = Except.ok st →
      ∀ e ∈ zeroCatalog, ∀ v, st.dp e.id = some v →
        Machine.calculateWeight (Machine.prepared (newScheduler (1 / 2)) zeroCatalog) e
          Objective.REVENUE ≤ v) ∧
    ∃ r, Machine.run wrapLL (newScheduler (1 / 2)) [1, 2, 3] zeroCatalog Objective.REVENUE =
        Except.ok r ∧ r.success = true ∧
      ∀ e ∈ zeroCatalog,
        Machine.calculateWeight (Machine.prepared (newScheduler (1 / 2)) zeroCatalog) e
          Objective.REVENUE ≤ r.total_score :=
  score_lower_bound (newScheduler (1 / 2)) [1, 2, 3] zeroCatalog Objective.REVENUE
    (by decide) ⟨by unfold AllDepsExist; decide, zeroCatalog_acyclic, by decide⟩
    (by unfold IsKeyOrder; decide) (by decide)
    (fun r hr => by
      have h : Machine.run id (newScheduler (1 / 2)) [1, 2, 3] zeroCatalog
          Objective.REVENUE = Except.ok ⟨15, zeroCatalog, "", true⟩ := by decide!
      rw [h] at hr
      rw [← Except.ok.inj hr]
      decide)

/-- C28 as stated fails on `overflowCatalog` (unique ids, passes validation, attendance
weights `2 ^ 62` and `2 ^ 62 + 1`, event 2 depends on event 1): the sum for event 2 exceeds
the largest `long long` and wraps to a negative value, so for both iteration orders of the
key map `run` returns the total score `2 ^ 62`, which is less than the weight of
event 2. -/
theorem score_lower_bound_counterexample :
    (allIds overflowCatalog).Nodup ∧ PassesValidation overflowCatalog ∧
    (∀ e ∈ overflowCatalog,
      0 ≤ Machine.calculateWeight (Machine.prepared (newScheduler (1 / 2)) overflowCatalog) e
        Objective.ATTENDANCE) ∧
    Machine.run wrapLL (newScheduler (1 / 2)) [1, 2] overflowCatalog Objective.ATTENDANCE =
      Except.ok overflowResult ∧
    Machine.run wrapLL (newScheduler (1 / 2)) [2, 1] overflowCatalog Objective.ATTENDANCE =
      Except.ok overflowResult ∧
    ∃ e ∈ overflowCatalog, overflowResult.total_score <
      Machine.calculateWeight (Machine.prepared (newScheduler (1 / 2)) overflowCatalog) e
        Objective.ATTENDANCE := by
  refine ⟨by decide, ⟨by unfold AllDepsExist; decide, overflowCatalog_acyclic, by decide⟩,
    by decide, by decide!, by decide!, ?_⟩
  exact ⟨{ id := 2, start := 1, end_ := 2, attendance := 4611686018427387905, revenue := 1,
           venue := "A", deps := [1] }, by decide, by decide⟩

end EventScheduler
